import Mathlib

/-!
# Verification of the mycopunk hex solver

Shallow embedding of the hex-grid geometry (`src/public/hexgrid.js`), the
parallel backtracking solver worker (`src/public/solver-worker.js`) and the
main-thread placement compiler / work partitioner / aggregator
(`solveWithWorkers` in the unnamed main script), together with theorems
settling the frozen claims about this program.

Conventions of the embedding:
* JS numbers that hold hex coordinates are embedded as `Int`; dense cell and
  placement indices as `Nat`.
* JS `x % y` (truncating remainder) is `Int.tmod`; JS `x & 1` on an integer is
  `Int.emod x 2` (two's-complement AND with 1 yields 1 exactly on odd
  integers, also negative ones); the divisions `/ 2` in the coordinate
  conversions always act on even numbers, so every division convention
  agrees with JS there.
* JS `Array.prototype.sort` (stable since ES2019) with comparator
  `(a, b) => key a - key b` is `stableSort` below with the corresponding
  non-strict `≤` on keys: a stable insertion sort (insertion after equal
  elements keeps the original order of ties, exactly like the JS sort).
-/

namespace HexSolver

/-- JS `q & 1` on an integer: two's-complement AND with 1, i.e. 1 exactly
when `q` is odd (also for negative `q`, e.g. `-3 & 1 = 1`). -/
def jsAnd1 (q : Int) : Int := q % 2

/-- The odd-q offset → axial conversion of the `r` coordinate,
`r - (q - (q & 1)) / 2`, shared verbatim by `oddQToAxial` in
solver-worker.js and the inline conversions in hexgrid.js
(`rotateHex`, `addHex`, `subtractHex`). The `q` coordinate is unchanged. -/
def oddQToAxialR (q r : Int) : Int := r - (q - jsAnd1 q) / 2

/-- The axial → odd-q offset conversion of the `r` coordinate,
`r + (q - (q & 1)) / 2` (`axialToOddQ` in solver-worker.js and the inline
back-conversions in hexgrid.js). -/
def axialToOddQR (q r : Int) : Int := r + (q - jsAnd1 q) / 2

/-- One iteration of the rotation loop body in solver-worker.js `rotateHex`:
`[q, r, s] = [-r, -s, -q]` on the axial/cube triple. -/
def rotStepWorker (t : Int × Int × Int) : Int × Int × Int :=
  (-t.2.1, -t.2.2, -t.1)

/-- One iteration of the rotation loop body in hexgrid.js `rotateHex`:
`nx = -z; ny = -x; nz = -y` on the cube triple `(x, y, z)`. -/
def rotStepLib (t : Int × Int × Int) : Int × Int × Int :=
  (-t.2.2, -t.1, -t.2.1)

/-- `iterStep f n t` applies `f` to `t` exactly `n` times (the JS
`for (let i = 0; i < n; i++)` loops around the rotation step bodies). -/
def iterStep {α : Type} (f : α → α) : Nat → α → α
  | 0, t => t
  | n + 1, t => iterStep f n (f t)

/-- JS `(steps % 6 + 6) % 6` with the truncating JS `%`: the normalised
rotation count in `[0, 6)` used by both `rotateHex` implementations. -/
def jsNormSix (steps : Int) : Int := (steps.tmod 6 + 6).tmod 6

/-- `rotateHex` from solver-worker.js: convert odd-q offset to axial, apply
the step `[q,r,s] = [-r,-s,-q]` a normalised number of times, convert back. -/
def rotateHexWorker (h : Int × Int) (steps : Int) : Int × Int :=
  let aq := h.1
  let ar := oddQToAxialR h.1 h.2
  let t := iterStep rotStepWorker (jsNormSix steps).toNat (aq, ar, -aq - ar)
  (t.1, axialToOddQR t.1 t.2.1)

/-- `rotateHex` from hexgrid.js: after normalising `times`, return the hex
unchanged for 0, else convert odd-q offset to axial/cube, apply the step
`nx = -z; ny = -x; nz = -y` that many times, convert back. -/
def rotateHexLib (h : Int × Int) (times : Int) : Int × Int :=
  if jsNormSix times = 0 then h
  else
    let aq := h.1
    let ar := oddQToAxialR h.1 h.2
    let t := iterStep rotStepLib (jsNormSix times).toNat (aq, ar, -aq - ar)
    (t.1, axialToOddQR t.1 t.2.1)

/-- `addHex` from solver-worker.js: convert both odd-q hexes to axial, add
componentwise, convert the sum back to odd-q offset. -/
def addHexWorker (a b : Int × Int) : Int × Int :=
  let aa := (a.1, oddQToAxialR a.1 a.2)
  let bb := (b.1, oddQToAxialR b.1 b.2)
  let sq := aa.1 + bb.1
  let sr := aa.2 + bb.2
  (sq, axialToOddQR sq sr)

/-- `addHex` from hexgrid.js: the same convert-add-convert computation
written with the conversions inlined. -/
def addHexLib (a b : Int × Int) : Int × Int :=
  let saq := a.1 + b.1
  let sar := oddQToAxialR a.1 a.2 + oddQToAxialR b.1 b.2
  (saq, axialToOddQR saq sar)

/-- The axial/cube triple both rotate functions build from an odd-q hex. -/
def toAxialTriple (h : Int × Int) : Int × Int × Int :=
  (h.1, oddQToAxialR h.1 h.2, -h.1 - oddQToAxialR h.1 h.2)

/-- The odd-q hex both rotate functions rebuild from an axial/cube triple. -/
def ofAxialTriple (t : Int × Int × Int) : Int × Int :=
  (t.1, axialToOddQR t.1 t.2.1)

/-- A cube triple is well-formed when its components sum to zero. -/
def SumZero (t : Int × Int × Int) : Prop := t.1 + t.2.1 + t.2.2 = 0

/-- Insert `x` into a sorted list, after every element `y` with `le y x`
(so ties keep their original relative order). -/
def insertSorted {α : Type} (le : α → α → Bool) (x : α) : List α → List α
  | [] => [x]
  | y :: ys => if le y x then y :: insertSorted le x ys else x :: y :: ys

/-- Stable insertion sort: the model of JS `Array.prototype.sort` with a
comparator `(a, b) => key a - key b` (stable, ascending in `le`). -/
def stableSort {α : Type} (le : α → α → Bool) (l : List α) : List α :=
  l.foldl (fun acc x => insertSorted le x acc) []

/-! ## The solver worker (solver-worker.js)

Data model: cell indices, placement indices and piece indices are dense
`Nat` indices exactly as in the packed typed arrays the worker receives.
A `Placement` is one row of `placementsMeta` together with its slice of
`placementsTargets` (the `targetsStart`/`targetsLen` indirection into the
shared target array is represented by the target list itself). Out-of-range
typed-array reads (JS `undefined`) cannot occur for the inputs produced by
the placement compiler; in the embedding, out-of-range occupancy reads
default to `0`, which like JS `undefined` is `≠ -1` (treated as occupied),
and out-of-range writes are no-ops like on a JS typed array. -/

/-- A piece as sent to the worker: `{ id, size }`. -/
structure Piece where
  id : Nat
  size : Nat
deriving DecidableEq

/-- One compiled placement: one row of `placementsMeta`
(`pieceIdx, pieceId, anchorIdx, rot, targetsStart, targetsLen`) with its
target-cell index list from `placementsTargets`. -/
structure Placement where
  pieceIdx : Nat
  pieceId : Nat
  anchorIdx : Nat
  rot : Nat
  targets : List Nat
deriving DecidableEq

/-- An item of the worker's internal `currentSolution` stack:
`{ pieceId, anchorIdx, rot, pIdx }`. -/
structure SolItem where
  pieceId : Nat
  anchorIdx : Nat
  rot : Nat
  pIdx : Nat
deriving DecidableEq

/-- An item of an exported solution: `{ piece, anchor, rot }` with the
anchor as board coordinates. -/
structure ExpItem where
  piece : Nat
  anchor : Int × Int
  rot : Nat
deriving DecidableEq

/-- The read-only data one worker receives in its START message. -/
structure Ctx where
  boardSize : Nat
  pieces : List Piece
  placements : List Placement
  piecePlacementStart : List Nat
  piecePlacementCount : List Nat
  neighbors : List (List Nat)
  boardCells : List (Int × Int)
deriving DecidableEq

def defaultPlacement : Placement := ⟨0, 0, 0, 0, []⟩

/-- Look up one placement row by dense placement index. -/
def Ctx.placement (c : Ctx) (pIdx : Nat) : Placement :=
  c.placements.getD pIdx defaultPlacement

/-- Look up one piece by piece index. -/
def Ctx.pieceAt (c : Ctx) (pi : Nat) : Piece :=
  c.pieces.getD pi ⟨0, 0⟩

/-- The placement indices of piece `pi`:
`piecePlacementStart[pi] + off` for `off < piecePlacementCount[pi]`. -/
def Ctx.placementIdxs (c : Ctx) (pi : Nat) : List Nat :=
  (List.range (c.piecePlacementCount.getD pi 0)).map
    (fun off => c.piecePlacementStart.getD pi 0 + off)

/-- The worker's mutable search state: the occupancy and depth-stamp arrays,
the recursion depth counter, and the solution bookkeeping
(`bestCoverage`, `topSolutions`, `seenSignatures`, `searchCount`). -/
structure BState where
  occupancy : List Int
  depthStamp : List Nat
  depth : Nat
  bestCoverage : Nat
  topSolutions : List (List ExpItem)
  seenSignatures : List (List (Nat × Nat))
  searchCount : Nat
deriving DecidableEq

/-- `applyPlacementByIndex`: increment `depth`, then for each target cell
set `occupancy[cell] = pieceIdx` and `depthStamp[cell] = depth`. -/
def applyPlacementByIndex (c : Ctx) (s : BState) (pIdx pieceIdx : Nat) : BState :=
  let ts := (c.placement pIdx).targets
  let d := s.depth + 1
  { s with
    depth := d
    occupancy := ts.foldl (fun occ cellIdx => occ.set cellIdx (pieceIdx : Int)) s.occupancy
    depthStamp := ts.foldl (fun st cellIdx => st.set cellIdx d) s.depthStamp }

/-- One iteration of the `undoPlacementByIndex` loop: reset a target cell to
empty only if its depth stamp equals the current depth. -/
def undoStep (d : Nat) (p : List Int × List Nat) (cellIdx : Nat) : List Int × List Nat :=
  if p.2.getD cellIdx 0 = d then (p.1.set cellIdx (-1), p.2.set cellIdx 0) else p

/-- `undoPlacementByIndex`: clear the target cells still stamped with the
current depth, then decrement `depth`. -/
def undoPlacementByIndex (c : Ctx) (s : BState) (pIdx : Nat) : BState :=
  let ts := (c.placement pIdx).targets
  let p := ts.foldl (undoStep s.depth) (s.occupancy, s.depthStamp)
  { s with occupancy := p.1, depthStamp := p.2, depth := s.depth - 1 }

/-- A placement is currently legal when every target cell is empty
(the `ok` check in the counting and candidate loops). -/
def legalAt (c : Ctx) (occ : List Int) (pIdx : Nat) : Bool :=
  (c.placement pIdx).targets.all (fun t => decide (occ.getD t 0 = -1))

/-- JS `count >= bestCount` with `bestCount = Infinity` modeled as `none`. -/
def atBound : Option Nat → Nat → Bool
  | none, _ => false
  | some b, x => decide (b ≤ x)

/-- The short-circuited count of currently legal placements from a list of
placement indices: stop as soon as the count reaches `bound`. -/
def countLegalClamped (c : Ctx) (occ : List Int) (bound : Option Nat) :
    List Nat → Nat → Nat
  | [], count => count
  | pIdx :: rest, count =>
    if legalAt c occ pIdx then
      let count' := count + 1
      if atBound bound count' then count'
      else countLegalClamped c occ bound rest count'
    else countLegalClamped c occ bound rest count

/-- JS `count < bestCount` with `bestCount = Infinity` modeled as `none`. -/
def ltBound (x : Nat) : Option Nat → Bool
  | none => true
  | some b => decide (x < b)

/-- One iteration of the most-constrained-piece selection loop over
`(ri, pi)` pairs; the accumulator is `(bestRi, bestCount)` with JS's
`-1`/`Infinity` initial values modeled as `none`. -/
def selectStep (c : Ctx) (occ : List Int) (acc : Option Nat × Option Nat)
    (riPi : Nat × Nat) : Option Nat × Option Nat :=
  let count := countLegalClamped c occ acc.2 (c.placementIdxs riPi.2) 0
  if 0 < count ∧ ltBound count acc.2 then (some riPi.1, some count) else acc

/-- The most-constrained-piece selection loop of `backtrack`. -/
def selectLoop (c : Ctx) (occ : List Int) (remaining : List Nat) :
    Option Nat × Option Nat :=
  remaining.enum.foldl (selectStep c occ) (none, none)

/-- The unclamped specification count: how many placements of piece `pi`
are currently fully unoccupied. -/
def countLegalFull (c : Ctx) (occ : List Int) (pi : Nat) : Nat :=
  (c.placementIdxs pi).countP (legalAt c occ)

/-- `neighborsOccupiedCount`: how many neighbors of a cell are occupied. -/
def neighborsOccupiedCount (c : Ctx) (occ : List Int) (idx : Nat) : Nat :=
  (c.neighbors.getD idx []).countP (fun n => decide (occ.getD n 0 ≠ -1))

/-- The adjacency score of a placement: total occupied-neighbor count over
its target cells. -/
def adjScore (c : Ctx) (occ : List Int) (pIdx : Nat) : Nat :=
  ((c.placement pIdx).targets.map (neighborsOccupiedCount c occ)).sum

/-- The candidate list for the chosen piece: its currently legal placements
paired with adjacency scores, sorted stably by descending score
(JS `valid.sort((a, b) => b.adj - a.adj)`). -/
def buildValid (c : Ctx) (occ : List Int) (pi : Nat) : List (Nat × Nat) :=
  stableSort (fun a b => decide (b.2 ≤ a.2))
    (((c.placementIdxs pi).filter (legalAt c occ)).map
      (fun pIdx => (pIdx, adjScore c occ pIdx)))

/-- `exportSolution`: convert internal solution items to
`{ piece: pieceId, anchor: boardCells[anchorIdx], rot }`. -/
def exportSolution (c : Ctx) (sol : List SolItem) : List ExpItem :=
  sol.map (fun p =>
    { piece := p.pieceId, anchor := c.boardCells.getD p.anchorIdx (0, 0), rot := p.rot })

/-- The canonical ordering step of both signature computations: stable sort
of the `(cellIdx, pieceId)` pair list by cell index
(JS `cellToPiece.sort((a, b) => a[0] - b[0])`). The JSON string of the
sorted pair list is modeled by the sorted pair list itself (the encoding is
injective on lists of integer pairs). -/
def sortSignature (l : List (Nat × Nat)) : List (Nat × Nat) :=
  stableSort (fun a b => decide (a.1 ≤ b.1)) l

/-- The worker's `getSolutionCellSignature`: collect `(cellIdx, pieceId)`
for every target cell of every placement of the solution, then sort by cell
index. -/
def getSolutionCellSignature (c : Ctx) (sol : List SolItem) : List (Nat × Nat) :=
  sortSignature (sol.flatMap
    (fun p => (c.placement p.pIdx).targets.map (fun t => (t, p.pieceId))))

/-- The solution-recording prelude of `backtrack`: on strictly better
coverage, reset the recorded solutions to the current one; on a positive tie,
append it unless its canonical signature was already seen. -/
def recordSolution (c : Ctx) (s : BState) (cur : List SolItem) (cov : Nat) : BState :=
  if s.bestCoverage < cov then
    { s with
      bestCoverage := cov
      topSolutions := [exportSolution c cur]
      seenSignatures := [getSolutionCellSignature c cur] }
  else if cov = s.bestCoverage ∧ 0 < cov then
    let signature := getSolutionCellSignature c cur
    if signature ∈ s.seenSignatures then s
    else
      { s with
        seenSignatures := s.seenSignatures ++ [signature]
        topSolutions := s.topSolutions ++ [exportSolution c cur] }
  else s

/-- The node-accounting and recording prelude shared by every `backtrack`
call: `searchCount++` followed by `recordSolution`. -/
def recStep (c : Ctx) (currentSolution : List SolItem) (coverage : Nat) (s0 : BState) : BState :=
  recordSolution c { s0 with searchCount := s0.searchCount + 1 } currentSolution coverage

/-- The head of one `backtrack` call, up to (but not including) the
candidate loop: the `recStep` prelude, then the decision between the early
returns (`inl`: success-terminate on full coverage, prune on unreachable
bound, exhausted remaining list, no placeable piece, empty candidate list)
and entering the candidate loop (`inr`: the updated state, the selected
remaining-index and the sorted candidate list). The embedding models the
absence of cancellation (`shouldStop` stays `false`). -/
def btStep (c : Ctx) (remainingPieces : List Nat) (remainingSum : Nat)
    (currentSolution : List SolItem) (coverage : Nat) (s0 : BState) :
    (BState × Bool) ⊕ (BState × Nat × List (Nat × Nat)) :=
  if c.boardSize ≤ coverage then .inl (recStep c currentSolution coverage s0, true)
  else if coverage + remainingSum ≤ (recStep c currentSolution coverage s0).bestCoverage then
    .inl (recStep c currentSolution coverage s0, false)
  else if remainingPieces.isEmpty then .inl (recStep c currentSolution coverage s0, false)
  else
    match (selectLoop c (recStep c currentSolution coverage s0).occupancy remainingPieces).1 with
    | none => .inl (recStep c currentSolution coverage s0, false)
    | some bestRi =>
      if (buildValid c (recStep c currentSolution coverage s0).occupancy
          (remainingPieces.getD bestRi 0)).isEmpty then
        .inl (recStep c currentSolution coverage s0, false)
      else
        .inr (recStep c currentSolution coverage s0, bestRi,
          buildValid c (recStep c currentSolution coverage s0).occupancy
            (remainingPieces.getD bestRi 0))

/-- The candidate loop of `backtrack`: apply a candidate placement, recurse
via `recur` on the extended solution, undo the placement, and propagate a
`true` (stop) result immediately without trying further candidates. -/
def placementLoop (c : Ctx) (recur : List SolItem → Nat → BState → BState × Bool)
    (chosenPi : Nat) (cur : List SolItem) (cov : Nat) :
    List (Nat × Nat) → BState → BState × Bool
  | [], s => (s, false)
  | v :: rest, s =>
    let pIdx := v.1
    let s1 := applyPlacementByIndex c s pIdx chosenPi
    let m := c.placement pIdx
    let item : SolItem := { pieceId := m.pieceId, anchorIdx := m.anchorIdx, rot := m.rot, pIdx := pIdx }
    let res := recur (cur ++ [item]) (cov + m.targets.length)  s1
    let s3 := undoPlacementByIndex c res.1 pIdx
    if res.2 then (s3, true)
    else placementLoop c recur chosenPi cur cov rest s3

/-- The solution item the candidate loop pushes for placement `pIdx`
(the fields read from `placementsMeta`). -/
def loopItem (c : Ctx) (pIdx : Nat) : SolItem :=
  ⟨(c.placement pIdx).pieceId, (c.placement pIdx).anchorIdx, (c.placement pIdx).rot, pIdx⟩

/-- The recursive `backtrack` procedure, with the recursion depth bounded by
`fuel`; every call site uses `fuel = remainingPieces.length`, and the
recursion removes one remaining piece per level, so the fuel-exhausted
branch (which returns a dead-end like the JS function would never do) is
unreachable in every run of the model. -/
def btAux (c : Ctx) : Nat → List Nat → Nat → List SolItem → Nat → BState → BState × Bool
  | 0, remainingPieces, remainingSum, currentSolution, coverage, s0 =>
    (match btStep c remainingPieces remainingSum currentSolution coverage s0 with
     | .inl r => r
     | .inr (s2, _, _) => (s2, false))
  | fuel + 1, remainingPieces, remainingSum, currentSolution, coverage, s0 =>
    (match btStep c remainingPieces remainingSum currentSolution coverage s0 with
     | .inl r => r
     | .inr (s2, bestRi, valid) =>
       let chosenPi := remainingPieces.getD bestRi 0
       placementLoop c
         (btAux c fuel (remainingPieces.eraseIdx bestRi)
           (remainingSum - (c.pieceAt chosenPi).size))
         chosenPi currentSolution coverage valid s2)

/-- `backtrack(remainingPieces, remainingSum, currentSolution, coverage)`. -/
def backtrack (c : Ctx) (remainingPieces : List Nat) (remainingSum : Nat)
    (currentSolution : List SolItem) (coverage : Nat) (s : BState) : BState × Bool :=
  btAux c remainingPieces.length remainingPieces remainingSum currentSolution coverage s

/-- The worker's top-level loop over its assigned first-piece placement
indices: apply the placement, run `backtrack` (its boolean result is
discarded), undo the placement and reset `depth` to 0. -/
def solveLoop (c : Ctx) (firstPieceIdx : Nat) (remainingAfterFirst : List Nat)
    (remainingAfterFirstSum : Nat) : List Nat → BState → BState
  | [], s => s
  | pIdx :: rest, s =>
    let s1 := applyPlacementByIndex c s pIdx firstPieceIdx
    let m := c.placement pIdx
    let pieceId := if m.pieceId = 0 then (c.pieceAt firstPieceIdx).id else m.pieceId
    let initialSolution : List SolItem :=
      [{ pieceId := pieceId, anchorIdx := m.anchorIdx, rot := m.rot, pIdx := pIdx }]
    let res := backtrack c remainingAfterFirst remainingAfterFirstSum initialSolution
      m.targets.length s1
    let s3 := undoPlacementByIndex c res.1 pIdx
    solveLoop c firstPieceIdx remainingAfterFirst remainingAfterFirstSum rest
      { s3 with depth := 0 }

/-- A worker's COMPLETE message payload. -/
structure WorkerReport where
  solutions : List (List ExpItem)
  coverage : Nat
  searchCount : Nat
deriving DecidableEq

/-- The worker state right after the START message: empty board, fresh
counters, `bestCoverage` seeded from `initialBestCoverage`. -/
def initState (c : Ctx) (initialBestCoverage : Nat) : BState :=
  { occupancy := List.replicate c.boardSize (-1)
    depthStamp := List.replicate c.boardSize 0
    depth := 0
    bestCoverage := initialBestCoverage
    topSolutions := []
    seenSignatures := []
    searchCount := 0 }

/-- The worker's `solve`: fix the first piece (`pieceOrder[0]`), iterate the
assigned first-piece placements, and report the final solutions, coverage
and node count. The `pieceId || pieces[firstPieceIdx].id` fallback (JS `||`
treats the id 0 as falsy) is modeled by the explicit `if`. -/
def solve (c : Ctx) (pieceOrder : List Nat) (assignedPlacementIndices : List Nat)
    (initialBestCoverage : Nat) : WorkerReport :=
  let firstPieceIdx := pieceOrder.headD 0
  let remainingAfterFirst := pieceOrder.tail
  let remainingAfterFirstSum := (remainingAfterFirst.map (fun i => (c.pieceAt i).size)).sum
  let s := solveLoop c firstPieceIdx remainingAfterFirst remainingAfterFirstSum
    assignedPlacementIndices (initState c initialBestCoverage)
  { solutions := s.topSolutions, coverage := s.bestCoverage, searchCount := s.searchCount }

/-! ## The main thread (`solveWithWorkers`): placement compiler, work
partitioner and aggregator -/

/-- A piece as stored in the editor's catalog: an id and its offset cells. -/
structure PieceDef where
  id : Nat
  cells : List (Int × Int)
deriving DecidableEq

/-- `generateRect(w, h)`: the board cells `(q, r)` for `q ∈ [0, w)`,
`r ∈ [0, h)` in insertion order (`q` outer, `r` inner) — the order
`getCellsArray` returns them in and hence the dense cell indexing. -/
def boardCellsRect (w h : Nat) : List (Int × Int) :=
  (List.range w).flatMap (fun q => (List.range h).map (fun r : Nat => ((q : Int), (r : Int))))

/-- `cellIndexMap.get(cell.key())`: the dense index of a board cell. -/
def cellIndexOf (w h : Nat) (cell : Int × Int) : Option Nat :=
  (boardCellsRect w h).findIdx? (fun c => decide (c = cell))

/-- hexgrid.js `HEX_DIRECTIONS`; `HexGrid.neighbors` adds them with the
plain componentwise `add`. -/
def hexDirections : List (Int × Int) :=
  [(1, 0), (1, -1), (0, -1), (-1, 0), (-1, 1), (0, 1)]

/-- The neighbor indices of a board cell, in direction order, keeping only
cells that exist on the board. -/
def neighborIdxs (w h : Nat) (cell : Int × Int) : List Nat :=
  hexDirections.filterMap (fun d => cellIndexOf w h (cell.1 + d.1, cell.2 + d.2))

/-- The target list of one candidate placement: rotate each offset with the
library `rotateHex`, translate with the library `addHex`, and fail (like the
JS `valid = false; break`) if any resulting cell is off the board. -/
def placementTargets (w h : Nat) (pd : PieceDef) (anchor : Int × Int) (rot : Nat) :
    Option (List Nat) :=
  pd.cells.mapM (fun off => cellIndexOf w h (addHexLib anchor (rotateHexLib off (rot : Int))))

/-- All legal placements of one piece: for every rotation below the limit,
for every anchor cell in board order, the placement record if it fits. -/
def compiledPlacements (w h rotLimit pi : Nat) (pd : PieceDef) : List Placement :=
  (List.range rotLimit).flatMap (fun rot =>
    (boardCellsRect w h).filterMap (fun anchor =>
      (placementTargets w h pd anchor rot).map (fun targets =>
        { pieceIdx := pi, pieceId := pd.id,
          anchorIdx := (cellIndexOf w h anchor).getD 0, rot := rot,
          targets := targets })))

/-- The per-piece placement lists (`piecePlacements`). -/
def piecePlacementLists (w h rotLimit : Nat) (pieceDefs : List PieceDef) :
    List (List Placement) :=
  pieceDefs.enum.map (fun p => compiledPlacements w h rotLimit p.1 p.2)

/-- `piecePlacementStart`: the running placement index at which each piece's
contiguous slice begins in the flattened table. -/
def startsOf (ls : List (List Placement)) : List Nat :=
  (List.range ls.length).map (fun pi => ((ls.take pi).map List.length).sum)

/-- Build the packed worker context from board dimensions, the piece
catalog and the rotation flag (rotation-count limit 1 when rotations are
disabled, else 6). -/
def mkCtx (w h : Nat) (pieceDefs : List PieceDef) (rotationsEnabled : Bool) : Ctx :=
  let rotLimit := if rotationsEnabled then 6 else 1
  let ls := piecePlacementLists w h rotLimit pieceDefs
  { boardSize := w * h
    pieces := pieceDefs.map (fun p => { id := p.id, size := p.cells.length })
    placements := ls.flatten
    piecePlacementStart := startsOf ls
    piecePlacementCount := ls.map List.length
    neighbors := (boardCellsRect w h).map (neighborIdxs w h)
    boardCells := boardCellsRect w h }

/-- The static most-constrained-variable ordering: piece indices stably
sorted by ascending placement count (JS
`pieces.map((p, i) => i).sort((a, b) => count a - count b)`). -/
def pieceOrderOf (counts : List Nat) : List Nat :=
  stableSort (fun a b => decide (counts.getD a 0 ≤ counts.getD b 0))
    (List.range counts.length)

/-- `Math.ceil(firstPieceCount / numWorkers)`. -/
def placementsPerWorker (firstPieceCount numWorkers : Nat) : Nat :=
  (firstPieceCount + numWorkers - 1) / numWorkers

/-- The worker ids actually spawned: the spawn loop
`for (i = 0; i < numWorkers && i * placementsPerWorker < firstPieceCount; i++)`
stops at the first out-of-work index. -/
def spawnedWorkerIds (numWorkers ppw firstPieceCount : Nat) : List Nat :=
  (List.range numWorkers).takeWhile (fun i => decide (i * ppw < firstPieceCount))

/-- Worker `i`'s contiguous slice of first-piece placement indices. -/
def assignedSlice (firstPieceStart firstPieceCount ppw i : Nat) : List Nat :=
  let startIdx := i * ppw
  let endIdx := min (startIdx + ppw) firstPieceCount
  (List.range (endIdx - startIdx)).map (fun k => firstPieceStart + startIdx + k)

/-- The main thread's `getSolutionCellSignature`: replay each exported
placement (find the piece by id, rotate and translate its offsets with the
library functions), keep targets that exist on the board, sort by cell
index. -/
def mainSignature (w h : Nat) (pieceDefs : List PieceDef) (sol : List ExpItem) :
    List (Nat × Nat) :=
  sortSignature (sol.flatMap (fun placement =>
    match pieceDefs.find? (fun p => decide (p.id = placement.piece)) with
    | none => []
    | some piece => piece.cells.filterMap (fun off =>
        (cellIndexOf w h (addHexLib placement.anchor (rotateHexLib off (placement.rot : Int)))).map
          (fun cellIdx => (cellIdx, placement.piece)))))

/-- One step of the aggregator's same-coverage merge: append a worker
solution only if its canonical signature is not already present. -/
def mergeDedupStep (sig : List ExpItem → List (Nat × Nat))
    (acc : List (List ExpItem) × List (List (Nat × Nat))) (newSol : List ExpItem) :
    List (List ExpItem) × List (List (Nat × Nat)) :=
  let signature := sig newSol
  if signature ∈ acc.2 then acc else (acc.1 ++ [newSol], acc.2 ++ [signature])

/-- The aggregator's same-coverage merge (`existingSignatures` seeded from
the current global solutions, then one dedup pass over the new ones). -/
def mergeSolutions (sig : List ExpItem → List (Nat × Nat))
    (top new : List (List ExpItem)) : List (List ExpItem) :=
  (new.foldl (mergeDedupStep sig) (top, top.map sig)).1

/-- The aggregator's handling of one worker COMPLETE message: replace the
global solutions on strictly better coverage, merge with dedup on a tie,
discard on strictly worse coverage. -/
def aggStep (sig : List ExpItem → List (Nat × Nat))
    (acc : Nat × List (List ExpItem)) (r : WorkerReport) : Nat × List (List ExpItem) :=
  if acc.1 < r.coverage then (r.coverage, r.solutions)
  else if r.coverage = acc.1 then (acc.1, mergeSolutions sig acc.2 r.solutions)
  else acc

/-- Fold the aggregator over the workers' completion reports in their
arrival order, starting from global best coverage 0 and no solutions. -/
def aggregate (sig : List ExpItem → List (Nat × Nat)) (reports : List WorkerReport) :
    Nat × List (List ExpItem) :=
  reports.foldl (aggStep sig) (0, [])

/-- The final outcome of one run. -/
structure RunResult where
  coverage : Nat
  solutions : List (List ExpItem)
deriving DecidableEq

/-- One complete run of `solveWithWorkers`, with worker completion reports
arriving in the order `arrivalOrder` (the model of the concurrent run; any
permutation of the spawned worker ids can occur). Every worker is seeded
with `initialBestCoverage = 0` because the spawn loop runs to completion
before any message handler. When no worker is spawned the completion block
(guarded by `completedWorkers >= workers.length` inside a worker message
handler) never runs, and no final result is ever produced: `none`. -/
def fullRun (w h : Nat) (pieceDefs : List PieceDef) (rotationsEnabled : Bool)
    (numWorkers : Nat) (arrivalOrder : List Nat) : Option RunResult :=
  let c := mkCtx w h pieceDefs rotationsEnabled
  let pieceOrder := pieceOrderOf c.piecePlacementCount
  let firstPieceIdx := pieceOrder.headD 0
  let firstPieceStart := c.piecePlacementStart.getD firstPieceIdx 0
  let firstPieceCount := c.piecePlacementCount.getD firstPieceIdx 0
  let ppw := placementsPerWorker firstPieceCount numWorkers
  let spawned := spawnedWorkerIds numWorkers ppw firstPieceCount
  if spawned.isEmpty then none
  else
    let reports := arrivalOrder.map (fun i =>
      solve c pieceOrder (assignedSlice firstPieceStart firstPieceCount ppw i) 0)
    let agg := aggregate (mainSignature w h pieceDefs) reports
    some { coverage := agg.1, solutions := agg.2 }

/-- The single-threaded run: one worker searches the entire first-piece
placement list, seeded with best coverage 0. -/
def singleRun (w h : Nat) (pieceDefs : List PieceDef) (rotationsEnabled : Bool) :
    WorkerReport :=
  let c := mkCtx w h pieceDefs rotationsEnabled
  let pieceOrder := pieceOrderOf c.piecePlacementCount
  let firstPieceIdx := pieceOrder.headD 0
  solve c pieceOrder (c.placementIdxs firstPieceIdx) 0

/-! ## Claim-level definitions -/

/-- Number of occupied cells of an occupancy array. -/
def occupiedCount (occ : List Int) : Nat := occ.countP (fun v => decide (v ≠ -1))

/-- Well-formedness of a placement table: target lists have no duplicates
and refer to on-board cells. Every compiled context satisfies it. -/
def TargetsOK (c : Ctx) : Prop :=
  ∀ p ∈ c.placements, p.targets.Nodup ∧ ∀ t ∈ p.targets, t < c.boardSize

/-- Consistency of the per-piece slice tables with the flat placement table:
each piece's slice indices are in range, its rows carry that piece's index,
and the target count matches the piece size. Every compiled context
satisfies it. -/
def SlicesOK (c : Ctx) : Prop :=
  ∀ pi, pi < c.pieces.length → ∀ pIdx ∈ c.placementIdxs pi,
    pIdx < c.placements.length ∧ (c.placement pIdx).pieceIdx = pi ∧
    (c.placement pIdx).targets.length = (c.pieceAt pi).size

/-- A legal covering: a duplicate-free selection of placement rows using
each piece at most once, with pairwise disjoint target sets. -/
def LegalCovering (c : Ctx) (S : List Nat) : Prop :=
  S.Nodup ∧ (∀ p ∈ S, p < c.placements.length) ∧
  (S.map (fun p => (c.placement p).pieceIdx)).Nodup ∧
  S.Pairwise (fun p q => ∀ t ∈ (c.placement p).targets, t ∉ (c.placement q).targets)

/-- The number of cells a selection of placements covers. -/
def coverageOf (c : Ctx) (S : List Nat) : Nat :=
  (S.map (fun p => (c.placement p).targets.length)).sum

/-- The canonical cell-to-piece covering induced by a selection of
placement rows. -/
def coveringSigOf (c : Ctx) (S : List Nat) : List (Nat × Nat) :=
  sortSignature (S.flatMap
    (fun p => (c.placement p).targets.map (fun t => (t, (c.placement p).pieceId))))

/-- `n` is the maximum coverage achievable by a legal covering on `c`. -/
def IsMaxCoverage (c : Ctx) (n : Nat) : Prop :=
  (∃ S, LegalCovering c S ∧ coverageOf c S = n) ∧
  ∀ S, LegalCovering c S → coverageOf c S ≤ n

instance decTargetsOK (c : Ctx) : Decidable (TargetsOK c) :=
  inferInstanceAs (Decidable (∀ p ∈ c.placements, p.targets.Nodup ∧ ∀ t ∈ p.targets, t < c.boardSize))

instance decSlicesOK (c : Ctx) : Decidable (SlicesOK c) :=
  inferInstanceAs (Decidable (∀ pi, pi < c.pieces.length → ∀ pIdx ∈ c.placementIdxs pi,
    pIdx < c.placements.length ∧ (c.placement pIdx).pieceIdx = pi ∧
    (c.placement pIdx).targets.length = (c.pieceAt pi).size))

instance decLegalCovering (c : Ctx) (S : List Nat) : Decidable (LegalCovering c S) :=
  inferInstanceAs (Decidable (S.Nodup ∧ (∀ p ∈ S, p < c.placements.length) ∧
    (S.map (fun p => (c.placement p).pieceIdx)).Nodup ∧
    S.Pairwise (fun p q => ∀ t ∈ (c.placement p).targets, t ∉ (c.placement q).targets)))

/-- The unclamped variant of `selectStep`: the same selection update driven
by the full legal-placement count of the candidate piece (the reference
against which the short-circuited count is checked). -/
def selectStepFull (c : Ctx) (occ : List Int) (acc : Option Nat × Option Nat)
    (riPi : Nat × Nat) : Option Nat × Option Nat :=
  let count := countLegalFull c occ riPi.2
  if 0 < count ∧ ltBound count acc.2 then (some riPi.1, some count) else acc

/-- The most-constrained-piece selection loop with full (unclamped)
counting. -/
def selectLoopFull (c : Ctx) (occ : List Int) (remaining : List Nat) :
    Option Nat × Option Nat :=
  remaining.enum.foldl (selectStepFull c occ) (none, none)

/-- Specification of the most-constrained-piece selection over a list of
`(remaining index, piece index)` candidates: either no candidate has a
positive count and nothing is selected, or the selected candidate is the
earliest one with the strictly minimal positive count. -/
def SelSpec (c : Ctx) (occ : List Int) (L : List (Nat × Nat))
    (R : Option Nat × Option Nat) : Prop :=
  (R = (none, none) ∧ ∀ q ∈ L, countLegalFull c occ q.2 = 0) ∨
  (∃ riPi, riPi ∈ L ∧ R = (some riPi.1, some (countLegalFull c occ riPi.2)) ∧
    0 < countLegalFull c occ riPi.2 ∧
    (∀ q ∈ L, 0 < countLegalFull c occ q.2 →
      countLegalFull c occ riPi.2 ≤ countLegalFull c occ q.2) ∧
    (∀ q ∈ L, q.1 < riPi.1 →
      countLegalFull c occ q.2 = 0 ∨ countLegalFull c occ riPi.2 < countLegalFull c occ q.2))

/-- The stamp-discipline invariant of the worker's occupancy state: the two
arrays have the same length, no stamp exceeds the current depth, and empty
cells carry stamp 0. It holds initially and is maintained by every apply /
undo pair the search performs. -/
def StInv (s : BState) : Prop :=
  s.depthStamp.length = s.occupancy.length ∧
  (∀ t, s.depthStamp.getD t 0 ≤ s.depth) ∧
  (∀ t, s.occupancy.getD t 0 = -1 → s.depthStamp.getD t 0 = 0)

/-- An internal solution item is consistent with its placement row. -/
def ItemOK (c : Ctx) (it : SolItem) : Prop :=
  it.pIdx < c.placements.length ∧
  it.pieceId = (c.placement it.pIdx).pieceId ∧
  it.anchorIdx = (c.placement it.pIdx).anchorIdx ∧
  it.rot = (c.placement it.pIdx).rot

/-- The target lists of the items of an internal solution are pairwise
disjoint. -/
def ItemsDisjoint (c : Ctx) (cur : List SolItem) : Prop :=
  cur.Pairwise (fun a b =>
    ∀ t ∈ (c.placement a.pIdx).targets, t ∉ (c.placement b.pIdx).targets)

/-- The coverage of an internal solution: the total target count of its
placements (what the worker's `coverage` argument accumulates). -/
def covOf (c : Ctx) (cur : List SolItem) : Nat :=
  (cur.map (fun it => (c.placement it.pIdx).targets.length)).sum

/-- The bookkeeping invariant of the worker's recorded solutions: they are
the exports of a list of internally consistent, pairwise-disjoint solutions
whose coverage is the current best, their signatures are exactly
`seenSignatures`, pairwise distinct, and a positive best implies at least
one recorded solution. -/
def SolsOK (c : Ctx) (s : BState) : Prop :=
  ∃ curs : List (List SolItem),
    s.topSolutions = curs.map (exportSolution c) ∧
    s.seenSignatures = curs.map (getSolutionCellSignature c) ∧
    s.seenSignatures.Nodup ∧
    (∀ cu ∈ curs, (∀ it ∈ cu, ItemOK c it) ∧ ItemsDisjoint c cu ∧
      covOf c cu = s.bestCoverage) ∧
    (0 < s.bestCoverage → s.topSolutions ≠ [])

/-- The full invariant of one `backtrack` call: the stamp discipline, the
board-sized occupancy array, the occupied-cell count matching the coverage
argument, every path item consistent and with its targets currently
occupied, pairwise disjointness along the path, the coverage argument being
the path's total target count, and the recorded-solution bookkeeping. -/
def Inv (c : Ctx) (cur : List SolItem) (cov : Nat) (s : BState) : Prop :=
  StInv s ∧ s.occupancy.length = c.boardSize ∧
  occupiedCount s.occupancy = cov ∧
  (∀ it ∈ cur, ItemOK c it ∧
    ∀ t ∈ (c.placement it.pIdx).targets, s.occupancy.getD t 0 ≠ -1) ∧
  ItemsDisjoint c cur ∧
  covOf c cur = cov ∧
  SolsOK c s

/-- What holds of a worker's COMPLETE report produced by a run from a clean
initial state. -/
def WorkerOK (c : Ctx) (r : WorkerReport) : Prop :=
  ∃ curs : List (List SolItem),
    r.solutions = curs.map (exportSolution c) ∧
    (curs.map (getSolutionCellSignature c)).Nodup ∧
    (∀ cu ∈ curs, (∀ it ∈ cu, ItemOK c it) ∧ ItemsDisjoint c cu ∧
      covOf c cu = r.coverage) ∧
    (0 < r.coverage → r.solutions ≠ [])

/-- The replayed target list of one exported placement: find the piece by
id, rotate and translate each offset with the library functions, and keep
the cells that exist on the board (the replay loop shared by the board
display, the persistence layer and the main thread's signature
computation). -/
def replayTargets (w h : Nat) (pieceDefs : List PieceDef) (it : ExpItem) : List Nat :=
  match pieceDefs.find? (fun p => decide (p.id = it.piece)) with
  | none => []
  | some piece => piece.cells.filterMap (fun off =>
      cellIndexOf w h (addHexLib it.anchor (rotateHexLib off (it.rot : Int))))

/-- The coverage-accounting invariant of a `backtrack` call: the stamp
discipline, a board-sized occupancy array, and the occupied-cell count
matching the coverage argument. -/
def CovInv (c : Ctx) (cov : Nat) (s : BState) : Prop :=
  StInv s ∧ s.occupancy.length = c.boardSize ∧ occupiedCount s.occupancy = cov

/-- What the spec promises of one solution in the final list, at reported
best coverage `cov`, phrased through the main thread's replay of the
exported placements: the replayed signature accounts for exactly `cov`
cells, the replayed target sets are pairwise disjoint, and every replayed
target is on the board. -/
def GoodSolution (w h : Nat) (pieceDefs : List PieceDef) (cov : Nat)
    (sol : List ExpItem) : Prop :=
  (mainSignature w h pieceDefs sol).length = cov ∧
  sol.Pairwise (fun a b =>
    ∀ t ∈ replayTargets w h pieceDefs a, t ∉ replayTargets w h pieceDefs b) ∧
  (∀ it ∈ sol, ∀ t ∈ replayTargets w h pieceDefs it, t < w * h)

/-- What holds of one worker's COMPLETE report as seen from the main
thread: solutions with pairwise-distinct main-thread signatures, each a
good solution at the report's coverage, and a nonempty list whenever the
coverage is positive. -/
def ReportOK (w h : Nat) (pieceDefs : List PieceDef) (r : WorkerReport) : Prop :=
  (r.solutions.map (mainSignature w h pieceDefs)).Nodup ∧
  (∀ sol ∈ r.solutions, GoodSolution w h pieceDefs r.coverage sol) ∧
  (0 < r.coverage → r.solutions ≠ [])

/-- The aggregator's invariant over its `(bestCoverage, solutions)`
accumulator. -/
def AggOK (w h : Nat) (pieceDefs : List PieceDef)
    (acc : Nat × List (List ExpItem)) : Prop :=
  (acc.2.map (mainSignature w h pieceDefs)).Nodup ∧
  (∀ sol ∈ acc.2, GoodSolution w h pieceDefs acc.1 sol) ∧
  (0 < acc.1 → acc.2 ≠ [])

/-- The initial solution item the worker's top-level loop builds for an
assigned first-piece placement (with the `pieceId || pieces[...].id` falsy
fallback). -/
def firstItem (c : Ctx) (firstPieceIdx pIdx : Nat) : SolItem :=
  { pieceId := if (c.placement pIdx).pieceId = 0 then (c.pieceAt firstPieceIdx).id
               else (c.placement pIdx).pieceId
    anchorIdx := (c.placement pIdx).anchorIdx
    rot := (c.placement pIdx).rot
    pIdx := pIdx }

/-- The value of one first-piece placement branch: the best coverage found
by `backtrack` below that placement when started on a clean board with best
coverage 0. -/
def branchVal (c : Ctx) (firstPieceIdx : Nat) (rem : List Nat) (sum : Nat)
    (pIdx : Nat) : Nat :=
  (backtrack c rem sum [firstItem c firstPieceIdx pIdx]
    (c.placement pIdx).targets.length
    (applyPlacementByIndex c (initState c 0) pIdx firstPieceIdx)).1.bestCoverage

/-- The fixed first piece of a run: the head of the static piece order. -/
def fpIdxOf (c : Ctx) : Nat := (pieceOrderOf c.piecePlacementCount).headD 0

/-- The flat-table start of the first piece's placement slice. -/
def fpStartOf (c : Ctx) : Nat := c.piecePlacementStart.getD (fpIdxOf c) 0

/-- The first piece's placement count. -/
def fpCountOf (c : Ctx) : Nat := c.piecePlacementCount.getD (fpIdxOf c) 0

/-- The COMPLETE report worker `i` of a multi-worker run produces. -/
def workerReport (w h : Nat) (pieceDefs : List PieceDef) (rotationsEnabled : Bool)
    (numWorkers i : Nat) : WorkerReport :=
  let c := mkCtx w h pieceDefs rotationsEnabled
  solve c (pieceOrderOf c.piecePlacementCount)
    (assignedSlice (fpStartOf c) (fpCountOf c)
      (placementsPerWorker (fpCountOf c) numWorkers) i) 0

/-! ## Concrete instances used by counterexamples and witnesses -/

/-- A single-cell piece with id 1. -/
def pieceG : PieceDef := ⟨1, [(0, 0)]⟩

/-- A single-cell piece with id 2. -/
def pieceH : PieceDef := ⟨2, [(0, 0)]⟩

/-- The 1×2 board context for the catalog of the two single-cell pieces,
rotations disabled. -/
def ctxGH : Ctx := mkCtx 1 2 [pieceG, pieceH] false

/-- A vertical domino with id 1 (unplaceable on a 1×1 board). -/
def pieceDomino : PieceDef := ⟨1, [(0, 0), (0, 1)]⟩

/-- A single-cell piece with id 2 for the 1×1 board instance. -/
def pieceSingle : PieceDef := ⟨2, [(0, 0)]⟩

/-! # THEOREMS -/

/-! ## Arithmetic facts about the coordinate conversions -/

theorem jsAnd1_shift (q : Int) : (q - jsAnd1 q) / 2 = q / 2 := by
  have h2 : q - jsAnd1 q = 2 * (q / 2) := by
    unfold jsAnd1; omega
  rw [h2, Int.mul_ediv_cancel_left _ (by norm_num)]

theorem axial_oddq_roundtrip (q r : Int) : axialToOddQR q (oddQToAxialR q r) = r := by
  unfold axialToOddQR oddQToAxialR jsAnd1
  omega

theorem oddq_axial_roundtrip (q r : Int) : oddQToAxialR q (axialToOddQR q r) = r := by
  unfold axialToOddQR oddQToAxialR jsAnd1
  omega

theorem tmod_neg_left (k : Int) : (-k).tmod 6 = -(k.tmod 6) := by
  rw [Int.tmod_def, Int.tmod_def, Int.neg_tdiv]
  ring

theorem jsNormSix_eq_emod (k : Int) : jsNormSix k = k % 6 := by
  unfold jsNormSix
  rcases le_or_lt 0 k with hk | hk
  · rw [Int.tmod_eq_emod hk (by norm_num)]
    have h1 : (0:Int) ≤ k % 6 := Int.emod_nonneg k (by norm_num)
    have h2 : k % 6 < 6 := Int.emod_lt_of_pos k (by norm_num)
    rw [Int.tmod_eq_emod (by omega) (by norm_num)]
    omega
  · have hnk : (0:Int) ≤ -k := by omega
    have hkk : k.tmod 6 = -((-k).tmod 6) := by
      have h := tmod_neg_left (-k)
      rw [neg_neg] at h
      omega
    rw [hkk, Int.tmod_eq_emod hnk (by norm_num)]
    have h1 : (0:Int) ≤ (-k) % 6 := Int.emod_nonneg _ (by norm_num)
    have h2 : (-k) % 6 < 6 := Int.emod_lt_of_pos _ (by norm_num)
    rw [Int.tmod_eq_emod (by omega) (by norm_num)]
    have h5 : (0:Int) ≤ k % 6 := Int.emod_nonneg k (by norm_num)
    have h6 : k % 6 < 6 := Int.emod_lt_of_pos k (by norm_num)
    omega

theorem jsNormSix_nonneg (k : Int) : 0 ≤ jsNormSix k := by
  rw [jsNormSix_eq_emod]; exact Int.emod_nonneg k (by norm_num)

theorem jsNormSix_lt_six (k : Int) : jsNormSix k < 6 := by
  rw [jsNormSix_eq_emod]; exact Int.emod_lt_of_pos k (by norm_num)

theorem jsNormSix_idem (k : Int) : jsNormSix (jsNormSix k) = jsNormSix k := by
  have h1 := jsNormSix_nonneg k
  have h2 := jsNormSix_lt_six k
  rw [jsNormSix_eq_emod (jsNormSix k)]
  omega

theorem jsNormSix_neg (k : Int) :
    jsNormSix (-k) = (6 - jsNormSix k) % 6 := by
  rw [jsNormSix_eq_emod, jsNormSix_eq_emod]
  omega

theorem jsNormSix_natCast (j : Nat) (hj : j < 6) : jsNormSix (j : Int) = (j : Int) := by
  rw [jsNormSix_eq_emod]
  omega

/-- `rotateHexLib` only depends on the normalised rotation count. -/
theorem rotateHexLib_congr (h : Int × Int) {k k' : Int}
    (hk : jsNormSix k = jsNormSix k') : rotateHexLib h k = rotateHexLib h k' := by
  unfold rotateHexLib
  rw [hk]

/-- `rotateHexWorker` only depends on the normalised rotation count. -/
theorem rotateHexWorker_congr (h : Int × Int) {k k' : Int}
    (hk : jsNormSix k = jsNormSix k') : rotateHexWorker h k = rotateHexWorker h k' := by
  unfold rotateHexWorker
  rw [hk]

/-! ## Rotation-step algebra -/

theorem sumZero_toAxialTriple (h : Int × Int) : SumZero (toAxialTriple h) := by
  unfold SumZero toAxialTriple
  ring

theorem sumZero_rotStepLib {t : Int × Int × Int} (ht : SumZero t) :
    SumZero (rotStepLib t) := by
  obtain ⟨x, y, z⟩ := t
  unfold SumZero rotStepLib at *
  simp only at ht ⊢
  omega

theorem sumZero_iterStep_lib {t : Int × Int × Int} (ht : SumZero t) (n : Nat) :
    SumZero (iterStep rotStepLib n t) := by
  induction n generalizing t with
  | zero => exact ht
  | succ n ih => exact ih (sumZero_rotStepLib ht)

theorem ofAxialTriple_toAxialTriple (h : Int × Int) : ofAxialTriple (toAxialTriple h) = h := by
  unfold ofAxialTriple toAxialTriple
  rw [axial_oddq_roundtrip]

theorem toAxialTriple_ofAxialTriple {t : Int × Int × Int} (ht : SumZero t) :
    toAxialTriple (ofAxialTriple t) = t := by
  unfold SumZero at ht
  obtain ⟨x, y, z⟩ := t
  unfold ofAxialTriple toAxialTriple
  simp only [oddq_axial_roundtrip]
  simp only [Prod.mk.injEq, true_and]
  simp only at ht
  omega

theorem iterStep_add {α : Type} (f : α → α) (m n : Nat) (t : α) :
    iterStep f (m + n) t = iterStep f n (iterStep f m t) := by
  induction m generalizing t with
  | zero => rw [Nat.zero_add]; rfl
  | succ m ih =>
    have h1 : m + 1 + n = (m + n) + 1 := by omega
    rw [h1]
    show iterStep f (m + n) (f t) = _
    rw [ih (f t)]
    rfl

theorem iterStep_lib_six (t : Int × Int × Int) : iterStep rotStepLib 6 t = t := by
  obtain ⟨x, y, z⟩ := t
  simp [iterStep, rotStepLib]

theorem iterStep_worker_six (t : Int × Int × Int) : iterStep rotStepWorker 6 t = t := by
  obtain ⟨x, y, z⟩ := t
  simp [iterStep, rotStepWorker]

theorem iterStep_worker_eq_lib (n : Nat) (hn : n ≤ 6) (t : Int × Int × Int) :
    iterStep rotStepWorker n t = iterStep rotStepLib (6 - n) t := by
  obtain ⟨x, y, z⟩ := t
  interval_cases n <;> simp [iterStep, rotStepWorker, rotStepLib]

/-- Normal form of the library rotate: the 0-rotation early return agrees
with the generic convert-iterate-convert path. -/
theorem rotateHexLib_eq_iter (h : Int × Int) (k : Int) :
    rotateHexLib h k = ofAxialTriple (iterStep rotStepLib (jsNormSix k).toNat (toAxialTriple h)) := by
  unfold rotateHexLib
  by_cases h0 : jsNormSix k = 0
  · rw [if_pos h0, h0]
    show h = ofAxialTriple (iterStep rotStepLib 0 (toAxialTriple h))
    rw [show iterStep rotStepLib 0 (toAxialTriple h) = toAxialTriple h from rfl,
      ofAxialTriple_toAxialTriple]
  · rw [if_neg h0]
    rfl

theorem rotateHexWorker_eq_iter (h : Int × Int) (k : Int) :
    rotateHexWorker h k = ofAxialTriple (iterStep rotStepWorker (jsNormSix k).toNat (toAxialTriple h)) := rfl

theorem sumZero_rotStepWorker {t : Int × Int × Int} (ht : SumZero t) :
    SumZero (rotStepWorker t) := by
  obtain ⟨x, y, z⟩ := t
  unfold SumZero rotStepWorker at *
  simp only at ht ⊢
  omega

theorem sumZero_iterStep_worker {t : Int × Int × Int} (ht : SumZero t) (n : Nat) :
    SumZero (iterStep rotStepWorker n t) := by
  induction n generalizing t with
  | zero => exact ht
  | succ n ih => exact ih (sumZero_rotStepWorker ht)

/-- Iterating the whole worker rotate (1 step at a time) is iterating its
cube-space step under the coordinate conversion. -/
theorem iter_singleStep_worker (n : Nat) (h : Int × Int) :
    iterStep (fun x => rotateHexWorker x 1) n h =
      ofAxialTriple (iterStep rotStepWorker n (toAxialTriple h)) := by
  induction n generalizing h with
  | zero => exact (ofAxialTriple_toAxialTriple h).symm
  | succ n ih =>
    show iterStep _ n (rotateHexWorker h 1) = _
    rw [ih]
    congr 1
    rw [rotateHexWorker_eq_iter]
    have h1 : (jsNormSix 1).toNat = 1 := by decide
    rw [h1,
      toAxialTriple_ofAxialTriple (sumZero_iterStep_worker (sumZero_toAxialTriple h) 1),
      ← iterStep_add rotStepWorker 1 n]
    congr 1
    omega

/-- Iterating the whole library rotate (1 step at a time) is iterating its
cube-space step under the coordinate conversion. -/
theorem iter_singleStep_lib (n : Nat) (h : Int × Int) :
    iterStep (fun x => rotateHexLib x 1) n h =
      ofAxialTriple (iterStep rotStepLib n (toAxialTriple h)) := by
  induction n generalizing h with
  | zero => exact (ofAxialTriple_toAxialTriple h).symm
  | succ n ih =>
    show iterStep _ n (rotateHexLib h 1) = _
    rw [ih]
    congr 1
    rw [rotateHexLib_eq_iter]
    have h1 : (jsNormSix 1).toNat = 1 := by decide
    rw [h1,
      toAxialTriple_ofAxialTriple (sumZero_iterStep_lib (sumZero_toAxialTriple h) 1),
      ← iterStep_add rotStepLib 1 n]
    congr 1
    omega

/-- The worker's rotate is the library rotate by the negated count: the two
implementations rotate in opposite directions. -/
theorem rotateHexWorker_eq_lib_neg (h : Int × Int) (k : Int) :
    rotateHexWorker h k = rotateHexLib h (-k) := by
  rw [rotateHexWorker_eq_iter, rotateHexLib_eq_iter]
  have h0 := jsNormSix_nonneg k
  have h1 := jsNormSix_lt_six k
  have h2 := jsNormSix_neg k
  rw [iterStep_worker_eq_lib (jsNormSix k).toNat (by omega)]
  congr 1
  by_cases hz : jsNormSix k = 0
  · have hz' : jsNormSix (-k) = 0 := by rw [h2, hz]; decide
    rw [hz, hz']
    show iterStep rotStepLib 6 _ = iterStep rotStepLib 0 _
    rw [iterStep_lib_six]
    rfl
  · have hn : (jsNormSix (-k)).toNat = 6 - (jsNormSix k).toNat := by
      rw [h2]
      omega
    rw [hn]

theorem rotateHexLib_rotateHexWorker_cancel (h : Int × Int) (k : Int) :
    rotateHexLib (rotateHexWorker h k) k = h := by
  rw [rotateHexWorker_eq_lib_neg, rotateHexLib_eq_iter (h := h), rotateHexLib_eq_iter,
    toAxialTriple_ofAxialTriple (sumZero_iterStep_lib (sumZero_toAxialTriple h) _),
    ← iterStep_add]
  have h0 := jsNormSix_nonneg k
  have h1 := jsNormSix_lt_six k
  have h2 := jsNormSix_neg k
  have hsum : (jsNormSix (-k)).toNat + (jsNormSix k).toNat = 0 ∨
      (jsNormSix (-k)).toNat + (jsNormSix k).toNat = 6 := by
    by_cases hz : jsNormSix k = 0
    · left
      rw [h2, hz]
      simp
    · right
      rw [h2]
      omega
  rcases hsum with hs | hs
  · rw [hs]
    exact ofAxialTriple_toAxialTriple h
  · rw [hs, iterStep_lib_six]
    exact ofAxialTriple_toAxialTriple h

/-! ## Claim C10 -/

/-- C10: both hex rotation functions (hexgrid.js `rotateHex` and the
solver-worker.js inline `rotateHex`) are periodic with period 6 and have the
identity at rotation count 0: `rotateHex(h, k) = rotateHex(h, ((k % 6) + 6) % 6)`
(with the truncating JS `%`), `rotateHex(h, 0) = h`, applying the single-step
rotation six times returns `h`, and consequently every hex has at most 6
distinct rotations (every rotation count is equivalent to some `j < 6`). -/
theorem claim_C10_rotation_period_six :
    (∀ (h : Int × Int) (k : Int), rotateHexLib h k = rotateHexLib h ((k.tmod 6 + 6).tmod 6)) ∧
    (∀ h : Int × Int, rotateHexLib h 0 = h) ∧
    (∀ h : Int × Int, iterStep (fun x => rotateHexLib x 1) 6 h = h) ∧
    (∀ (h : Int × Int) (k : Int), rotateHexWorker h k = rotateHexWorker h ((k.tmod 6 + 6).tmod 6)) ∧
    (∀ h : Int × Int, rotateHexWorker h 0 = h) ∧
    (∀ h : Int × Int, iterStep (fun x => rotateHexWorker x 1) 6 h = h) ∧
    (∀ (h : Int × Int) (k : Int), ∃ j : Nat, j < 6 ∧
      rotateHexLib h k = rotateHexLib h (j : Int) ∧
      rotateHexWorker h k = rotateHexWorker h (j : Int)) := by
  have hnorm : ∀ k : Int, jsNormSix ((k.tmod 6 + 6).tmod 6) = jsNormSix k := by
    intro k
    exact jsNormSix_idem k
  refine ⟨?_, ?_, ?_, ?_, ?_, ?_, ?_⟩
  · intro h k
    exact rotateHexLib_congr h (hnorm k).symm
  · intro h
    rw [rotateHexLib_eq_iter]
    have h0 : (jsNormSix 0).toNat = 0 := by decide
    rw [h0]
    exact ofAxialTriple_toAxialTriple h
  · intro h
    rw [iter_singleStep_lib, iterStep_lib_six]
    exact ofAxialTriple_toAxialTriple h
  · intro h k
    exact rotateHexWorker_congr h (hnorm k).symm
  · intro h
    rw [rotateHexWorker_eq_iter]
    have h0 : (jsNormSix 0).toNat = 0 := by decide
    rw [h0]
    exact ofAxialTriple_toAxialTriple h
  · intro h
    rw [iter_singleStep_worker, iterStep_worker_six]
    exact ofAxialTriple_toAxialTriple h
  · intro h k
    refine ⟨(jsNormSix k).toNat, ?_, ?_, ?_⟩
    · have := jsNormSix_lt_six k
      have := jsNormSix_nonneg k
      omega
    · refine rotateHexLib_congr h ?_
      rw [jsNormSix_natCast _ (by have := jsNormSix_lt_six k; have := jsNormSix_nonneg k; omega)]
      rw [Int.toNat_of_nonneg (jsNormSix_nonneg k)]
    · refine rotateHexWorker_congr h ?_
      rw [jsNormSix_natCast _ (by have := jsNormSix_lt_six k; have := jsNormSix_nonneg k; omega)]
      rw [Int.toNat_of_nonneg (jsNormSix_nonneg k)]

/-! ## Claim C2 -/

/-- C2 counterexample: the worker's inline `rotateHex` and the hexgrid
library's `rotateHex` disagree already on the hex `(0, 1)` at rotation count
1 — the worker rotates in the opposite direction, so the claim that the two
implementations always compute the same resulting cell is false. -/
theorem claim_C2_counterexample :
    rotateHexWorker (0, 1) 1 = (-1, 0) ∧ rotateHexLib (0, 1) 1 = (1, 0) ∧
    rotateHexWorker (0, 1) 1 ≠ rotateHexLib (0, 1) 1 := by
  decide

/-- C2 (amended): the worker's inline `addHex` computes exactly the same
cell as the library's `addHex`; the worker's inline `rotateHex` is the
library's `rotateHex` with the rotation count negated (the two rotations are
mutually inverse, so they agree exactly on rotation counts that are 0 or 3
mod 6, and replaying a (piece, rotation, anchor) triple with the worker's
rotation then the library's rotation at the same count returns the original
cell). -/
theorem claim_C2_amended_rotate_inverse :
    (∀ a b : Int × Int, addHexWorker a b = addHexLib a b) ∧
    (∀ (h : Int × Int) (k : Int), rotateHexWorker h k = rotateHexLib h (-k)) ∧
    (∀ (h : Int × Int) (k : Int), jsNormSix k = 0 ∨ jsNormSix k = 3 →
      rotateHexWorker h k = rotateHexLib h k) ∧
    (∀ (h : Int × Int) (k : Int), rotateHexLib (rotateHexWorker h k) k = h) := by
  refine ⟨fun a b => rfl, rotateHexWorker_eq_lib_neg, ?_, rotateHexLib_rotateHexWorker_cancel⟩
  intro h k hk
  rw [rotateHexWorker_eq_lib_neg]
  refine rotateHexLib_congr h ?_
  rw [jsNormSix_neg]
  rcases hk with hk | hk <;> rw [hk] <;> decide

/-- Witness for the amended C2: at rotation count 3 (where the two rotation
orientations coincide) the two implementations agree on the hex `(2, -1)`. -/
theorem claim_C2_amended_witness :
    rotateHexWorker (2, -1) 3 = rotateHexLib (2, -1) 3 :=
  claim_C2_amended_rotate_inverse.2.2.1 (2, -1) 3 (by decide)

/-! ## Pointwise behavior of the occupancy/depth-stamp updates -/

theorem foldl_set_length {α : Type} (l : List Nat) (v : α) (xs : List α) :
    (l.foldl (fun o c => o.set c v) xs).length = xs.length := by
  induction l generalizing xs with
  | nil => rfl
  | cons a l ih => rw [List.foldl_cons, ih, List.length_set]

theorem foldl_set_getD_of_not_mem {α : Type} (l : List Nat) (v : α) (xs : List α)
    (t : Nat) (d : α) (ht : t ∉ l) :
    (l.foldl (fun o c => o.set c v) xs).getD t d = xs.getD t d := by
  induction l generalizing xs with
  | nil => rfl
  | cons a l ih =>
    rw [List.foldl_cons, ih _ (fun h => ht (List.mem_cons_of_mem a h))]
    rw [List.getD_eq_getElem?_getD, List.getD_eq_getElem?_getD,
      List.getElem?_set_ne (fun h => ht (List.mem_cons.mpr (Or.inl h.symm)))]

theorem foldl_set_getD_of_mem {α : Type} (l : List Nat) (v : α) (xs : List α)
    (t : Nat) (d : α) (ht : t ∈ l) (hlen : t < xs.length) :
    (l.foldl (fun o c => o.set c v) xs).getD t d = v := by
  induction l generalizing xs with
  | nil => exact absurd ht (List.not_mem_nil t)
  | cons a l ih =>
    rw [List.foldl_cons]
    by_cases hmem : t ∈ l
    · exact ih _ hmem (by rw [List.length_set]; exact hlen)
    · have hat : t = a := by
        rcases List.mem_cons.mp ht with h | h
        · exact h
        · exact absurd h hmem
      subst hat
      rw [foldl_set_getD_of_not_mem _ _ _ _ _ hmem]
      rw [List.getD_eq_getElem?_getD, List.getElem?_set_self hlen]
      rfl

/-- The undo fold never touches components at positions outside the target
list. -/
theorem undoFold_getD_of_not_mem (d : Nat) (ts : List Nat) (p : List Int × List Nat)
    (t : Nat) (ht : t ∉ ts) :
    (ts.foldl (undoStep d) p).1.getD t 0 = p.1.getD t 0 ∧
    (ts.foldl (undoStep d) p).2.getD t 0 = p.2.getD t 0 := by
  induction ts generalizing p with
  | nil => exact ⟨rfl, rfl⟩
  | cons a ts ih =>
    have hta : t ≠ a := fun h => ht (h ▸ List.mem_cons_self a ts)
    have hts : t ∉ ts := fun h => ht (List.mem_cons_of_mem a h)
    rw [List.foldl_cons]
    refine ⟨?_, ?_⟩
    · rw [(ih _ hts).1]
      unfold undoStep
      by_cases hc : p.2.getD a 0 = d
      · rw [if_pos hc]
        simp only
        rw [List.getD_eq_getElem?_getD, List.getElem?_set_ne (fun h => hta h.symm),
          ← List.getD_eq_getElem?_getD]
      · rw [if_neg hc]
    · rw [(ih _ hts).2]
      unfold undoStep
      by_cases hc : p.2.getD a 0 = d
      · rw [if_pos hc]
        simp only
        rw [List.getD_eq_getElem?_getD, List.getElem?_set_ne (fun h => hta h.symm),
          ← List.getD_eq_getElem?_getD]
      · rw [if_neg hc]

theorem undoFold_length (d : Nat) (ts : List Nat) (p : List Int × List Nat) :
    (ts.foldl (undoStep d) p).1.length = p.1.length ∧
    (ts.foldl (undoStep d) p).2.length = p.2.length := by
  induction ts generalizing p with
  | nil => exact ⟨rfl, rfl⟩
  | cons a ts ih =>
    rw [List.foldl_cons]
    refine ⟨?_, ?_⟩
    · rw [(ih _).1]
      unfold undoStep
      by_cases hc : p.2.getD a 0 = d
      · rw [if_pos hc]; exact List.length_set _ _ _
      · rw [if_neg hc]
    · rw [(ih _).2]
      unfold undoStep
      by_cases hc : p.2.getD a 0 = d
      · rw [if_pos hc]; exact List.length_set _ _ _
      · rw [if_neg hc]

/-- Positions whose current depth stamp differs from `d` are untouched by
the undo fold (including positions inside the target list). -/
theorem undoFold_getD_of_stamp_ne (d : Nat) (ts : List Nat) (p : List Int × List Nat)
    (t : Nat) (hst : p.2.getD t 0 ≠ d) :
    (ts.foldl (undoStep d) p).1.getD t 0 = p.1.getD t 0 ∧
    (ts.foldl (undoStep d) p).2.getD t 0 = p.2.getD t 0 := by
  induction ts generalizing p with
  | nil => exact ⟨rfl, rfl⟩
  | cons a ts ih =>
    rw [List.foldl_cons]
    by_cases hc : p.2.getD a 0 = d
    · have hta : t ≠ a := by
        intro h
        exact hst (h ▸ hc)
      have hgoal1 : (p.1.set a (-1)).getD t 0 = p.1.getD t 0 := by
        rw [List.getD_eq_getElem?_getD, List.getElem?_set_ne (fun h => hta h.symm),
          ← List.getD_eq_getElem?_getD]
      have hgoal2 : (p.2.set a 0).getD t 0 = p.2.getD t 0 := by
        rw [List.getD_eq_getElem?_getD, List.getElem?_set_ne (fun h => hta h.symm),
          ← List.getD_eq_getElem?_getD]
      have hstep : undoStep d p a = (p.1.set a (-1), p.2.set a 0) := by
        unfold undoStep
        rw [if_pos hc]
      rw [hstep]
      have hst' : (p.1.set a (-1), p.2.set a 0).2.getD t 0 ≠ d := by
        show (p.2.set a 0).getD t 0 ≠ d
        rw [hgoal2]
        exact hst
      obtain ⟨h1, h2⟩ := ih _ hst'
      exact ⟨h1.trans hgoal1, h2.trans hgoal2⟩
    · have hstep : undoStep d p a = p := by
        unfold undoStep
        rw [if_neg hc]
      rw [hstep]
      exact ih _ hst

/-- Positions inside the target list whose stamp equals `d > 0` are reset to
`(-1, 0)` by the undo fold. -/
theorem undoFold_getD_of_mem_stamp_eq (d : Nat) (hd : 0 < d) (ts : List Nat)
    (p : List Int × List Nat) (t : Nat) (ht : t ∈ ts) (hst : p.2.getD t 0 = d)
    (hlen1 : t < p.1.length) (hlen2 : t < p.2.length) :
    (ts.foldl (undoStep d) p).1.getD t 0 = -1 ∧
    (ts.foldl (undoStep d) p).2.getD t 0 = 0 := by
  induction ts generalizing p with
  | nil => exact absurd ht (List.not_mem_nil t)
  | cons a ts ih =>
    rw [List.foldl_cons]
    by_cases hc : p.2.getD a 0 = d
    · have hstep : undoStep d p a = (p.1.set a (-1), p.2.set a 0) := by
        unfold undoStep
        rw [if_pos hc]
      rw [hstep]
      by_cases hta : t = a
      · subst hta
        have hs2 : (p.1.set t (-1), p.2.set t 0).2.getD t 0 = 0 := by
          simp only
          rw [List.getD_eq_getElem?_getD, List.getElem?_set_self hlen2]
          rfl
        have hs1 : (p.1.set t (-1), p.2.set t 0).1.getD t 0 = -1 := by
          simp only
          rw [List.getD_eq_getElem?_getD, List.getElem?_set_self hlen1]
          rfl
        obtain ⟨h1, h2⟩ := undoFold_getD_of_stamp_ne d ts (p.1.set t (-1), p.2.set t 0) t
          (by rw [hs2]; omega)
        exact ⟨h1.trans hs1, h2.trans hs2⟩
      · have hts : t ∈ ts := by
          rcases List.mem_cons.mp ht with h | h
          · exact absurd h hta
          · exact h
        refine ih _ hts ?_ ?_ ?_
        · simp only
          rw [List.getD_eq_getElem?_getD, List.getElem?_set_ne (fun h => hta h.symm),
            ← List.getD_eq_getElem?_getD]
          exact hst
        · simpa using hlen1
        · simpa using hlen2
    · have hstep : undoStep d p a = p := by
        unfold undoStep
        rw [if_neg hc]
      rw [hstep]
      have hts : t ∈ ts := by
        rcases List.mem_cons.mp ht with h | h
        · exact absurd (h ▸ hst) hc
        · exact h
      exact ih _ hts hst hlen1 hlen2

theorem apply_occupancy (c : Ctx) (s : BState) (pIdx pieceIdx : Nat) :
    (applyPlacementByIndex c s pIdx pieceIdx).occupancy =
      (c.placement pIdx).targets.foldl (fun occ t => occ.set t (pieceIdx : Int)) s.occupancy := rfl

theorem apply_depthStamp (c : Ctx) (s : BState) (pIdx pieceIdx : Nat) :
    (applyPlacementByIndex c s pIdx pieceIdx).depthStamp =
      (c.placement pIdx).targets.foldl (fun st t => st.set t (s.depth + 1)) s.depthStamp := rfl

theorem apply_depth (c : Ctx) (s : BState) (pIdx pieceIdx : Nat) :
    (applyPlacementByIndex c s pIdx pieceIdx).depth = s.depth + 1 := rfl

theorem undo_occupancy (c : Ctx) (s : BState) (pIdx : Nat) :
    (undoPlacementByIndex c s pIdx).occupancy =
      ((c.placement pIdx).targets.foldl (undoStep s.depth) (s.occupancy, s.depthStamp)).1 := rfl

theorem undo_depthStamp (c : Ctx) (s : BState) (pIdx : Nat) :
    (undoPlacementByIndex c s pIdx).depthStamp =
      ((c.placement pIdx).targets.foldl (undoStep s.depth) (s.occupancy, s.depthStamp)).2 := rfl

theorem undo_depth (c : Ctx) (s : BState) (pIdx : Nat) :
    (undoPlacementByIndex c s pIdx).depth = s.depth - 1 := rfl

/-- A cell whose occupancy entry reads `-1` is inside the array (an
out-of-range read defaults to `0`). -/
theorem lt_length_of_getD_neg (occ : List Int) (t : Nat) (h : occ.getD t 0 = -1) :
    t < occ.length := by
  by_contra hcon
  rw [List.getD_eq_default occ 0 (by omega)] at h
  exact absurd h (by norm_num)

/-! ## Claim C9 -/

/-- C9: for a placement whose target cells are all currently empty
(occupancy `-1`), calling `applyPlacementByIndex` and then
`undoPlacementByIndex` for the same placement with no intervening depth
change restores every target cell to empty, restores the depth counter to
its prior value, and leaves the occupancy entry of every cell outside the
placement's target list unchanged throughout (both after the apply and after
the undo). The hypothesis that the depth-stamp array is as long as the
occupancy array records the data model (one entry per board cell in both). -/
theorem claim_C9_apply_undo_frame (c : Ctx) (s : BState) (pIdx pieceIdx : Nat)
    (hlen : s.depthStamp.length = s.occupancy.length)
    (hlegal : ∀ t ∈ (c.placement pIdx).targets, s.occupancy.getD t 0 = -1) :
    (∀ t ∈ (c.placement pIdx).targets,
      (undoPlacementByIndex c (applyPlacementByIndex c s pIdx pieceIdx) pIdx).occupancy.getD t 0 = -1) ∧
    (undoPlacementByIndex c (applyPlacementByIndex c s pIdx pieceIdx) pIdx).depth = s.depth ∧
    (∀ cell, cell ∉ (c.placement pIdx).targets →
      (applyPlacementByIndex c s pIdx pieceIdx).occupancy.getD cell 0 = s.occupancy.getD cell 0 ∧
      (undoPlacementByIndex c (applyPlacementByIndex c s pIdx pieceIdx) pIdx).occupancy.getD cell 0 =
        s.occupancy.getD cell 0) := by
  set ts := (c.placement pIdx).targets with hts
  set s1 := applyPlacementByIndex c s pIdx pieceIdx with hs1
  have hocc1 : s1.occupancy = ts.foldl (fun occ t => occ.set t (pieceIdx : Int)) s.occupancy := rfl
  have hst1 : s1.depthStamp = ts.foldl (fun st t => st.set t (s.depth + 1)) s.depthStamp := rfl
  have hd1 : s1.depth = s.depth + 1 := rfl
  have hlen1 : s1.occupancy.length = s.occupancy.length := by
    rw [hocc1]; exact foldl_set_length _ _ _
  have hlen2 : s1.depthStamp.length = s.depthStamp.length := by
    rw [hst1]; exact foldl_set_length _ _ _
  refine ⟨?_, ?_, ?_⟩
  · intro t ht
    have hrange : t < s.occupancy.length := lt_length_of_getD_neg _ _ (hlegal t ht)
    have hstamp : s1.depthStamp.getD t 0 = s.depth + 1 := by
      rw [hst1]
      exact foldl_set_getD_of_mem _ _ _ _ _ ht (by rw [hlen]; exact hrange)
    have := undoFold_getD_of_mem_stamp_eq (s1.depth) (by rw [hd1]; omega) ts
      (s1.occupancy, s1.depthStamp) t ht (by rw [hd1]; exact hstamp)
      (by rw [hlen1]; exact hrange) (by rw [hlen2, hlen]; exact hrange)
    rw [undo_occupancy]
    exact this.1
  · rw [undo_depth, hd1]
    omega
  · intro cell hcell
    have happly : s1.occupancy.getD cell 0 = s.occupancy.getD cell 0 := by
      rw [hocc1]
      exact foldl_set_getD_of_not_mem _ _ _ _ _ hcell
    refine ⟨happly, ?_⟩
    rw [undo_occupancy]
    rw [(undoFold_getD_of_not_mem s1.depth ts (s1.occupancy, s1.depthStamp) cell hcell).1]
    exact happly

/-- Witness for C9 at a concrete input: on the 1×2 board context, applying
then undoing the first placement from the empty initial state restores the
depth counter. -/
theorem claim_C9_witness :
    (undoPlacementByIndex ctxGH (applyPlacementByIndex ctxGH (initState ctxGH 0) 0 0) 0).depth =
      (initState ctxGH 0).depth :=
  (claim_C9_apply_undo_frame ctxGH (initState ctxGH 0) 0 0 (by decide) (by decide)).2.1

/-! ## Most-constrained-piece selection (claim C6) -/

/-- With no bound (`bestCount = Infinity`) the short-circuited count is the
full count. -/
theorem countLegalClamped_none (c : Ctx) (occ : List Int) (l : List Nat) (count : Nat) :
    countLegalClamped c occ none l count = count + l.countP (legalAt c occ) := by
  induction l generalizing count with
  | nil =>
    rw [List.countP_nil]
    show count = count + 0
    omega
  | cons p rest ih =>
    by_cases hp : legalAt c occ p
    · show (if legalAt c occ p then _ else _) = _
      rw [if_pos hp]
      show (if atBound none (count + 1) then count + 1
        else countLegalClamped c occ none rest (count + 1)) = _
      rw [show atBound none (count + 1) = false from rfl]
      simp only [Bool.false_eq_true, if_false]
      rw [ih, List.countP_cons_of_pos _ _ hp]
      omega
    · show (if legalAt c occ p then _ else _) = _
      rw [if_neg hp, ih, List.countP_cons_of_neg _ _ hp]

/-- With bound `b` (and room below it) the short-circuited count is the full
count clamped at `b`. -/
theorem countLegalClamped_some (c : Ctx) (occ : List Int) (l : List Nat) (b count : Nat)
    (hb : count < b) :
    countLegalClamped c occ (some b) l count = min (count + l.countP (legalAt c occ)) b := by
  induction l generalizing count with
  | nil =>
    rw [List.countP_nil]
    show count = min (count + 0) b
    omega
  | cons p rest ih =>
    by_cases hp : legalAt c occ p
    · show (if legalAt c occ p then _ else _) = _
      rw [if_pos hp]
      show (if atBound (some b) (count + 1) then count + 1
        else countLegalClamped c occ (some b) rest (count + 1)) = _
      by_cases hend : b ≤ count + 1
      · rw [show atBound (some b) (count + 1) = true by
          show decide (b ≤ count + 1) = true
          exact decide_eq_true hend]
        rw [if_pos rfl]
        rw [List.countP_cons_of_pos _ _ hp]
        omega
      · rw [show atBound (some b) (count + 1) = false by
          show decide (b ≤ count + 1) = false
          exact decide_eq_false hend]
        simp only [Bool.false_eq_true, if_false]
        rw [ih (count + 1) (by omega), List.countP_cons_of_pos _ _ hp]
        omega
    · show (if legalAt c occ p then _ else _) = _
      rw [if_neg hp, ih count hb, List.countP_cons_of_neg _ _ hp]

/-- One selection step with the short-circuited count equals the step with
the full count, for accumulators whose current best count is `Infinity` or
positive. -/
theorem selectStep_eq_full (c : Ctx) (occ : List Int) (acc : Option Nat × Option Nat)
    (x : Nat × Nat) (hacc : acc.2 = none ∨ ∃ b, acc.2 = some b ∧ 0 < b) :
    selectStep c occ acc x = selectStepFull c occ acc x := by
  rcases hacc with hacc | ⟨b, hacc, hb⟩
  · unfold selectStep selectStepFull
    rw [hacc]
    have hcnt : countLegalClamped c occ none (c.placementIdxs x.2) 0 =
        countLegalFull c occ x.2 := by
      rw [countLegalClamped_none]
      unfold countLegalFull
      omega
    rw [hcnt]
  · unfold selectStep selectStepFull
    rw [hacc]
    have hcnt : countLegalClamped c occ (some b) (c.placementIdxs x.2) 0 =
        min (countLegalFull c occ x.2) b := by
      rw [countLegalClamped_some c occ _ b 0 hb]
      unfold countLegalFull
      omega
    rw [hcnt]
    set f := countLegalFull c occ x.2 with hf
    by_cases hwin : 0 < f ∧ f < b
    · have h1 : 0 < min f b := by omega
      have h2 : ltBound (min f b) (some b) = true := by
        show decide (min f b < b) = true
        exact decide_eq_true (by omega)
      have h3 : ltBound f (some b) = true := by
        show decide (f < b) = true
        exact decide_eq_true (by omega)
      rw [if_pos ⟨h1, h2⟩, if_pos ⟨hwin.1, h3⟩]
      have : min f b = f := by omega
      rw [this]
    · have hiff : ¬(0 < min f b ∧ ltBound (min f b) (some b) = true) := by
        intro ⟨h1, h2⟩
        have h2' : min f b < b := of_decide_eq_true h2
        exact hwin ⟨by omega, by omega⟩
      have hiff' : ¬(0 < f ∧ ltBound f (some b) = true) := by
        intro ⟨h1, h2⟩
        have h2' : f < b := of_decide_eq_true h2
        exact hwin ⟨h1, h2'⟩
      rw [if_neg hiff, if_neg hiff']

/-- The selection-step result keeps the accumulator invariant (best count is
`Infinity` or positive). -/
theorem selectStepFull_acc (c : Ctx) (occ : List Int) (acc : Option Nat × Option Nat)
    (x : Nat × Nat) (hacc : acc.2 = none ∨ ∃ b, acc.2 = some b ∧ 0 < b) :
    (selectStepFull c occ acc x).2 = none ∨
      ∃ b, (selectStepFull c occ acc x).2 = some b ∧ 0 < b := by
  unfold selectStepFull
  by_cases hwin : 0 < countLegalFull c occ x.2 ∧ ltBound (countLegalFull c occ x.2) acc.2 = true
  · rw [if_pos hwin]
    exact Or.inr ⟨_, rfl, hwin.1⟩
  · rw [if_neg hwin]
    exact hacc

/-- The short-circuited selection fold equals the full-count selection
fold. -/
theorem selectFold_eq_full (c : Ctx) (occ : List Int) (L : List (Nat × Nat))
    (acc : Option Nat × Option Nat) (hacc : acc.2 = none ∨ ∃ b, acc.2 = some b ∧ 0 < b) :
    L.foldl (selectStep c occ) acc = L.foldl (selectStepFull c occ) acc := by
  induction L generalizing acc with
  | nil => rfl
  | cons x L ih =>
    rw [List.foldl_cons, List.foldl_cons, selectStep_eq_full c occ acc x hacc]
    exact ih _ (selectStepFull_acc c occ acc x hacc)

theorem selectLoop_eq_full (c : Ctx) (occ : List Int) (remaining : List Nat) :
    selectLoop c occ remaining = selectLoopFull c occ remaining :=
  selectFold_eq_full c occ _ _ (Or.inl rfl)

/-- The full-count selection fold satisfies the earliest-strict-minimum
specification, for candidate lists with strictly increasing first
components (as `remaining.enum` is). -/
theorem selectFoldFull_spec (c : Ctx) (occ : List Int) (L : List (Nat × Nat))
    (hinc : L.Pairwise (fun a b => a.1 < b.1)) :
    SelSpec c occ L (L.foldl (selectStepFull c occ) (none, none)) := by
  induction L using List.reverseRecOn with
  | nil =>
    left
    exact ⟨rfl, by intro q hq; exact absurd hq (List.not_mem_nil q)⟩
  | append_singleton L x ih =>
    have hincL : L.Pairwise (fun a b => a.1 < b.1) :=
      hinc.sublist (List.sublist_append_left L [x])
    have hxgt : ∀ q ∈ L, q.1 < x.1 := by
      intro q hq
      have := (List.pairwise_append.mp hinc).2.2
      exact this q hq x (List.mem_singleton_self x)
    rw [List.foldl_append]
    rcases ih hincL with ⟨hR, hzero⟩ | ⟨riPi, hmem, hR, hpos, hmin, hearly⟩
    · rw [hR]
      by_cases hx : 0 < countLegalFull c occ x.2
      · right
        refine ⟨x, List.mem_append_right L (List.mem_singleton_self x), ?_, hx, ?_, ?_⟩
        · show selectStepFull c occ (none, none) x = _
          unfold selectStepFull
          rw [if_pos ⟨hx, rfl⟩]
        · intro q hq hqpos
          rcases List.mem_append.mp hq with h | h
          · exact absurd (hzero q h) (by omega)
          · rw [List.mem_singleton.mp h]
        · intro q hq hlt
          rcases List.mem_append.mp hq with h | h
          · exact Or.inl (hzero q h)
          · rw [List.mem_singleton.mp h] at hlt
            omega
      · left
        constructor
        · show selectStepFull c occ (none, none) x = _
          unfold selectStepFull
          rw [if_neg (fun hc => hx hc.1)]
        · intro q hq
          rcases List.mem_append.mp hq with h | h
          · exact hzero q h
          · rw [List.mem_singleton.mp h]
            omega
    · rw [hR]
      set cnt := countLegalFull c occ riPi.2 with hcnt
      by_cases hwin : 0 < countLegalFull c occ x.2 ∧ countLegalFull c occ x.2 < cnt
      · right
        refine ⟨x, List.mem_append_right L (List.mem_singleton_self x), ?_, hwin.1, ?_, ?_⟩
        · show selectStepFull c occ (some riPi.1, some cnt) x = _
          unfold selectStepFull
          rw [if_pos ⟨hwin.1, by
            show decide (countLegalFull c occ x.2 < cnt) = true
            exact decide_eq_true hwin.2⟩]
        · intro q hq hqpos
          rcases List.mem_append.mp hq with h | h
          · have := hmin q h hqpos
            omega
          · rw [List.mem_singleton.mp h]
        · intro q hq hlt
          rcases List.mem_append.mp hq with h | h
          · rcases Nat.eq_zero_or_pos (countLegalFull c occ q.2) with hz | hp
            · exact Or.inl hz
            · have := hmin q h hp
              exact Or.inr (by omega)
          · rw [List.mem_singleton.mp h] at hlt
            omega
      · right
        refine ⟨riPi, List.mem_append_left [x] hmem, ?_, hpos, ?_, ?_⟩
        · show selectStepFull c occ (some riPi.1, some cnt) x = _
          unfold selectStepFull
          rw [if_neg (by
            intro ⟨h1, h2⟩
            exact hwin ⟨h1, of_decide_eq_true h2⟩)]
        · intro q hq hqpos
          rcases List.mem_append.mp hq with h | h
          · exact hmin q h hqpos
          · rw [List.mem_singleton.mp h] at hqpos ⊢
            omega
        · intro q hq hlt
          rcases List.mem_append.mp hq with h | h
          · exact hearly q h hlt
          · rw [List.mem_singleton.mp h] at hlt
            have := hxgt riPi hmem
            omega

theorem enum_pairwise_fst {α : Type} (l : List α) :
    (List.enum l).Pairwise (fun a b => a.1 < b.1) := by
  rw [List.pairwise_iff_getElem]
  intro i j hi hj hij
  simp only [List.getElem_enum]
  simpa using hij

/-- `recordSolution` only changes the solution bookkeeping fields. -/
theorem record_occupancy (c : Ctx) (s : BState) (cur : List SolItem) (cov : Nat) :
    (recordSolution c s cur cov).occupancy = s.occupancy := by
  unfold recordSolution
  dsimp only
  split_ifs <;> rfl

theorem record_depthStamp (c : Ctx) (s : BState) (cur : List SolItem) (cov : Nat) :
    (recordSolution c s cur cov).depthStamp = s.depthStamp := by
  unfold recordSolution
  dsimp only
  split_ifs <;> rfl

theorem record_depth (c : Ctx) (s : BState) (cur : List SolItem) (cov : Nat) :
    (recordSolution c s cur cov).depth = s.depth := by
  unfold recordSolution
  dsimp only
  split_ifs <;> rfl

theorem record_searchCount (c : Ctx) (s : BState) (cur : List SolItem) (cov : Nat) :
    (recordSolution c s cur cov).searchCount = s.searchCount := by
  unfold recordSolution
  dsimp only
  split_ifs <;> rfl

/-- After recording, the best coverage is the maximum of the old best and
the current coverage. -/
theorem record_bestCoverage (c : Ctx) (s : BState) (cur : List SolItem) (cov : Nat) :
    (recordSolution c s cur cov).bestCoverage = max s.bestCoverage cov := by
  unfold recordSolution
  dsimp only
  split_ifs with h1 h2 h3 <;>
    first
    | (dsimp only; omega)
    | omega

/-- Projections of the shared `backtrack` prelude `recStep`. -/
theorem recStep_occupancy (c : Ctx) (cur : List SolItem) (cov : Nat) (s0 : BState) :
    (recStep c cur cov s0).occupancy = s0.occupancy := record_occupancy c _ cur cov

theorem recStep_depthStamp (c : Ctx) (cur : List SolItem) (cov : Nat) (s0 : BState) :
    (recStep c cur cov s0).depthStamp = s0.depthStamp := record_depthStamp c _ cur cov

theorem recStep_depth (c : Ctx) (cur : List SolItem) (cov : Nat) (s0 : BState) :
    (recStep c cur cov s0).depth = s0.depth := record_depth c _ cur cov

theorem recStep_searchCount (c : Ctx) (cur : List SolItem) (cov : Nat) (s0 : BState) :
    (recStep c cur cov s0).searchCount = s0.searchCount + 1 := record_searchCount c _ cur cov

theorem recStep_bestCoverage (c : Ctx) (cur : List SolItem) (cov : Nat) (s0 : BState) :
    (recStep c cur cov s0).bestCoverage = max s0.bestCoverage cov := record_bestCoverage c _ cur cov

theorem getD_eq_getElem_of_lt {α : Type} (l : List α) (d : α) (j : Nat) (hj : j < l.length) :
    l.getD j d = l[j] := by
  rw [List.getD_eq_getElem?_getD, List.getElem?_eq_getElem hj]
  rfl

/-- Claim C6 core: the outcome of the short-circuited selection loop, read
through full counts. -/
theorem selectLoop_spec (c : Ctx) (occ : List Int) (remaining : List Nat) :
    SelSpec c occ remaining.enum (selectLoop c occ remaining) := by
  rw [selectLoop_eq_full]
  exact selectFoldFull_spec c occ _ (enum_pairwise_fst remaining)

/-- If every remaining piece has zero currently legal placements, nothing is
selected. -/
theorem selectLoop_none_of_all_zero (c : Ctx) (occ : List Int) (remaining : List Nat)
    (hzero : ∀ pi ∈ remaining, countLegalFull c occ pi = 0) :
    selectLoop c occ remaining = (none, none) := by
  rcases selectLoop_spec c occ remaining with ⟨hR, _⟩ | ⟨riPi, hmem, _, hpos, _, _⟩
  · exact hR
  · have hpi : riPi.2 ∈ remaining := by
      have hsome := List.mem_enum_iff_getElem?.mp hmem
      obtain ⟨hlt, hval⟩ := List.getElem?_eq_some.mp hsome
      exact hval ▸ List.getElem_mem hlt
    exact absurd (hzero riPi.2 hpi) (by omega)

/-! ## Claim C6 -/

/-- C6: at every backtracking step, (i) the short-circuited selection loop
computes exactly what the full-count selection loop computes; (ii) whenever
a piece is selected, it is a remaining piece with a strictly positive
legal-placement count that is minimal among all remaining pieces with
positive counts, and every earlier remaining piece has either zero
placements or a strictly larger count (earliest-on-ties), with the reported
count being its full count; (iii) if some remaining piece has a positive
count, a piece is selected; (iv) if every remaining piece has zero currently
legal placements, nothing is selected, and (v) in that situation the
`backtrack` call (when it reaches the selection, i.e. coverage is below the
board size, the bound prune does not fire and pieces remain) returns the
no-terminate result `false`. -/
theorem claim_C6_mrv_selection :
    (∀ (c : Ctx) (occ : List Int) (remaining : List Nat),
      selectLoop c occ remaining = selectLoopFull c occ remaining) ∧
    (∀ (c : Ctx) (occ : List Int) (remaining : List Nat) (ri : Nat),
      (selectLoop c occ remaining).1 = some ri →
      ri < remaining.length ∧
      0 < countLegalFull c occ (remaining.getD ri 0) ∧
      (selectLoop c occ remaining).2 = some (countLegalFull c occ (remaining.getD ri 0)) ∧
      (∀ j, j < remaining.length → 0 < countLegalFull c occ (remaining.getD j 0) →
        countLegalFull c occ (remaining.getD ri 0) ≤ countLegalFull c occ (remaining.getD j 0)) ∧
      (∀ j, j < ri → countLegalFull c occ (remaining.getD j 0) = 0 ∨
        countLegalFull c occ (remaining.getD ri 0) < countLegalFull c occ (remaining.getD j 0))) ∧
    (∀ (c : Ctx) (occ : List Int) (remaining : List Nat),
      (∃ pi ∈ remaining, 0 < countLegalFull c occ pi) →
      ∃ ri, (selectLoop c occ remaining).1 = some ri) ∧
    (∀ (c : Ctx) (occ : List Int) (remaining : List Nat),
      (∀ pi ∈ remaining, countLegalFull c occ pi = 0) →
      selectLoop c occ remaining = (none, none)) ∧
    (∀ (c : Ctx) (fuel : Nat) (remaining : List Nat) (remainingSum : Nat)
      (cur : List SolItem) (cov : Nat) (s0 : BState),
      remaining ≠ [] → cov < c.boardSize →
      max s0.bestCoverage cov < cov + remainingSum →
      (∀ pi ∈ remaining, countLegalFull c s0.occupancy pi = 0) →
      btAux c fuel remaining remainingSum cur cov s0 = (recStep c cur cov s0, false)) := by
  refine ⟨selectLoop_eq_full, ?_, ?_, selectLoop_none_of_all_zero, ?_⟩
  · intro c occ remaining ri hri
    rcases selectLoop_spec c occ remaining with ⟨hR, _⟩ | ⟨riPi, hmem, hR, hpos, hmin, hearly⟩
    · rw [hR] at hri
      exact absurd hri (by simp)
    · rw [hR] at hri
      have hri' : riPi.1 = ri := by
        simpa using hri
      have hget : remaining[riPi.1]? = some riPi.2 := List.mem_enum_iff_getElem?.mp hmem
      have hlt : riPi.1 < remaining.length := by
        by_contra hcon
        rw [List.getElem?_eq_none (by omega)] at hget
        exact absurd hget (by simp)
      have hgetD : remaining.getD ri 0 = riPi.2 := by
        rw [← hri']
        rw [getD_eq_getElem_of_lt _ _ _ hlt]
        have := List.getElem?_eq_getElem hlt
        rw [this] at hget
        exact Option.some.inj hget
      refine ⟨hri' ▸ hlt, hgetD ▸ hpos, ?_, ?_, ?_⟩
      · rw [hR, hgetD]
      · intro j hj hjpos
        have hjmem : (j, remaining[j]) ∈ remaining.enum :=
          List.mem_enum_iff_getElem?.mpr (by rw [List.getElem?_eq_getElem hj])
        have := hmin (j, remaining[j]) hjmem (by
          rw [getD_eq_getElem_of_lt _ _ _ hj] at hjpos
          exact hjpos)
        rw [hgetD, getD_eq_getElem_of_lt _ _ _ hj]
        exact this
      · intro j hj
        have hjlen : j < remaining.length := by omega
        have hjmem : (j, remaining[j]) ∈ remaining.enum :=
          List.mem_enum_iff_getElem?.mpr (by rw [List.getElem?_eq_getElem hjlen])
        have := hearly (j, remaining[j]) hjmem (by
          show j < riPi.1
          omega)
        rw [hgetD, getD_eq_getElem_of_lt _ _ _ hjlen]
        exact this
  · intro c occ remaining hex
    rcases selectLoop_spec c occ remaining with ⟨hR, hzero⟩ | ⟨riPi, _, hR, _, _, _⟩
    · obtain ⟨pi, hpimem, hpipos⟩ := hex
      obtain ⟨j, hj, hjget⟩ := List.mem_iff_getElem.mp hpimem
      have hjmem : (j, pi) ∈ remaining.enum :=
        List.mem_enum_iff_getElem?.mpr (by rw [List.getElem?_eq_getElem hj, hjget])
      refine absurd (hzero (j, pi) hjmem) ?_
      show ¬(countLegalFull c occ pi = 0)
      omega
    · exact ⟨riPi.1, by rw [hR]⟩
  · intro c fuel remaining remainingSum cur cov s0 hne hcov hbound hzero
    have hs2occ : (recStep c cur cov s0).occupancy = s0.occupancy := recStep_occupancy c cur cov s0
    have hs2best : (recStep c cur cov s0).bestCoverage = max s0.bestCoverage cov :=
      recStep_bestCoverage c cur cov s0
    have hstep : btStep c remaining remainingSum cur cov s0 = .inl (recStep c cur cov s0, false) := by
      unfold btStep
      rw [if_neg (by omega)]
      rw [if_neg (by rw [hs2best]; omega)]
      rw [if_neg (by
        intro hemp
        exact hne (List.isEmpty_iff.mp hemp))]
      rw [show (selectLoop c (recStep c cur cov s0).occupancy remaining) = (none, none) by
        rw [hs2occ]
        exact selectLoop_none_of_all_zero c s0.occupancy remaining hzero]
    cases fuel with
    | zero =>
      show (match btStep c remaining remainingSum cur cov s0 with
        | .inl r => r
        | .inr (s2, _, _) => (s2, false)) = _
      rw [hstep]
    | succ fuel =>
      show (match btStep c remaining remainingSum cur cov s0 with
        | .inl r => r
        | .inr (s2, bestRi, valid) =>
          placementLoop c
            (btAux c fuel (remaining.eraseIdx bestRi)
              (remainingSum - (c.pieceAt (remaining.getD bestRi 0)).size))
            (remaining.getD bestRi 0) cur cov valid s2) = _
      rw [hstep]

/-- Witness for C6 at a concrete input: on the fully occupied 1×2 board, no
piece is selectable for the remaining piece list `[1]`. -/
theorem claim_C6_witness :
    selectLoop ctxGH [0, 0] [1] = (none, none) :=
  claim_C6_mrv_selection.2.2.2.1 ctxGH [0, 0] [1] (by decide)

/-! ## Coverage bound for legal coverings -/

/-- The per-placement target lists of a legal covering concatenate to a
duplicate-free list. -/
theorem legalCovering_flat_nodup (c : Ctx) (hT : TargetsOK c) (S : List Nat)
    (hbound : ∀ p ∈ S, p < c.placements.length)
    (hdisj : S.Pairwise (fun p q => ∀ t ∈ (c.placement p).targets, t ∉ (c.placement q).targets)) :
    (S.flatMap (fun p => (c.placement p).targets)).Nodup := by
  induction S with
  | nil => exact List.nodup_nil
  | cons p S ih =>
    rw [List.flatMap_cons]
    have hpmem : c.placement p ∈ c.placements := by
      have hp : p < c.placements.length := hbound p (List.mem_cons_self p S)
      unfold Ctx.placement
      rw [getD_eq_getElem_of_lt _ _ _ hp]
      exact List.getElem_mem hp
    refine List.Nodup.append ((hT _ hpmem).1) (ih ?_ (List.Pairwise.of_cons hdisj)) ?_
    · intro q hq
      exact hbound q (List.mem_cons_of_mem p hq)
    · rw [List.disjoint_left]
      intro t ht hmem
      obtain ⟨q, hqS, hqt⟩ := List.mem_flatMap.mp hmem
      exact (List.pairwise_cons.mp hdisj).1 q hqS t ht hqt

/-- In a well-formed placement table, no legal covering can cover more cells
than the board has. -/
theorem coverage_le_boardSize (c : Ctx) (hT : TargetsOK c) (S : List Nat)
    (hS : LegalCovering c S) : coverageOf c S ≤ c.boardSize := by
  classical
  obtain ⟨_, hbound, _, hdisj⟩ := hS
  set T := S.flatMap (fun p => (c.placement p).targets) with hTdef
  have hlen : coverageOf c S = T.length := by
    rw [hTdef, List.length_flatMap]
    unfold coverageOf
    congr 1
  have hnodup : T.Nodup := legalCovering_flat_nodup c hT S hbound hdisj
  have hb : ∀ x ∈ T, x < c.boardSize := by
    intro x hx
    obtain ⟨q, hqS, hqt⟩ := List.mem_flatMap.mp hx
    have hqmem : c.placement q ∈ c.placements := by
      have hq : q < c.placements.length := hbound q hqS
      unfold Ctx.placement
      rw [getD_eq_getElem_of_lt _ _ _ hq]
      exact List.getElem_mem hq
    exact (hT _ hqmem).2 x hqt
  have h1 : T.toFinset.card = T.length := List.toFinset_card_of_nodup hnodup
  have h2 : T.toFinset ⊆ Finset.range c.boardSize := by
    intro x hx
    rw [List.mem_toFinset] at hx
    rw [Finset.mem_range]
    exact hb x hx
  have h3 := Finset.card_le_card h2
  rw [Finset.card_range] at h3
  omega

/-! ## Claim C3 -/

/-- C3 (code bug): on a 1×1 board with a catalog containing an unplaceable
domino and a placeable single-cell piece, the domino has zero placements, is
therefore sorted first and fixed as the first piece, the spawn loop spawns
zero workers (`i * placementsPerWorker < firstPieceCount` fails at once for
`firstPieceCount = 0`), and since the aggregator's completion block only runs
inside a worker's message handler, no completion report is ever produced —
for every worker count and every arrival order the run has no final result,
although a legal covering of coverage 1 (the single-cell piece) exists. -/
theorem claim_C3_no_completion :
    (∀ (numWorkers : Nat) (arrival : List Nat),
      fullRun 1 1 [pieceDomino, pieceSingle] false numWorkers arrival = none) ∧
    (∃ S, LegalCovering (mkCtx 1 1 [pieceDomino, pieceSingle] false) S ∧
      coverageOf (mkCtx 1 1 [pieceDomino, pieceSingle] false) S = 1) := by
  constructor
  · intro numWorkers arrival
    unfold fullRun
    have hcount : (mkCtx 1 1 [pieceDomino, pieceSingle] false).piecePlacementCount = [0, 1] := by
      decide
    have horder :
        pieceOrderOf (mkCtx 1 1 [pieceDomino, pieceSingle] false).piecePlacementCount = [0, 1] := by
      decide
    have hfc : ((mkCtx 1 1 [pieceDomino, pieceSingle] false).piecePlacementCount.getD
        ((pieceOrderOf (mkCtx 1 1 [pieceDomino, pieceSingle] false).piecePlacementCount).headD 0) 0) = 0 := by
      decide
    have hspawn : ∀ ppw : Nat, spawnedWorkerIds numWorkers ppw 0 = [] := by
      intro ppw
      cases numWorkers with
      | zero => rfl
      | succ n =>
        show List.takeWhile _ (List.range (n + 1)) = []
        rw [List.range_succ_eq_map, List.takeWhile_cons]
        simp
    show (if (spawnedWorkerIds numWorkers
        (placementsPerWorker
          ((mkCtx 1 1 [pieceDomino, pieceSingle] false).piecePlacementCount.getD
            ((pieceOrderOf (mkCtx 1 1 [pieceDomino, pieceSingle] false).piecePlacementCount).headD 0) 0)
          numWorkers)
        ((mkCtx 1 1 [pieceDomino, pieceSingle] false).piecePlacementCount.getD
          ((pieceOrderOf (mkCtx 1 1 [pieceDomino, pieceSingle] false).piecePlacementCount).headD 0) 0)).isEmpty
      then none else _) = none
    rw [hfc, hspawn]
    rfl
  · refine ⟨[0], ?_, ?_⟩
    · refine ⟨by decide, by decide, by decide, ?_⟩
      decide
    · decide

/-! ## Claim C1 -/

/-- C1 counterexample: on the 1×2 board with two single-cell pieces and
rotations disabled, the covering that puts piece 2 on cell 0 and piece 1 on
cell 1 (placement rows 1 and 2) is a legal covering achieving the maximum
coverage 2, but the completed 1-worker run reports only the other tied
covering: the bound prune (`coverage + remainingSum <= bestCoverage`)
discards the second first-piece branch, which contains the tied solution,
so the final solution list does not contain every distinct maximal
covering. -/
theorem claim_C1_counterexample :
    LegalCovering ctxGH [1, 2] ∧
    coverageOf ctxGH [1, 2] = 2 ∧
    IsMaxCoverage ctxGH 2 ∧
    fullRun 1 2 [pieceG, pieceH] false 1 [0] =
      some { coverage := 2,
             solutions := [[⟨1, (0, 0), 0⟩, ⟨2, (0, 1), 0⟩]] } ∧
    coveringSigOf ctxGH [1, 2] ∉
      [[ExpItem.mk 1 (0, 0) 0, ExpItem.mk 2 (0, 1) 0]].map (mainSignature 1 2 [pieceG, pieceH]) := by
  refine ⟨by decide, by decide, ⟨⟨[1, 2], by decide, by decide⟩, ?_⟩, by decide, by decide⟩
  intro S hS
  have := coverage_le_boardSize ctxGH (by decide) S hS
  have hbs : ctxGH.boardSize = 2 := by decide
  omega

/-! ## Claim C4 -/

/-- `btAux` unfolded one step, with the fuel pattern factored out. -/
theorem btAux_eq (c : Ctx) (fuel : Nat) (rem : List Nat) (sum : Nat)
    (cur : List SolItem) (cov : Nat) (s0 : BState) :
    btAux c fuel rem sum cur cov s0 =
      (match btStep c rem sum cur cov s0 with
       | .inl r => r
       | .inr (s2, bestRi, valid) =>
         match fuel with
         | 0 => (s2, false)
         | fuel' + 1 =>
           placementLoop c
             (btAux c fuel' (rem.eraseIdx bestRi) (sum - (c.pieceAt (rem.getD bestRi 0)).size))
             (rem.getD bestRi 0) cur cov valid s2) := by
  cases fuel <;> rfl

theorem placementLoop_nil (c : Ctx) (recur : List SolItem → Nat → BState → BState × Bool)
    (chosenPi : Nat) (cur : List SolItem) (cov : Nat) (s : BState) :
    placementLoop c recur chosenPi cur cov [] s = (s, false) := rfl

theorem placementLoop_cons (c : Ctx) (recur : List SolItem → Nat → BState → BState × Bool)
    (chosenPi : Nat) (cur : List SolItem) (cov : Nat) (v : Nat × Nat)
    (rest : List (Nat × Nat)) (s : BState) :
    placementLoop c recur chosenPi cur cov (v :: rest) s =
      (let s1 := applyPlacementByIndex c s v.1 chosenPi
       let m := c.placement v.1
       let res := recur (cur ++ [(⟨m.pieceId, m.anchorIdx, m.rot, v.1⟩ : SolItem)])
         (cov + m.targets.length) s1
       let s3 := undoPlacementByIndex c res.1 v.1
       if res.2 then (s3, true) else placementLoop c recur chosenPi cur cov rest s3) := rfl

/-- On an `inl` (early-return) outcome, the returned state is exactly the
`recStep` prelude state. -/
theorem btStep_inl_fst (c : Ctx) (rem : List Nat) (sum : Nat) (cur : List SolItem)
    (cov : Nat) (s0 : BState) (r : BState × Bool)
    (h : btStep c rem sum cur cov s0 = .inl r) : r.1 = recStep c cur cov s0 := by
  unfold btStep at h
  split_ifs at h with h1 h2 h3
  · injection h with h'
    rw [← h']
  · injection h with h'
    rw [← h']
  · injection h with h'
    rw [← h']
  · revert h
    cases hsel : (selectLoop c (recStep c cur cov s0).occupancy rem).1 with
    | none =>
      intro h
      injection h with h'
      rw [← h']
    | some bestRi =>
      intro h
      dsimp only at h
      split_ifs at h with h4
      injection h with h'
      rw [← h']

/-- On an `inr` (enter-the-loop) outcome, the state is the `recStep` state,
the candidate list is the sorted legal-candidate list of the selected piece,
and the guards that were passed are recorded. -/
theorem btStep_inr (c : Ctx) (rem : List Nat) (sum : Nat) (cur : List SolItem)
    (cov : Nat) (s0 : BState) (s2 : BState) (bestRi : Nat) (valid : List (Nat × Nat))
    (h : btStep c rem sum cur cov s0 = .inr (s2, bestRi, valid)) :
    s2 = recStep c cur cov s0 ∧
    valid = buildValid c (recStep c cur cov s0).occupancy (rem.getD bestRi 0) ∧
    (selectLoop c (recStep c cur cov s0).occupancy rem).1 = some bestRi ∧
    cov < c.boardSize ∧ cov + sum > (recStep c cur cov s0).bestCoverage ∧
    rem ≠ [] ∧ valid ≠ [] := by
  unfold btStep at h
  split_ifs at h with h1 h2 h3
  revert h
  cases hsel : (selectLoop c (recStep c cur cov s0).occupancy rem).1 with
  | none =>
    intro h
    exact absurd h (by intro hcon; injection hcon)
  | some bestRi' =>
    intro h
    dsimp only at h
    split_ifs at h with h4
    injection h with h'
    injection h' with ha hb
    injection hb with hb1 hb2
    subst ha
    subst hb1
    subst hb2
    refine ⟨rfl, rfl, rfl, by omega, by omega, ?_, ?_⟩
    · intro hcon
      rw [hcon] at h3
      exact h3 rfl
    · intro hcon
      exact h4 (by rw [hcon]; rfl)

theorem apply_searchCount (c : Ctx) (s : BState) (pIdx pieceIdx : Nat) :
    (applyPlacementByIndex c s pIdx pieceIdx).searchCount = s.searchCount := rfl

theorem undo_searchCount (c : Ctx) (s : BState) (pIdx : Nat) :
    (undoPlacementByIndex c s pIdx).searchCount = s.searchCount := rfl

/-- The candidate loop never decreases the search counter, provided the
recursion does not. -/
theorem placementLoop_searchCount_ge (c : Ctx)
    (recur : List SolItem → Nat → BState → BState × Bool) (chosenPi : Nat)
    (cur : List SolItem) (cov : Nat)
    (hrec : ∀ cur' cov' s', s'.searchCount ≤ (recur cur' cov' s').1.searchCount) :
    ∀ (l : List (Nat × Nat)) (s : BState),
      s.searchCount ≤ (placementLoop c recur chosenPi cur cov l s).1.searchCount := by
  intro l
  induction l with
  | nil => intro s; exact le_refl _
  | cons v rest ih =>
    intro s
    rw [placementLoop_cons]
    have h1 := hrec (cur ++ [(⟨(c.placement v.1).pieceId, (c.placement v.1).anchorIdx,
      (c.placement v.1).rot, v.1⟩ : SolItem)])
      (cov + (c.placement v.1).targets.length) (applyPlacementByIndex c s v.1 chosenPi)
    rw [apply_searchCount] at h1
    set res := recur (cur ++ [(⟨(c.placement v.1).pieceId, (c.placement v.1).anchorIdx,
      (c.placement v.1).rot, v.1⟩ : SolItem)])
      (cov + (c.placement v.1).targets.length) (applyPlacementByIndex c s v.1 chosenPi) with hres
    show s.searchCount ≤ (if res.2 then (undoPlacementByIndex c res.1 v.1, true)
      else placementLoop c recur chosenPi cur cov rest (undoPlacementByIndex c res.1 v.1)).1.searchCount
    by_cases hstop : res.2
    · rw [if_pos hstop]
      show s.searchCount ≤ (undoPlacementByIndex c res.1 v.1).searchCount
      rw [undo_searchCount]
      exact h1
    · rw [if_neg hstop]
      have h2 := ih (undoPlacementByIndex c res.1 v.1)
      rw [undo_searchCount] at h2
      omega

/-- Every `backtrack` call strictly increases the search counter. -/
theorem btAux_searchCount_ge (c : Ctx) (fuel : Nat) :
    ∀ (rem : List Nat) (sum : Nat) (cur : List SolItem) (cov : Nat) (s0 : BState),
      s0.searchCount + 1 ≤ (btAux c fuel rem sum cur cov s0).1.searchCount := by
  induction fuel with
  | zero =>
    intro rem sum cur cov s0
    rw [btAux_eq]
    rcases hstep : btStep c rem sum cur cov s0 with r | ⟨s2, bestRi, valid⟩
    · have := btStep_inl_fst c rem sum cur cov s0 r hstep
      show s0.searchCount + 1 ≤ r.1.searchCount
      rw [this, recStep_searchCount]
    · have := (btStep_inr c rem sum cur cov s0 s2 bestRi valid hstep).1
      show s0.searchCount + 1 ≤ s2.searchCount
      rw [this, recStep_searchCount]
  | succ fuel ih =>
    intro rem sum cur cov s0
    rw [btAux_eq]
    rcases hstep : btStep c rem sum cur cov s0 with r | ⟨s2, bestRi, valid⟩
    · have := btStep_inl_fst c rem sum cur cov s0 r hstep
      show s0.searchCount + 1 ≤ r.1.searchCount
      rw [this, recStep_searchCount]
    · have hs2 := (btStep_inr c rem sum cur cov s0 s2 bestRi valid hstep).1
      have hloop := placementLoop_searchCount_ge c
        (btAux c fuel (rem.eraseIdx bestRi) (sum - (c.pieceAt (rem.getD bestRi 0)).size))
        (rem.getD bestRi 0) cur cov
        (fun cur' cov' s' => le_trans (by omega) (ih (rem.eraseIdx bestRi) _ cur' cov' s'))
        valid s2
      have hcnt2 : s2.searchCount = s0.searchCount + 1 := by
        rw [hs2, recStep_searchCount]
      show s0.searchCount + 1 ≤ (placementLoop c
        (btAux c fuel (rem.eraseIdx bestRi) (sum - (c.pieceAt (rem.getD bestRi 0)).size))
        (rem.getD bestRi 0) cur cov valid s2).1.searchCount
      omega

theorem solveLoop_nil (c : Ctx) (f : Nat) (rem : List Nat) (sum : Nat) (s : BState) :
    solveLoop c f rem sum [] s = s := rfl

theorem solveLoop_cons (c : Ctx) (f : Nat) (rem : List Nat) (sum : Nat) (pIdx : Nat)
    (rest : List Nat) (s : BState) :
    solveLoop c f rem sum (pIdx :: rest) s =
      solveLoop c f rem sum rest
        { undoPlacementByIndex c
            (backtrack c rem sum
              [(⟨if (c.placement pIdx).pieceId = 0 then (c.pieceAt f).id
                  else (c.placement pIdx).pieceId,
                 (c.placement pIdx).anchorIdx, (c.placement pIdx).rot, pIdx⟩ : SolItem)]
              (c.placement pIdx).targets.length (applyPlacementByIndex c s pIdx f)).1
            pIdx with depth := 0 } := rfl

/-- The top-level loop runs one `backtrack` call per assigned first-piece
placement, unconditionally. -/
theorem solveLoop_searchCount_ge (c : Ctx) (f : Nat) (rem : List Nat) (sum : Nat) :
    ∀ (assigned : List Nat) (s : BState),
      s.searchCount + assigned.length ≤ (solveLoop c f rem sum assigned s).searchCount := by
  intro assigned
  induction assigned with
  | nil => intro s; exact le_refl _
  | cons pIdx rest ih =>
    intro s
    rw [solveLoop_cons]
    set B := backtrack c rem sum
      [(⟨if (c.placement pIdx).pieceId = 0 then (c.pieceAt f).id
          else (c.placement pIdx).pieceId,
         (c.placement pIdx).anchorIdx, (c.placement pIdx).rot, pIdx⟩ : SolItem)]
      (c.placement pIdx).targets.length (applyPlacementByIndex c s pIdx f) with hB
    set st : BState := { undoPlacementByIndex c B.1 pIdx with depth := 0 } with hst
    have hbt : s.searchCount + 1 ≤ B.1.searchCount := by
      rw [hB]
      unfold backtrack
      exact btAux_searchCount_ge c rem.length rem sum _ _ (applyPlacementByIndex c s pIdx f)
    have h3 := ih st
    have h4 : st.searchCount = B.1.searchCount := rfl
    show s.searchCount + (rest.length + 1) ≤ (solveLoop c f rem sum rest st).searchCount
    omega

/-! ## Claim C4 (amended) -/

/-- C4 (amended): within `backtrack`, (i) a call whose coverage has reached
the board size returns the success signal immediately, with no recursion
(the returned state is exactly the recording prelude of that single call);
(ii) in the candidate loop, as soon as a recursive call returns the success
signal, the loop undoes that placement and returns it without touching the
remaining candidates; but (iii) the worker's top-level loop ignores
`backtrack`'s boolean result: it runs one `backtrack` call for every
assigned first-piece placement, so the search counter grows by at least the
number of assigned placements even when a perfect cover was found early. -/
theorem claim_C4_amended_propagation :
    (∀ (c : Ctx) (fuel : Nat) (rem : List Nat) (sum : Nat) (cur : List SolItem)
      (cov : Nat) (s0 : BState), c.boardSize ≤ cov →
      btAux c fuel rem sum cur cov s0 = (recStep c cur cov s0, true)) ∧
    (∀ (c : Ctx) (recur : List SolItem → Nat → BState → BState × Bool) (chosenPi : Nat)
      (cur : List SolItem) (cov : Nat) (v : Nat × Nat) (rest : List (Nat × Nat)) (s : BState),
      (recur (cur ++ [(⟨(c.placement v.1).pieceId, (c.placement v.1).anchorIdx,
          (c.placement v.1).rot, v.1⟩ : SolItem)])
        (cov + (c.placement v.1).targets.length) (applyPlacementByIndex c s v.1 chosenPi)).2 = true →
      placementLoop c recur chosenPi cur cov (v :: rest) s =
        (undoPlacementByIndex c
          (recur (cur ++ [(⟨(c.placement v.1).pieceId, (c.placement v.1).anchorIdx,
              (c.placement v.1).rot, v.1⟩ : SolItem)])
            (cov + (c.placement v.1).targets.length) (applyPlacementByIndex c s v.1 chosenPi)).1
          v.1, true)) ∧
    (∀ (c : Ctx) (f : Nat) (rem : List Nat) (sum : Nat) (assigned : List Nat) (s : BState),
      s.searchCount + assigned.length ≤ (solveLoop c f rem sum assigned s).searchCount) := by
  refine ⟨?_, ?_, fun c f rem sum assigned s => solveLoop_searchCount_ge c f rem sum assigned s⟩
  · intro c fuel rem sum cur cov s0 hcov
    rw [btAux_eq]
    have hstep : btStep c rem sum cur cov s0 = .inl (recStep c cur cov s0, true) := by
      unfold btStep
      rw [if_pos hcov]
    rw [hstep]
  · intro c recur chosenPi cur cov v rest s hstop
    rw [placementLoop_cons]
    show (if (recur _ _ _).2 then _ else _) = _
    rw [hstop]
    rw [if_pos rfl]

/-- Witness for the amended C4 at a concrete input: a `backtrack` call on
the 1×2 board that already has full coverage 2 returns the success signal
immediately. -/
theorem claim_C4_amended_witness :
    btAux ctxGH 0 [] 0 [] 2 (initState ctxGH 0) =
      (recStep ctxGH [] 2 (initState ctxGH 0), true) :=
  claim_C4_amended_propagation.1 ctxGH 0 [] 0 [] 2 (initState ctxGH 0) (by decide)

/-! ## Properties of the stable sort -/

theorem insertSorted_perm {α : Type} (le : α → α → Bool) (x : α) (l : List α) :
    (insertSorted le x l).Perm (x :: l) := by
  induction l with
  | nil => exact List.Perm.refl _
  | cons y ys ih =>
    unfold insertSorted
    by_cases h : le y x
    · rw [if_pos h]
      exact (ih.cons y).trans (List.Perm.swap x y ys)
    · rw [if_neg h]

theorem foldl_insertSorted_perm {α : Type} (le : α → α → Bool) (l : List α) :
    ∀ acc : List α,
      (l.foldl (fun a x => insertSorted le x a) acc).Perm (acc ++ l) := by
  induction l with
  | nil => intro acc; rw [List.append_nil]; exact List.Perm.refl _
  | cons x l ih =>
    intro acc
    rw [List.foldl_cons]
    refine (ih (insertSorted le x acc)).trans ?_
    refine (List.Perm.append_right l (insertSorted_perm le x acc)).trans ?_
    exact List.perm_middle.symm

theorem stableSort_perm {α : Type} (le : α → α → Bool) (l : List α) :
    (stableSort le l).Perm l := by
  unfold stableSort
  exact foldl_insertSorted_perm le l []

theorem mem_stableSort {α : Type} (le : α → α → Bool) (l : List α) (x : α) :
    x ∈ stableSort le l ↔ x ∈ l :=
  (stableSort_perm le l).mem_iff

theorem length_stableSort {α : Type} (le : α → α → Bool) (l : List α) :
    (stableSort le l).length = l.length :=
  (stableSort_perm le l).length_eq

theorem insertSorted_at_end {α : Type} (le : α → α → Bool) (x : α) (l : List α)
    (h : ∀ a ∈ l, le a x = true) : insertSorted le x l = l ++ [x] := by
  induction l with
  | nil => rfl
  | cons y ys ih =>
    unfold insertSorted
    rw [if_pos (h y (List.mem_cons_self y ys))]
    rw [ih (fun a ha => h a (List.mem_cons_of_mem y ha))]
    rfl

theorem stableSort_of_sorted_aux {α : Type} (le : α → α → Bool) :
    ∀ (l acc : List α),
      l.Pairwise (fun a b => le a b = true) →
      (∀ a ∈ acc, ∀ b ∈ l, le a b = true) →
      l.foldl (fun a x => insertSorted le x a) acc = acc ++ l := by
  intro l
  induction l with
  | nil => intro acc _ _; rw [List.append_nil]; rfl
  | cons x l ih =>
    intro acc hsort hcross
    rw [List.foldl_cons]
    rw [insertSorted_at_end le x acc (fun a ha => hcross a ha x (List.mem_cons_self x l))]
    rw [ih (acc ++ [x]) (List.Pairwise.of_cons hsort) ?_]
    · rw [List.append_assoc]
      rfl
    · intro a ha b hb
      rcases List.mem_append.mp ha with h | h
      · exact hcross a h b (List.mem_cons_of_mem x hb)
      · rw [List.mem_singleton.mp h]
        exact (List.pairwise_cons.mp hsort).1 b hb

/-- A stable-sort of an already sorted list is that list. -/
theorem stableSort_of_sorted {α : Type} (le : α → α → Bool) (l : List α)
    (hsort : l.Pairwise (fun a b => le a b = true)) : stableSort le l = l := by
  unfold stableSort
  rw [stableSort_of_sorted_aux le l [] hsort (by intro a ha; exact absurd ha (List.not_mem_nil a))]
  rfl

theorem insertSorted_sorted {α : Type} (le : α → α → Bool)
    (htot : ∀ a b, le a b = true ∨ le b a = true)
    (htrans : ∀ a b c, le a b = true → le b c = true → le a c = true)
    (x : α) (l : List α) (hl : l.Pairwise (fun a b => le a b = true)) :
    (insertSorted le x l).Pairwise (fun a b => le a b = true) := by
  induction l with
  | nil => exact List.pairwise_singleton _ x
  | cons y ys ih =>
    unfold insertSorted
    obtain ⟨hy, hys⟩ := List.pairwise_cons.mp hl
    by_cases h : le y x
    · rw [if_pos h]
      rw [List.pairwise_cons]
      refine ⟨?_, ih hys⟩
      intro b hb
      rw [(insertSorted_perm le x ys).mem_iff] at hb
      rcases List.mem_cons.mp hb with hbx | hbys
      · rw [hbx]; exact h
      · exact hy b hbys
    · rw [if_neg h]
      rw [List.pairwise_cons]
      refine ⟨?_, hl⟩
      intro b hb
      rcases List.mem_cons.mp hb with hby | hbys
      · rw [hby]
        rcases htot x y with hc | hc
        · exact hc
        · exact absurd hc h
      · rcases htot x y with hc | hc
        · exact htrans x y b hc (hy b hbys)
        · exact absurd hc h

theorem stableSort_sorted {α : Type} (le : α → α → Bool)
    (htot : ∀ a b, le a b = true ∨ le b a = true)
    (htrans : ∀ a b c, le a b = true → le b c = true → le a c = true)
    (l : List α) : (stableSort le l).Pairwise (fun a b => le a b = true) := by
  unfold stableSort
  have haux : ∀ (m acc : List α), acc.Pairwise (fun a b => le a b = true) →
      (m.foldl (fun a x => insertSorted le x a) acc).Pairwise (fun a b => le a b = true) := by
    intro m
    induction m with
    | nil => intro acc hacc; exact hacc
    | cons x m ih =>
      intro acc hacc
      rw [List.foldl_cons]
      exact ih _ (insertSorted_sorted le htot htrans x acc hacc)
  exact haux l [] List.Pairwise.nil

/-- Sorting the signature pair list is idempotent (claim C5's idempotence
part). -/
theorem sortSignature_idem (l : List (Nat × Nat)) :
    sortSignature (sortSignature l) = sortSignature l := by
  unfold sortSignature
  refine stableSort_of_sorted _ _ ?_
  refine stableSort_sorted _ ?_ ?_ l
  · intro a b
    rcases le_total a.1 b.1 with h | h
    · exact Or.inl (decide_eq_true h)
    · exact Or.inr (decide_eq_true h)
  · intro a b c hab hbc
    exact decide_eq_true (le_trans (of_decide_eq_true hab) (of_decide_eq_true hbc))

/-! ## Stamp discipline and exact state restoration -/

theorem legalAt_iff (c : Ctx) (occ : List Int) (pIdx : Nat) :
    legalAt c occ pIdx = true ↔ ∀ t ∈ (c.placement pIdx).targets, occ.getD t 0 = -1 := by
  unfold legalAt
  rw [List.all_eq_true]
  constructor
  · intro h t ht
    exact of_decide_eq_true (h t ht)
  · intro h t ht
    exact decide_eq_true (h t ht)

theorem buildValid_mem (c : Ctx) (occ : List Int) (pi : Nat) (v : Nat × Nat)
    (hv : v ∈ buildValid c occ pi) :
    legalAt c occ v.1 = true ∧ v.1 ∈ c.placementIdxs pi := by
  unfold buildValid at hv
  rw [mem_stableSort] at hv
  obtain ⟨p, hp, hv⟩ := List.mem_map.mp hv
  have h1 := List.mem_filter.mp hp
  rw [← hv]
  exact ⟨h1.2, h1.1⟩

theorem list_eq_of_getD {α : Type} (d : α) (l₁ l₂ : List α)
    (hlen : l₁.length = l₂.length) (h : ∀ t, l₁.getD t d = l₂.getD t d) : l₁ = l₂ := by
  refine List.ext_getElem hlen ?_
  intro i h1 h2
  have := h i
  rw [getD_eq_getElem_of_lt _ _ _ h1, getD_eq_getElem_of_lt _ _ _ h2] at this
  exact this

theorem stInv_initState (c : Ctx) (b : Nat) : StInv (initState c b) := by
  refine ⟨by simp [initState], ?_, ?_⟩
  · intro t
    show (List.replicate c.boardSize 0).getD t 0 ≤ 0
    rcases lt_or_le t c.boardSize with h | h
    · rw [getD_eq_getElem_of_lt _ _ _ (by simpa using h)]
      simp
    · rw [List.getD_eq_default _ _ (by simpa using h)]
  · intro t _
    show (List.replicate c.boardSize 0).getD t 0 = 0
    rcases lt_or_le t c.boardSize with h | h
    · rw [getD_eq_getElem_of_lt _ _ _ (by simpa using h)]
      simp
    · rw [List.getD_eq_default _ _ (by simpa using h)]

/-- All non-solution-bookkeeping fields of two states being equal transports
the stamp invariant. -/
theorem stInv_congr {s s' : BState} (hocc : s'.occupancy = s.occupancy)
    (hstamp : s'.depthStamp = s.depthStamp) (hdepth : s'.depth = s.depth)
    (h : StInv s) : StInv s' := by
  obtain ⟨h1, h2, h3⟩ := h
  exact ⟨by rw [hocc, hstamp]; exact h1,
    by intro t; rw [hstamp, hdepth]; exact h2 t,
    by intro t; rw [hocc, hstamp]; exact h3 t⟩

theorem stInv_apply (c : Ctx) (s : BState) (pIdx k : Nat) (h : StInv s) :
    StInv (applyPlacementByIndex c s pIdx k) := by
  obtain ⟨h1, h2, h3⟩ := h
  set ts := (c.placement pIdx).targets
  refine ⟨?_, ?_, ?_⟩
  · rw [apply_occupancy, apply_depthStamp, foldl_set_length, foldl_set_length]
    exact h1
  · intro t
    rw [apply_depthStamp, apply_depth]
    by_cases ht : t ∈ ts
    · rcases lt_or_le t s.depthStamp.length with hl | hl
      · rw [foldl_set_getD_of_mem _ _ _ _ _ ht hl]
      · rw [List.getD_eq_default _ _ (by rw [foldl_set_length]; exact hl)]
        omega
    · rw [foldl_set_getD_of_not_mem _ _ _ _ _ ht]
      have := h2 t
      omega
  · intro t hocc
    rw [apply_occupancy] at hocc
    rw [apply_depthStamp]
    by_cases ht : t ∈ ts
    · rcases lt_or_le t s.occupancy.length with hl | hl
      · rw [foldl_set_getD_of_mem _ _ _ _ _ ht hl] at hocc
        exact absurd hocc (by
          have : (0 : Int) ≤ (k : Int) := Int.ofNat_nonneg k
          omega)
      · rcases lt_or_le t s.depthStamp.length with hl2 | hl2
        · rw [foldl_set_getD_of_mem _ _ _ _ _ ht hl2]
          exact absurd (by omega : s.occupancy.length ≤ t) (by rw [h1] at hl2; omega)
        · rw [List.getD_eq_default]
          rw [foldl_set_length]
          exact hl2
    · rw [foldl_set_getD_of_not_mem _ _ _ _ _ ht] at hocc
      rw [foldl_set_getD_of_not_mem _ _ _ _ _ ht]
      exact h3 t hocc

/-- Exact restoration: undoing a placement right after applying it (with any
intermediate computation that left occupancy, stamps and depth untouched)
restores the occupancy array, the stamp array and the depth exactly,
provided the placement was legal and the stamp discipline held. -/
theorem apply_undo_restore (c : Ctx) (s : BState) (pIdx k : Nat)
    (hst : StInv s)
    (hlegal : ∀ t ∈ (c.placement pIdx).targets, s.occupancy.getD t 0 = -1)
    (s' : BState)
    (hocc : s'.occupancy = (applyPlacementByIndex c s pIdx k).occupancy)
    (hstamp : s'.depthStamp = (applyPlacementByIndex c s pIdx k).depthStamp)
    (hdepth : s'.depth = (applyPlacementByIndex c s pIdx k).depth) :
    (undoPlacementByIndex c s' pIdx).occupancy = s.occupancy ∧
    (undoPlacementByIndex c s' pIdx).depthStamp = s.depthStamp ∧
    (undoPlacementByIndex c s' pIdx).depth = s.depth := by
  obtain ⟨hlen, hle, hzero⟩ := hst
  set ts := (c.placement pIdx).targets with hts
  have hd : s'.depth = s.depth + 1 := by rw [hdepth, apply_depth]
  have hocc' : s'.occupancy = ts.foldl (fun occ t => occ.set t (k : Int)) s.occupancy := by
    rw [hocc, apply_occupancy]
  have hstamp' : s'.depthStamp = ts.foldl (fun st t => st.set t (s.depth + 1)) s.depthStamp := by
    rw [hstamp, apply_depthStamp]
  have hlen1 : s'.occupancy.length = s.occupancy.length := by
    rw [hocc']; exact foldl_set_length _ _ _
  have hlen2 : s'.depthStamp.length = s.depthStamp.length := by
    rw [hstamp']; exact foldl_set_length _ _ _
  have hptw : ∀ t : Nat,
      ((ts.foldl (undoStep s'.depth) (s'.occupancy, s'.depthStamp)).1.getD t 0 =
        s.occupancy.getD t 0) ∧
      ((ts.foldl (undoStep s'.depth) (s'.occupancy, s'.depthStamp)).2.getD t 0 =
        s.depthStamp.getD t 0) := by
    intro t
    by_cases ht : t ∈ ts
    · have hrange : t < s.occupancy.length := lt_length_of_getD_neg _ _ (hlegal t ht)
      have hstampT : s'.depthStamp.getD t 0 = s.depth + 1 := by
        rw [hstamp']
        exact foldl_set_getD_of_mem _ _ _ _ _ ht (by rw [hlen]; exact hrange)
      have := undoFold_getD_of_mem_stamp_eq s'.depth (by omega) ts
        (s'.occupancy, s'.depthStamp) t ht
        (by show s'.depthStamp.getD t 0 = s'.depth; rw [hstampT, hd])
        (by rw [hlen1]; exact hrange) (by rw [hlen2, hlen]; exact hrange)
      refine ⟨?_, ?_⟩
      · rw [this.1, hlegal t ht]
      · rw [this.2, hzero t (hlegal t ht)]
    · have := undoFold_getD_of_not_mem s'.depth ts (s'.occupancy, s'.depthStamp) t ht
      refine ⟨?_, ?_⟩
      · rw [this.1, hocc']
        exact foldl_set_getD_of_not_mem _ _ _ _ _ ht
      · rw [this.2, hstamp']
        exact foldl_set_getD_of_not_mem _ _ _ _ _ ht
  refine ⟨?_, ?_, ?_⟩
  · rw [undo_occupancy]
    refine list_eq_of_getD 0 _ _ ?_ (fun t => (hptw t).1)
    rw [(undoFold_length s'.depth ts (s'.occupancy, s'.depthStamp)).1]
    exact hlen1
  · rw [undo_depthStamp]
    refine list_eq_of_getD 0 _ _ ?_ (fun t => (hptw t).2)
    rw [(undoFold_length s'.depth ts (s'.occupancy, s'.depthStamp)).2]
    exact hlen2
  · rw [undo_depth, hd]
    omega

theorem placementLoop_cons_flat (c : Ctx)
    (recur : List SolItem → Nat → BState → BState × Bool) (chosenPi : Nat)
    (cur : List SolItem) (cov : Nat) (v : Nat × Nat) (rest : List (Nat × Nat)) (s : BState) :
    placementLoop c recur chosenPi cur cov (v :: rest) s =
      (if (recur (cur ++ [loopItem c v.1]) (cov + (c.placement v.1).targets.length)
            (applyPlacementByIndex c s v.1 chosenPi)).2 then
        (undoPlacementByIndex c
          (recur (cur ++ [loopItem c v.1]) (cov + (c.placement v.1).targets.length)
            (applyPlacementByIndex c s v.1 chosenPi)).1 v.1, true)
      else
        placementLoop c recur chosenPi cur cov rest
          (undoPlacementByIndex c
            (recur (cur ++ [loopItem c v.1]) (cov + (c.placement v.1).targets.length)
              (applyPlacementByIndex c s v.1 chosenPi)).1 v.1)) := rfl

/-- The candidate loop restores occupancy, stamps and depth exactly,
provided its candidates are legal in the entry state and the recursion
preserves those fields on stamp-disciplined states. -/
theorem placementLoop_preserves_state (c : Ctx)
    (recur : List SolItem → Nat → BState → BState × Bool) (chosenPi : Nat)
    (hrec : ∀ cur' cov' s', StInv s' →
      (recur cur' cov' s').1.occupancy = s'.occupancy ∧
      (recur cur' cov' s').1.depthStamp = s'.depthStamp ∧
      (recur cur' cov' s').1.depth = s'.depth) :
    ∀ (l : List (Nat × Nat)) (cur : List SolItem) (cov : Nat) (s : BState), StInv s →
      (∀ v ∈ l, legalAt c s.occupancy v.1 = true) →
      (placementLoop c recur chosenPi cur cov l s).1.occupancy = s.occupancy ∧
      (placementLoop c recur chosenPi cur cov l s).1.depthStamp = s.depthStamp ∧
      (placementLoop c recur chosenPi cur cov l s).1.depth = s.depth := by
  intro l
  induction l with
  | nil => intro cur cov s _ _; exact ⟨rfl, rfl, rfl⟩
  | cons v rest ih =>
    intro cur cov s hst hl
    rw [placementLoop_cons_flat]
    set s1 := applyPlacementByIndex c s v.1 chosenPi with hs1
    set R := recur (cur ++ [loopItem c v.1]) (cov + (c.placement v.1).targets.length) s1 with hR
    have hst1 : StInv s1 := stInv_apply c s v.1 chosenPi hst
    have hRfields := hrec (cur ++ [loopItem c v.1]) (cov + (c.placement v.1).targets.length) s1 hst1
    rw [← hR] at hRfields
    have hlegal : ∀ t ∈ (c.placement v.1).targets, s.occupancy.getD t 0 = -1 :=
      (legalAt_iff c s.occupancy v.1).mp (hl v (List.mem_cons_self v rest))
    have hrestore := apply_undo_restore c s v.1 chosenPi hst hlegal R.1
      hRfields.1 hRfields.2.1 hRfields.2.2
    by_cases hR2 : R.2
    · rw [if_pos hR2]
      exact hrestore
    · rw [if_neg hR2]
      have hst3 : StInv (undoPlacementByIndex c R.1 v.1) :=
        stInv_congr hrestore.1 hrestore.2.1 hrestore.2.2 hst
      have hl3 : ∀ w ∈ rest, legalAt c (undoPlacementByIndex c R.1 v.1).occupancy w.1 = true := by
        intro w hw
        rw [hrestore.1]
        exact hl w (List.mem_cons_of_mem v hw)
      have := ih cur cov (undoPlacementByIndex c R.1 v.1) hst3 hl3
      rw [this.1, this.2.1, this.2.2]
      exact hrestore

/-- Every `backtrack` call restores occupancy, depth stamps and depth
exactly (given the stamp discipline). -/
theorem btAux_preserves_state (c : Ctx) (fuel : Nat) :
    ∀ (rem : List Nat) (sum : Nat) (cur : List SolItem) (cov : Nat) (s0 : BState),
      StInv s0 →
      (btAux c fuel rem sum cur cov s0).1.occupancy = s0.occupancy ∧
      (btAux c fuel rem sum cur cov s0).1.depthStamp = s0.depthStamp ∧
      (btAux c fuel rem sum cur cov s0).1.depth = s0.depth := by
  induction fuel with
  | zero =>
    intro rem sum cur cov s0 _
    rw [btAux_eq]
    rcases hstep : btStep c rem sum cur cov s0 with r | ⟨s2, bestRi, valid⟩
    · have := btStep_inl_fst c rem sum cur cov s0 r hstep
      show r.1.occupancy = _ ∧ r.1.depthStamp = _ ∧ r.1.depth = _
      rw [this, recStep_occupancy, recStep_depthStamp, recStep_depth]
      exact ⟨rfl, rfl, rfl⟩
    · have := (btStep_inr c rem sum cur cov s0 s2 bestRi valid hstep).1
      show s2.occupancy = _ ∧ s2.depthStamp = _ ∧ s2.depth = _
      rw [this, recStep_occupancy, recStep_depthStamp, recStep_depth]
      exact ⟨rfl, rfl, rfl⟩
  | succ fuel ih =>
    intro rem sum cur cov s0 hst
    rw [btAux_eq]
    rcases hstep : btStep c rem sum cur cov s0 with r | ⟨s2, bestRi, valid⟩
    · have := btStep_inl_fst c rem sum cur cov s0 r hstep
      show r.1.occupancy = _ ∧ r.1.depthStamp = _ ∧ r.1.depth = _
      rw [this, recStep_occupancy, recStep_depthStamp, recStep_depth]
      exact ⟨rfl, rfl, rfl⟩
    · obtain ⟨hs2, hvalid, _, _, _, _, _⟩ := btStep_inr c rem sum cur cov s0 s2 bestRi valid hstep
      have hs2occ : s2.occupancy = s0.occupancy := by rw [hs2, recStep_occupancy]
      have hs2stamp : s2.depthStamp = s0.depthStamp := by rw [hs2, recStep_depthStamp]
      have hs2depth : s2.depth = s0.depth := by rw [hs2, recStep_depth]
      have hst2 : StInv s2 := stInv_congr hs2occ hs2stamp hs2depth hst
      have hl : ∀ v ∈ valid, legalAt c s2.occupancy v.1 = true := by
        intro v hv
        rw [hvalid] at hv
        have h1 := (buildValid_mem c (recStep c cur cov s0).occupancy _ v hv).1
        rw [recStep_occupancy] at h1
        rw [hs2occ]
        exact h1
      have := placementLoop_preserves_state c
        (btAux c fuel (rem.eraseIdx bestRi) (sum - (c.pieceAt (rem.getD bestRi 0)).size))
        (rem.getD bestRi 0)
        (fun cur' cov' s' hs' => ih (rem.eraseIdx bestRi) _ cur' cov' s' hs')
        valid cur cov s2 hst2 hl
      show (placementLoop c _ _ cur cov valid s2).1.occupancy = _ ∧ _ ∧ _
      rw [this.1, this.2.1, this.2.2]
      exact ⟨hs2occ, hs2stamp, hs2depth⟩

/-- C4 counterexample: on the 1×2 board with the two single-cell pieces, the
worker finds a perfect cover (best coverage = board size 2) already while
processing its first assigned first-piece placement, yet the top-level loop
(which discards `backtrack`'s boolean result) still runs a further
`backtrack` call for the second assigned first-piece placement — the search
node counter increases strictly after the perfect cover was found, so the
claim that no further first-piece placements are explored is false. -/
theorem claim_C4_counterexample :
    (solveLoop ctxGH 0 [1] 1 [0] (initState ctxGH 0)).bestCoverage = ctxGH.boardSize ∧
    (solveLoop ctxGH 0 [1] 1 [0, 1] (initState ctxGH 0)).searchCount =
      (solveLoop ctxGH 0 [1] 1 [0] (initState ctxGH 0)).searchCount + 1 := by
  decide

/-! ## Solution-bookkeeping transport -/

theorem apply_bestCoverage (c : Ctx) (s : BState) (pIdx pieceIdx : Nat) :
    (applyPlacementByIndex c s pIdx pieceIdx).bestCoverage = s.bestCoverage := rfl

theorem apply_topSolutions (c : Ctx) (s : BState) (pIdx pieceIdx : Nat) :
    (applyPlacementByIndex c s pIdx pieceIdx).topSolutions = s.topSolutions := rfl

theorem apply_seenSignatures (c : Ctx) (s : BState) (pIdx pieceIdx : Nat) :
    (applyPlacementByIndex c s pIdx pieceIdx).seenSignatures = s.seenSignatures := rfl

theorem undo_bestCoverage (c : Ctx) (s : BState) (pIdx : Nat) :
    (undoPlacementByIndex c s pIdx).bestCoverage = s.bestCoverage := rfl

theorem undo_topSolutions (c : Ctx) (s : BState) (pIdx : Nat) :
    (undoPlacementByIndex c s pIdx).topSolutions = s.topSolutions := rfl

theorem undo_seenSignatures (c : Ctx) (s : BState) (pIdx : Nat) :
    (undoPlacementByIndex c s pIdx).seenSignatures = s.seenSignatures := rfl

/-- `SolsOK` only reads the three solution-bookkeeping fields. -/
theorem solsOK_congr (c : Ctx) {s s' : BState}
    (hb : s'.bestCoverage = s.bestCoverage)
    (ht : s'.topSolutions = s.topSolutions)
    (hs : s'.seenSignatures = s.seenSignatures)
    (h : SolsOK c s) : SolsOK c s' := by
  obtain ⟨curs, h1, h2, h3, h4, h5⟩ := h
  exact ⟨curs, by rw [ht, h1], by rw [hs, h2], by rw [hs]; exact h3,
    fun cu hcu => ⟨(h4 cu hcu).1, (h4 cu hcu).2.1, by rw [hb]; exact (h4 cu hcu).2.2⟩,
    by rw [hb, ht]; exact h5⟩

/-! ## Occupied-cell counting -/

theorem occupiedCount_set_of_empty (occ : List Int) (t : Nat) (ht : t < occ.length)
    (hempty : occ.getD t 0 = -1) (v : Int) (hv : v ≠ -1) :
    occupiedCount (occ.set t v) = occupiedCount occ + 1 := by
  unfold occupiedCount
  rw [List.countP_set _ _ _ _ ht]
  rw [getD_eq_getElem_of_lt _ _ _ ht] at hempty
  rw [hempty]
  simp [hv]

theorem occupiedCount_foldl_set (k : Nat) :
    ∀ (ts : List Nat) (occ : List Int), ts.Nodup →
      (∀ t ∈ ts, t < occ.length) → (∀ t ∈ ts, occ.getD t 0 = -1) →
      occupiedCount (ts.foldl (fun o t => o.set t (k : Int)) occ) =
        occupiedCount occ + ts.length := by
  intro ts
  induction ts with
  | nil => intro occ _ _ _; rfl
  | cons t rest ih =>
    intro occ hnd hlt hempty
    show occupiedCount (rest.foldl (fun o u => o.set u (k : Int)) (occ.set t (k : Int))) = _
    have hlen : (occ.set t (k : Int)).length = occ.length := by simp
    have hkne : (k : Int) ≠ -1 := by omega
    rw [ih (occ.set t (k : Int)) (List.nodup_cons.mp hnd).2
      (fun u hu => by rw [hlen]; exact hlt u (List.mem_cons_of_mem t hu))
      (fun u hu => by
        have hne : t ≠ u := fun hc => (List.nodup_cons.mp hnd).1 (hc ▸ hu)
        have hulen : u < occ.length := hlt u (List.mem_cons_of_mem t hu)
        rw [getD_eq_getElem_of_lt _ _ _ (by rw [hlen]; exact hulen),
          List.getElem_set_ne hne]
        have hq := hempty u (List.mem_cons_of_mem t hu)
        rw [getD_eq_getElem_of_lt _ _ _ hulen] at hq
        exact hq)]
    rw [occupiedCount_set_of_empty occ t (hlt t (List.mem_cons_self t rest))
      (hempty t (List.mem_cons_self t rest)) _ hkne]
    simp [Nat.add_assoc, Nat.add_comm 1]

theorem occupiedCount_replicate_empty (n : Nat) :
    occupiedCount (List.replicate n (-1)) = 0 := by
  unfold occupiedCount
  rw [List.countP_eq_zero]
  intro v hv
  rw [List.eq_of_mem_replicate hv]
  simp

theorem occupiedCount_le_length (occ : List Int) : occupiedCount occ ≤ occ.length :=
  List.countP_le_length _

/-! ## Sums over erased and member elements -/

theorem map_sum_eraseIdx (f : Nat → Nat) :
    ∀ (l : List Nat) (i : Nat), i < l.length →
      ((l.eraseIdx i).map f).sum + f (l.getD i 0) = (l.map f).sum := by
  intro l
  induction l with
  | nil => intro i hi; simp at hi
  | cons a rest ih =>
    intro i hi
    cases i with
    | zero =>
      simp only [List.eraseIdx, List.getD_cons_zero, List.map_cons, List.sum_cons]
      omega
    | succ j =>
      have hj : j < rest.length := by simpa using hi
      show ((a :: rest.eraseIdx j).map f).sum + f (rest.getD j 0) = _
      simp only [List.map_cons, List.sum_cons]
      rw [Nat.add_assoc, ih j hj]

theorem le_map_sum_of_mem (f : Nat → Nat) (l : List Nat) (a : Nat) (h : a ∈ l) :
    f a ≤ (l.map f).sum :=
  List.le_sum_of_mem (List.mem_map_of_mem f h)

/-- A selected remaining index returned by the selection loop is in range. -/
theorem selectLoop_some_lt (c : Ctx) (occ : List Int) (remaining : List Nat)
    (ri : Nat) (h : (selectLoop c occ remaining).1 = some ri) : ri < remaining.length := by
  rcases selectLoop_spec c occ remaining with ⟨hR, _⟩ | ⟨riPi, hmem, hR, _, _, _⟩
  · rw [hR] at h
    exact absurd h (by simp)
  · rw [hR] at h
    have h1 : riPi.1 = ri := Option.some.inj h
    have h2 := List.mem_enum_iff_getElem?.mp hmem
    obtain ⟨hlt, _⟩ := List.getElem?_eq_some.mp h2
    omega

theorem mem_of_getD_lt (l : List Nat) (i : Nat) (hi : i < l.length) :
    l.getD i 0 ∈ l := by
  rw [getD_eq_getElem_of_lt _ _ _ hi]
  exact List.getElem_mem hi

/-! ## The recorded-solution invariant -/

theorem placement_mem (c : Ctx) (pIdx : Nat) (h : pIdx < c.placements.length) :
    c.placement pIdx ∈ c.placements := by
  unfold Ctx.placement
  rw [getD_eq_getElem_of_lt _ _ _ h]
  exact List.getElem_mem h

/-- Recording a consistent, pairwise-disjoint current solution whose
coverage argument is its total target count preserves the recorded-solution
bookkeeping invariant. -/
theorem record_SolsOK (c : Ctx) (s : BState) (cur : List SolItem) (cov : Nat)
    (hsol : SolsOK c s)
    (hitems : ∀ it ∈ cur, ItemOK c it)
    (hdisj : ItemsDisjoint c cur)
    (hcov : covOf c cur = cov) :
    SolsOK c (recordSolution c s cur cov) := by
  obtain ⟨curs, h1, h2, h3, h4, h5⟩ := hsol
  unfold recordSolution
  dsimp only
  split_ifs with hb ht hseen
  · refine ⟨[cur], by simp, by simp, by simp, ?_, by intro _; simp⟩
    intro cu hcu
    rw [List.mem_singleton] at hcu
    subst hcu
    exact ⟨hitems, hdisj, hcov⟩
  · exact ⟨curs, h1, h2, h3, h4, h5⟩
  · refine ⟨curs ++ [cur], ?_, ?_, ?_, ?_, ?_⟩
    · show s.topSolutions ++ [exportSolution c cur] = _
      rw [List.map_append, h1]
      rfl
    · show s.seenSignatures ++ [getSolutionCellSignature c cur] = _
      rw [List.map_append, h2]
      rfl
    · show (s.seenSignatures ++ [getSolutionCellSignature c cur]).Nodup
      rw [List.nodup_append]
      refine ⟨h3, List.nodup_singleton _, ?_⟩
      intro a ha hb'
      rw [List.mem_singleton] at hb'
      subst hb'
      exact hseen ha
    · intro cu hcu
      rw [List.mem_append, List.mem_singleton] at hcu
      rcases hcu with hcu | hcu
      · exact (h4 cu hcu)
      · subst hcu
        exact ⟨hitems, hdisj, hcov.trans ht.1⟩
    · intro hpos
      show s.topSolutions ++ [exportSolution c cur] ≠ []
      simp
  · exact ⟨curs, h1, h2, h3, h4, h5⟩

theorem recStep_solsOK (c : Ctx) (cur : List SolItem) (cov : Nat) (s0 : BState)
    (hsol : SolsOK c s0)
    (hitems : ∀ it ∈ cur, ItemOK c it)
    (hdisj : ItemsDisjoint c cur)
    (hcov : covOf c cur = cov) :
    SolsOK c (recStep c cur cov s0) :=
  record_SolsOK c _ cur cov (solsOK_congr c rfl rfl rfl hsol) hitems hdisj hcov

/-- The full invariant survives the shared `recStep` prelude. -/
theorem inv_recStep (c : Ctx) (cur : List SolItem) (cov : Nat) (s0 : BState)
    (hinv : Inv c cur cov s0) : Inv c cur cov (recStep c cur cov s0) := by
  obtain ⟨hst, hlen, hcnt, hitems, hdisj, hcov, hsol⟩ := hinv
  refine ⟨stInv_congr (recStep_occupancy c cur cov s0) (recStep_depthStamp c cur cov s0)
    (recStep_depth c cur cov s0) hst, ?_, ?_, ?_, hdisj, hcov,
    recStep_solsOK c cur cov s0 hsol (fun it hit => (hitems it hit).1) hdisj hcov⟩
  · rw [recStep_occupancy]
    exact hlen
  · rw [recStep_occupancy]
    exact hcnt
  · intro it hit
    refine ⟨(hitems it hit).1, ?_⟩
    rw [recStep_occupancy]
    exact (hitems it hit).2

/-- Applying a legal placement on an invariant-satisfying state yields the
invariant for the extended solution path at the increased coverage. -/
theorem inv_apply (c : Ctx) (hT : TargetsOK c)
    (cur : List SolItem) (cov : Nat) (s : BState) (hinv : Inv c cur cov s)
    (pIdx chosenPi : Nat) (hplt : pIdx < c.placements.length)
    (hlegal : legalAt c s.occupancy pIdx = true) :
    Inv c (cur ++ [loopItem c pIdx]) (cov + (c.placement pIdx).targets.length)
      (applyPlacementByIndex c s pIdx chosenPi) := by
  obtain ⟨hst, hlen, hcnt, hitems, hdisj, hcov, hsol⟩ := hinv
  obtain ⟨hnd, hbound⟩ := hT (c.placement pIdx) (placement_mem c pIdx hplt)
  have hempty := (legalAt_iff c s.occupancy pIdx).mp hlegal
  have hlenpres : (applyPlacementByIndex c s pIdx chosenPi).occupancy.length =
      s.occupancy.length := by
    rw [apply_occupancy]
    exact foldl_set_length _ _ _
  refine ⟨stInv_apply c s pIdx chosenPi hst, by rw [hlenpres]; exact hlen, ?_, ?_, ?_, ?_,
    solsOK_congr c (apply_bestCoverage c s pIdx chosenPi) (apply_topSolutions c s pIdx chosenPi)
      (apply_seenSignatures c s pIdx chosenPi) hsol⟩
  · rw [apply_occupancy]
    rw [occupiedCount_foldl_set chosenPi _ _ hnd
      (fun t ht => by rw [hlen]; exact hbound t ht) hempty]
    rw [hcnt]
  · intro it hit
    rw [List.mem_append, List.mem_singleton] at hit
    have hval : ∀ t ∈ (c.placement pIdx).targets,
        (applyPlacementByIndex c s pIdx chosenPi).occupancy.getD t 0 ≠ -1 := by
      intro t ht
      rw [apply_occupancy, foldl_set_getD_of_mem _ _ _ _ _ ht (by rw [hlen]; exact hbound t ht)]
      have : (0 : Int) ≤ (chosenPi : Int) := Int.ofNat_nonneg chosenPi
      omega
    rcases hit with hit | hit
    · refine ⟨(hitems it hit).1, ?_⟩
      intro t ht
      by_cases hmem : t ∈ (c.placement pIdx).targets
      · exact hval t hmem
      · rw [apply_occupancy, foldl_set_getD_of_not_mem _ _ _ _ _ hmem]
        exact (hitems it hit).2 t ht
    · subst hit
      exact ⟨⟨hplt, rfl, rfl, rfl⟩, hval⟩
  · show List.Pairwise _ (cur ++ [loopItem c pIdx])
    rw [List.pairwise_append]
    refine ⟨hdisj, List.pairwise_singleton _ _, ?_⟩
    intro a ha b hbmem
    rw [List.mem_singleton] at hbmem
    subst hbmem
    intro t ht hcontra
    have h1 := (hitems a ha).2 t ht
    exact h1 (hempty t hcontra)
  · show covOf c (cur ++ [loopItem c pIdx]) = _
    unfold covOf
    rw [List.map_append, List.sum_append]
    unfold covOf at hcov
    rw [hcov]
    rfl

/-- The full invariant transports along an exact occupancy/stamp/depth
restoration, given the bookkeeping part for the new state. -/
theorem inv_congr (c : Ctx) (cur : List SolItem) (cov : Nat) {s s' : BState}
    (hocc : s'.occupancy = s.occupancy) (hstamp : s'.depthStamp = s.depthStamp)
    (hdepth : s'.depth = s.depth) (hsol : SolsOK c s')
    (hinv : Inv c cur cov s) : Inv c cur cov s' := by
  obtain ⟨hst, hlen, hcnt, hitems, hdisj, hcov, _⟩ := hinv
  refine ⟨stInv_congr hocc hstamp hdepth hst, by rw [hocc]; exact hlen,
    by rw [hocc]; exact hcnt, ?_, hdisj, hcov, hsol⟩
  intro it hit
  refine ⟨(hitems it hit).1, ?_⟩
  rw [hocc]
  exact (hitems it hit).2

/-- The candidate loop preserves the recorded-solution bookkeeping
invariant, provided its candidates are legal rows of the chosen piece and
the recursion preserves both the machine state and the bookkeeping. -/
theorem placementLoop_solsOK (c : Ctx) (hT : TargetsOK c) (hS : SlicesOK c)
    (recur : List SolItem → Nat → BState → BState × Bool) (chosenPi : Nat)
    (hpi : chosenPi < c.pieces.length)
    (hrecState : ∀ (cur' : List SolItem) (cov' : Nat) (s' : BState), StInv s' →
      (recur cur' cov' s').1.occupancy = s'.occupancy ∧
      (recur cur' cov' s').1.depthStamp = s'.depthStamp ∧
      (recur cur' cov' s').1.depth = s'.depth)
    (hrecSols : ∀ (cur' : List SolItem) (cov' : Nat) (s' : BState),
      Inv c cur' cov' s' → SolsOK c (recur cur' cov' s').1) :
    ∀ (l : List (Nat × Nat)) (cur : List SolItem) (cov : Nat) (s : BState),
      Inv c cur cov s →
      (∀ v ∈ l, legalAt c s.occupancy v.1 = true ∧ v.1 ∈ c.placementIdxs chosenPi) →
      SolsOK c (placementLoop c recur chosenPi cur cov l s).1 := by
  intro l
  induction l with
  | nil => intro cur cov s hinv _; exact hinv.2.2.2.2.2.2
  | cons v rest ih =>
    intro cur cov s hinv hl
    rw [placementLoop_cons_flat]
    set s1 := applyPlacementByIndex c s v.1 chosenPi with hs1
    set R := recur (cur ++ [loopItem c v.1]) (cov + (c.placement v.1).targets.length) s1 with hR
    have hplt : v.1 < c.placements.length :=
      (hS chosenPi hpi v.1 (hl v (List.mem_cons_self v rest)).2).1
    have hinv1 : Inv c (cur ++ [loopItem c v.1])
        (cov + (c.placement v.1).targets.length) s1 :=
      inv_apply c hT cur cov s hinv v.1 chosenPi hplt (hl v (List.mem_cons_self v rest)).1
    have hsolsR : SolsOK c R.1 := hrecSols _ _ _ hinv1
    have hRfields := hrecState (cur ++ [loopItem c v.1])
      (cov + (c.placement v.1).targets.length) s1 hinv1.1
    rw [← hR] at hRfields
    have hlegal : ∀ t ∈ (c.placement v.1).targets, s.occupancy.getD t 0 = -1 :=
      (legalAt_iff c s.occupancy v.1).mp (hl v (List.mem_cons_self v rest)).1
    have hrestore := apply_undo_restore c s v.1 chosenPi hinv.1 hlegal R.1
      hRfields.1 hRfields.2.1 hRfields.2.2
    have hsols3 : SolsOK c (undoPlacementByIndex c R.1 v.1) :=
      solsOK_congr c (undo_bestCoverage c R.1 v.1) (undo_topSolutions c R.1 v.1)
        (undo_seenSignatures c R.1 v.1) hsolsR
    by_cases hR2 : R.2
    · rw [if_pos hR2]
      exact hsols3
    · rw [if_neg hR2]
      have hinv3 : Inv c cur cov (undoPlacementByIndex c R.1 v.1) :=
        inv_congr c cur cov hrestore.1 hrestore.2.1 hrestore.2.2 hsols3 hinv
      refine ih cur cov _ hinv3 ?_
      intro w hw
      refine ⟨?_, (hl w (List.mem_cons_of_mem v hw)).2⟩
      rw [hrestore.1]
      exact (hl w (List.mem_cons_of_mem v hw)).1

/-- The master recording theorem: every `backtrack` call started under the
full invariant ends with the recorded-solution bookkeeping intact. -/
theorem btAux_solsOK (c : Ctx) (hT : TargetsOK c) (hS : SlicesOK c) (fuel : Nat) :
    ∀ (rem : List Nat) (sum : Nat) (cur : List SolItem) (cov : Nat) (s0 : BState),
      (∀ pi ∈ rem, pi < c.pieces.length) → Inv c cur cov s0 →
      SolsOK c (btAux c fuel rem sum cur cov s0).1 := by
  induction fuel with
  | zero =>
    intro rem sum cur cov s0 hrem hinv
    rw [btAux_eq]
    rcases hstep : btStep c rem sum cur cov s0 with r | ⟨s2, bestRi, valid⟩
    · have := btStep_inl_fst c rem sum cur cov s0 r hstep
      show SolsOK c r.1
      rw [this]
      exact (inv_recStep c cur cov s0 hinv).2.2.2.2.2.2
    · have := (btStep_inr c rem sum cur cov s0 s2 bestRi valid hstep).1
      show SolsOK c s2
      rw [this]
      exact (inv_recStep c cur cov s0 hinv).2.2.2.2.2.2
  | succ fuel ih =>
    intro rem sum cur cov s0 hrem hinv
    rw [btAux_eq]
    rcases hstep : btStep c rem sum cur cov s0 with r | ⟨s2, bestRi, valid⟩
    · have := btStep_inl_fst c rem sum cur cov s0 r hstep
      show SolsOK c r.1
      rw [this]
      exact (inv_recStep c cur cov s0 hinv).2.2.2.2.2.2
    · obtain ⟨hs2, hvalid, hsel, _, _, _, _⟩ :=
        btStep_inr c rem sum cur cov s0 s2 bestRi valid hstep
      have hinv2 : Inv c cur cov s2 := by
        rw [hs2]
        exact inv_recStep c cur cov s0 hinv
      have hbrlt : bestRi < rem.length := selectLoop_some_lt c _ rem bestRi hsel
      have hpi : rem.getD bestRi 0 < c.pieces.length :=
        hrem _ (mem_of_getD_lt rem bestRi hbrlt)
      have hrem' : ∀ pi ∈ rem.eraseIdx bestRi, pi < c.pieces.length :=
        fun pi hp => hrem pi ((List.eraseIdx_sublist rem bestRi).subset hp)
      have hl : ∀ v ∈ valid, legalAt c s2.occupancy v.1 = true ∧
          v.1 ∈ c.placementIdxs (rem.getD bestRi 0) := by
        intro v hv
        rw [hvalid] at hv
        have h1 := buildValid_mem c (recStep c cur cov s0).occupancy _ v hv
        have hocc2 : s2.occupancy = (recStep c cur cov s0).occupancy := by rw [hs2]
        exact ⟨by rw [hocc2]; exact h1.1, h1.2⟩
      exact placementLoop_solsOK c hT hS
        (btAux c fuel (rem.eraseIdx bestRi) (sum - (c.pieceAt (rem.getD bestRi 0)).size))
        (rem.getD bestRi 0) hpi
        (fun cur' cov' s' hs' => btAux_preserves_state c fuel _ _ cur' cov' s' hs')
        (fun cur' cov' s' hinv' => ih _ _ cur' cov' s' hrem' hinv')
        valid cur cov s2 hinv2 hl

/-- The bookkeeping invariant holds in the clean start state seeded with
best coverage 0. -/
theorem solsOK_initState0 (c : Ctx) : SolsOK c (initState c 0) :=
  ⟨[], rfl, rfl, List.nodup_nil, fun cu hcu => absurd hcu (List.not_mem_nil cu),
    fun h => absurd h (by simp [initState])⟩

/-- The clean-board invariant for the empty solution path. -/
theorem inv_clean (c : Ctx) (s : BState)
    (hocc : s.occupancy = List.replicate c.boardSize (-1))
    (hstamp : s.depthStamp = List.replicate c.boardSize 0)
    (hdepth : s.depth = 0) (hsol : SolsOK c s) : Inv c [] 0 s := by
  refine ⟨?_, by rw [hocc]; simp, by rw [hocc]; exact occupiedCount_replicate_empty _,
    fun it hit => absurd hit (List.not_mem_nil it), List.Pairwise.nil, rfl, hsol⟩
  refine stInv_congr (s := initState c 0) ?_ ?_ ?_ (stInv_initState c 0)
  · rw [hocc]; rfl
  · rw [hstamp]; rfl
  · rw [hdepth]; rfl

/-- Any placement row is legal on the clean board. -/
theorem legalAt_clean (c : Ctx) (hT : TargetsOK c) (s : BState)
    (hocc : s.occupancy = List.replicate c.boardSize (-1))
    (pIdx : Nat) (hplt : pIdx < c.placements.length) :
    legalAt c s.occupancy pIdx = true := by
  rw [legalAt_iff]
  intro t ht
  have hb := (hT _ (placement_mem c pIdx hplt)).2 t ht
  rw [hocc, getD_eq_getElem_of_lt _ _ _ (by simpa using hb)]
  simp

/-- The worker's top-level loop keeps the recorded-solution bookkeeping
sound: each iteration starts from the restored clean board, applies a
first-piece placement, searches below it under the invariant, and restores
the board again. -/
theorem solveLoop_solsOK (c : Ctx) (hT : TargetsOK c) (hS : SlicesOK c)
    (f : Nat) (hf : f < c.pieces.length)
    (hpid : ∀ p ∈ c.placements, p.pieceId ≠ 0)
    (rem : List Nat) (hrem : ∀ pi ∈ rem, pi < c.pieces.length) (sum : Nat) :
    ∀ (L : List Nat) (s : BState),
      (∀ pIdx ∈ L, pIdx ∈ c.placementIdxs f) →
      s.occupancy = List.replicate c.boardSize (-1) →
      s.depthStamp = List.replicate c.boardSize 0 →
      s.depth = 0 →
      SolsOK c s →
      SolsOK c (solveLoop c f rem sum L s) := by
  intro L
  induction L with
  | nil => intro s _ _ _ _ hsol; exact hsol
  | cons pIdx rest ih =>
    intro s hass hocc hstamp hdepth hsol
    rw [solveLoop_cons]
    have hplt : pIdx < c.placements.length :=
      (hS f hf pIdx (hass pIdx (List.mem_cons_self pIdx rest))).1
    have hpid1 : (c.placement pIdx).pieceId ≠ 0 := hpid _ (placement_mem c pIdx hplt)
    have hitem : (⟨if (c.placement pIdx).pieceId = 0 then (c.pieceAt f).id
        else (c.placement pIdx).pieceId,
        (c.placement pIdx).anchorIdx, (c.placement pIdx).rot, pIdx⟩ : SolItem) =
        loopItem c pIdx := by
      unfold loopItem
      rw [if_neg hpid1]
    rw [hitem]
    have hinv0 : Inv c [] 0 s := inv_clean c s hocc hstamp hdepth hsol
    have hlegal : legalAt c s.occupancy pIdx = true := legalAt_clean c hT s hocc pIdx hplt
    have hinv1 := inv_apply c hT [] 0 s hinv0 pIdx f hplt hlegal
    rw [Nat.zero_add] at hinv1
    set s1 := applyPlacementByIndex c s pIdx f with hs1
    set B := backtrack c rem sum [loopItem c pIdx] (c.placement pIdx).targets.length s1 with hB
    have hsolsB : SolsOK c B.1 := by
      rw [hB]
      unfold backtrack
      exact btAux_solsOK c hT hS rem.length rem sum _ _ s1 hrem hinv1
    have hBfields : B.1.occupancy = s1.occupancy ∧ B.1.depthStamp = s1.depthStamp ∧
        B.1.depth = s1.depth := by
      rw [hB]
      unfold backtrack
      exact btAux_preserves_state c rem.length rem sum _ _ s1 hinv1.1
    have hlegal' : ∀ t ∈ (c.placement pIdx).targets, s.occupancy.getD t 0 = -1 :=
      (legalAt_iff c s.occupancy pIdx).mp hlegal
    have hrestore := apply_undo_restore c s pIdx f hinv0.1 hlegal' B.1
      hBfields.1 hBfields.2.1 hBfields.2.2
    have hsols3 : SolsOK c (undoPlacementByIndex c B.1 pIdx) :=
      solsOK_congr c (undo_bestCoverage c B.1 pIdx) (undo_topSolutions c B.1 pIdx)
        (undo_seenSignatures c B.1 pIdx) hsolsB
    refine ih { undoPlacementByIndex c B.1 pIdx with depth := 0 }
      (fun q hq => hass q (List.mem_cons_of_mem pIdx hq)) ?_ ?_ rfl ?_
    · show (undoPlacementByIndex c B.1 pIdx).occupancy = _
      rw [hrestore.1, hocc]
    · show (undoPlacementByIndex c B.1 pIdx).depthStamp = _
      rw [hrestore.2.1, hstamp]
    · exact solsOK_congr c rfl rfl rfl hsols3

/-- The packed form of one worker's `solve`. -/
theorem solve_eq (c : Ctx) (pieceOrder : List Nat) (assigned : List Nat) (b : Nat) :
    solve c pieceOrder assigned b =
      { solutions := (solveLoop c (pieceOrder.headD 0) pieceOrder.tail
          ((pieceOrder.tail.map (fun i => (c.pieceAt i).size)).sum) assigned
          (initState c b)).topSolutions
        coverage := (solveLoop c (pieceOrder.headD 0) pieceOrder.tail
          ((pieceOrder.tail.map (fun i => (c.pieceAt i).size)).sum) assigned
          (initState c b)).bestCoverage
        searchCount := (solveLoop c (pieceOrder.headD 0) pieceOrder.tail
          ((pieceOrder.tail.map (fun i => (c.pieceAt i).size)).sum) assigned
          (initState c b)).searchCount } := rfl

/-- A worker run from the clean initial state with best coverage 0 produces
a sound COMPLETE report. -/
theorem solve_workerOK (c : Ctx) (hT : TargetsOK c) (hS : SlicesOK c)
    (hpid : ∀ p ∈ c.placements, p.pieceId ≠ 0)
    (pieceOrder : List Nat) (horder : ∀ pi ∈ pieceOrder.tail, pi < c.pieces.length)
    (hf : pieceOrder.headD 0 < c.pieces.length)
    (assigned : List Nat)
    (hass : ∀ pIdx ∈ assigned, pIdx ∈ c.placementIdxs (pieceOrder.headD 0)) :
    WorkerOK c (solve c pieceOrder assigned 0) := by
  have hsol := solveLoop_solsOK c hT hS (pieceOrder.headD 0) hf hpid pieceOrder.tail horder
    ((pieceOrder.tail.map (fun i => (c.pieceAt i).size)).sum) assigned (initState c 0)
    hass rfl rfl rfl (solsOK_initState0 c)
  obtain ⟨curs, h1, h2, h3, h4, h5⟩ := hsol
  rw [solve_eq]
  refine ⟨curs, h1, ?_, ?_, h5⟩
  · rw [← h2]
    exact h3
  · exact h4

/-! ## Well-formedness of the compiled context -/

theorem mem_boardCellsRect (w h : Nat) (x : Int × Int) :
    x ∈ boardCellsRect w h ↔ 0 ≤ x.1 ∧ x.1 < w ∧ 0 ≤ x.2 ∧ x.2 < h := by
  unfold boardCellsRect
  rw [List.mem_flatMap]
  constructor
  · rintro ⟨q, hq, hx⟩
    rw [List.mem_map] at hx
    obtain ⟨r, hr, hx⟩ := hx
    rw [List.mem_range] at hq hr
    rw [← hx]
    refine ⟨Int.ofNat_nonneg q, ?_, Int.ofNat_nonneg r, ?_⟩ <;> exact_mod_cast (by omega)
  · rintro ⟨h1, h2, h3, h4⟩
    refine ⟨x.1.toNat, List.mem_range.mpr (by omega), List.mem_map.mpr
      ⟨x.2.toNat, List.mem_range.mpr (by omega), ?_⟩⟩
    have e1 : ((x.1.toNat : Int), (x.2.toNat : Int)) = (x.1, x.2) := by
      rw [Int.toNat_of_nonneg h1, Int.toNat_of_nonneg h3]
    exact e1

theorem boardCellsRect_nodup (w h : Nat) : (boardCellsRect w h).Nodup := by
  unfold boardCellsRect
  rw [List.nodup_flatMap]
  constructor
  · intro q _
    refine List.Nodup.map ?_ (List.nodup_range h)
    intro a b hab
    have h2 : (a : Int) = (b : Int) := congrArg Prod.snd hab
    exact_mod_cast h2
  · rw [List.pairwise_iff_getElem]
    intro i j hi hj hij
    intro x hx1 hx2
    rw [List.getElem_range] at hx1 hx2
    rw [List.mem_map] at hx1 hx2
    obtain ⟨r1, _, hx1⟩ := hx1
    obtain ⟨r2, _, hx2⟩ := hx2
    rw [← hx2] at hx1
    have := congrArg Prod.fst hx1
    simp only at this
    have : i = j := by exact_mod_cast this
    omega

theorem flatMap_length_const {α β : Type} (f : α → List β) (n : Nat)
    (hf : ∀ a, (f a).length = n) : ∀ l : List α, (l.flatMap f).length = l.length * n := by
  intro l
  induction l with
  | nil => simp
  | cons a t ih =>
    rw [List.flatMap_cons, List.length_append, ih, hf a, List.length_cons]
    ring

theorem length_boardCellsRect (w h : Nat) : (boardCellsRect w h).length = w * h := by
  unfold boardCellsRect
  rw [flatMap_length_const _ h (fun q => by simp), List.length_range]

theorem cellIndexOf_some (w h : Nat) (cell : Int × Int) (i : Nat)
    (hidx : cellIndexOf w h cell = some i) :
    ∃ hi : i < (boardCellsRect w h).length, (boardCellsRect w h)[i] = cell := by
  unfold cellIndexOf at hidx
  obtain ⟨hlt, hfind⟩ := List.findIdx?_eq_some_iff_findIdx_eq.mp hidx
  subst hfind
  exact ⟨hlt, of_decide_eq_true (@List.findIdx_getElem _ _ _ hlt)⟩

theorem cellIndexOf_of_mem (w h : Nat) (cell : Int × Int)
    (hmem : cell ∈ boardCellsRect w h) : ∃ i, cellIndexOf w h cell = some i := by
  unfold cellIndexOf
  exact ⟨_, List.findIdx?_eq_some_of_exists ⟨cell, hmem, decide_eq_true rfl⟩⟩

theorem cellIndexOf_inj (w h : Nat) (a b : Int × Int) (i : Nat)
    (ha : cellIndexOf w h a = some i) (hb : cellIndexOf w h b = some i) : a = b := by
  obtain ⟨hia, hga⟩ := cellIndexOf_some w h a i ha
  obtain ⟨hib, hgb⟩ := cellIndexOf_some w h b i hb
  rw [← hga, ← hgb]

theorem cellIndexOf_lt (w h : Nat) (cell : Int × Int) (i : Nat)
    (hidx : cellIndexOf w h cell = some i) : i < w * h := by
  obtain ⟨hi, _⟩ := cellIndexOf_some w h cell i hidx
  rw [length_boardCellsRect] at hi
  exact hi

/-! ## Facts about `mapM` over `Option` -/

theorem mapM_some_forall₂ {α β : Type} (f : α → Option β) :
    ∀ (l : List α) (ts : List β), l.mapM f = some ts →
      List.Forall₂ (fun a b => f a = some b) l ts := by
  intro l
  induction l with
  | nil =>
    intro ts hmap
    rw [List.mapM_nil] at hmap
    injection hmap with hmap
    rw [← hmap]
    exact List.Forall₂.nil
  | cons a l ih =>
    intro ts hmap
    rw [← List.mapM'_eq_mapM, List.mapM'_cons] at hmap
    cases hfa : f a with
    | none => rw [hfa] at hmap; exact absurd hmap (by simp)
    | some b =>
      rw [hfa] at hmap
      cases hrest : l.mapM' f with
      | none => rw [hrest] at hmap; exact absurd hmap (by simp)
      | some bs =>
        rw [hrest] at hmap
        simp only [Option.bind_some, Option.bind_eq_bind] at hmap
        have hts : b :: bs = ts := by
          simpa using hmap
        rw [← hts]
        rw [List.mapM'_eq_mapM] at hrest
        exact List.Forall₂.cons hfa (ih bs hrest)

theorem forall₂_mem_right {α β : Type} {R : α → β → Prop} :
    ∀ {l : List α} {ts : List β}, List.Forall₂ R l ts →
      ∀ b ∈ ts, ∃ a ∈ l, R a b := by
  intro l ts hf
  induction hf with
  | nil => intro b hb; exact absurd hb (List.not_mem_nil b)
  | cons hR _ ih =>
    intro b hb
    rw [List.mem_cons] at hb
    rcases hb with hb | hb
    · subst hb
      exact ⟨_, List.mem_cons_self _ _, hR⟩
    · obtain ⟨a, ha, hr⟩ := ih b hb
      exact ⟨a, List.mem_cons_of_mem _ ha, hr⟩

theorem mapM_some_length {α β : Type} (f : α → Option β) (l : List α) (ts : List β)
    (h : l.mapM f = some ts) : ts.length = l.length :=
  (mapM_some_forall₂ f l ts h).length_eq.symm

theorem mapM_some_filterMap {α β : Type} (f : α → Option β) (l : List α) (ts : List β)
    (h : l.mapM f = some ts) : l.filterMap f = ts := by
  have hf := mapM_some_forall₂ f l ts h
  clear h
  induction hf with
  | nil => rfl
  | cons hR _ ih =>
    rw [List.filterMap_cons]
    rw [hR, ih]

theorem mapM_some_nodup {α β : Type} (f : α → Option β)
    (hinj : ∀ a a' b, f a = some b → f a' = some b → a = a')
    (l : List α) (ts : List β) (h : l.mapM f = some ts) (hnd : l.Nodup) : ts.Nodup := by
  have hf := mapM_some_forall₂ f l ts h
  clear h
  induction hf with
  | nil => exact List.nodup_nil
  | cons hR htail ih =>
    rename_i a b l' ts'
    rw [List.nodup_cons] at hnd ⊢
    refine ⟨?_, ih hnd.2⟩
    intro hbmem
    obtain ⟨a', ha', hr⟩ := forall₂_mem_right htail b hbmem
    rw [hinj a a' b hR hr] at hnd
    exact hnd.1 ha'

/-- The mirrored cancellation: replaying the worker rotate after the library
rotate at the same count returns the original hex. -/
theorem rotateHexWorker_rotateHexLib_cancel (h : Int × Int) (k : Int) :
    rotateHexWorker (rotateHexLib h k) k = h := by
  rw [rotateHexWorker_eq_lib_neg, rotateHexLib_eq_iter (h := h), rotateHexLib_eq_iter,
    toAxialTriple_ofAxialTriple (sumZero_iterStep_lib (sumZero_toAxialTriple h) _),
    ← iterStep_add]
  have h0 := jsNormSix_nonneg k
  have h1 := jsNormSix_lt_six k
  have h2 := jsNormSix_neg k
  have hsum : (jsNormSix k).toNat + (jsNormSix (-k)).toNat = 0 ∨
      (jsNormSix k).toNat + (jsNormSix (-k)).toNat = 6 := by
    by_cases hz : jsNormSix k = 0
    · left
      rw [h2, hz]
      simp
    · right
      rw [h2]
      omega
  rcases hsum with hs | hs
  · rw [hs]
    exact ofAxialTriple_toAxialTriple h
  · rw [hs, iterStep_lib_six]
    exact ofAxialTriple_toAxialTriple h

/-- The library rotate at a fixed count is injective. -/
theorem rotateHexLib_inj (k : Int) (a b : Int × Int)
    (hab : rotateHexLib a k = rotateHexLib b k) : a = b := by
  have ha := rotateHexWorker_rotateHexLib_cancel a k
  have hb := rotateHexWorker_rotateHexLib_cancel b k
  rw [← ha, ← hb, hab]

/-- The library translation is injective in the translated hex. -/
theorem addHexLib_inj_right (a b b' : Int × Int)
    (hab : addHexLib a b = addHexLib a b') : b = b' := by
  unfold addHexLib oddQToAxialR axialToOddQR jsAnd1 at hab
  obtain ⟨a1, a2⟩ := a
  obtain ⟨x1, x2⟩ := b
  obtain ⟨y1, y2⟩ := b'
  simp only [Prod.mk.injEq] at hab
  obtain ⟨hq, hr⟩ := hab
  have hq' : x1 = y1 := by omega
  subst hq'
  refine Prod.ext rfl ?_
  simp only
  omega

/-! ## Origin of compiled placements -/

theorem mkCtx_boardSize (w h : Nat) (defs : List PieceDef) (rot : Bool) :
    (mkCtx w h defs rot).boardSize = w * h := rfl

theorem mkCtx_pieces (w h : Nat) (defs : List PieceDef) (rot : Bool) :
    (mkCtx w h defs rot).pieces =
      defs.map (fun p => { id := p.id, size := p.cells.length }) := rfl

theorem mkCtx_placements (w h : Nat) (defs : List PieceDef) (rot : Bool) :
    (mkCtx w h defs rot).placements =
      (piecePlacementLists w h (if rot then 6 else 1) defs).flatten := rfl

theorem mkCtx_starts (w h : Nat) (defs : List PieceDef) (rot : Bool) :
    (mkCtx w h defs rot).piecePlacementStart =
      startsOf (piecePlacementLists w h (if rot then 6 else 1) defs) := rfl

theorem mkCtx_counts (w h : Nat) (defs : List PieceDef) (rot : Bool) :
    (mkCtx w h defs rot).piecePlacementCount =
      (piecePlacementLists w h (if rot then 6 else 1) defs).map List.length := rfl

theorem mkCtx_boardCells (w h : Nat) (defs : List PieceDef) (rot : Bool) :
    (mkCtx w h defs rot).boardCells = boardCellsRect w h := rfl

theorem length_piecePlacementLists (w h rl : Nat) (defs : List PieceDef) :
    (piecePlacementLists w h rl defs).length = defs.length := by
  unfold piecePlacementLists
  simp

theorem getElem_piecePlacementLists (w h rl : Nat) (defs : List PieceDef) (pi : Nat)
    (hpd : pi < defs.length) (hpi : pi < (piecePlacementLists w h rl defs).length) :
    (piecePlacementLists w h rl defs)[pi] = compiledPlacements w h rl pi (defs[pi]) := by
  unfold piecePlacementLists
  rw [List.getElem_map, List.getElem_enum]

/-- Every row produced by the placement compiler for piece `pi` arises from
an on-board anchor and an in-limit rotation whose replay fits entirely on
the board. -/
theorem compiled_origin (w h rl pi : Nat) (pd : PieceDef) (p : Placement)
    (hp : p ∈ compiledPlacements w h rl pi pd) :
    ∃ (rot : Nat) (anchor : Int × Int) (ai : Nat),
      rot < rl ∧ anchor ∈ boardCellsRect w h ∧
      cellIndexOf w h anchor = some ai ∧
      placementTargets w h pd anchor rot = some p.targets ∧
      p = { pieceIdx := pi, pieceId := pd.id, anchorIdx := ai, rot := rot,
            targets := p.targets } := by
  unfold compiledPlacements at hp
  rw [List.mem_flatMap] at hp
  obtain ⟨rot, hrot, hp⟩ := hp
  rw [List.mem_range] at hrot
  rw [List.mem_filterMap] at hp
  obtain ⟨anchor, hanchor, hp⟩ := hp
  cases htg : placementTargets w h pd anchor rot with
  | none => rw [htg] at hp; exact absurd hp (by simp)
  | some targets =>
    rw [htg] at hp
    rw [Option.map_some'] at hp
    injection hp with hp
    obtain ⟨ai, hai⟩ := cellIndexOf_of_mem w h anchor hanchor
    refine ⟨rot, anchor, ai, hrot, hanchor, hai, ?_, ?_⟩
    · rw [htg, ← hp]
    · rw [← hp]
      rw [hai]
      rfl

/-- The composite cell map one placement replays each offset through is
injective where it succeeds. -/
theorem replayCell_inj (w h : Nat) (anchor : Int × Int) (rot : Int)
    (off off' : Int × Int) (t : Nat)
    (h1 : cellIndexOf w h (addHexLib anchor (rotateHexLib off rot)) = some t)
    (h2 : cellIndexOf w h (addHexLib anchor (rotateHexLib off' rot)) = some t) :
    off = off' := by
  have h3 := cellIndexOf_inj w h _ _ t h1 h2
  have h4 := addHexLib_inj_right anchor _ _ h3
  exact rotateHexLib_inj rot off off' h4

/-- Every compiled context has duplicate-free, on-board target lists. -/
theorem targetsOK_mkCtx (w h : Nat) (defs : List PieceDef) (rot : Bool)
    (hcells : ∀ pd ∈ defs, pd.cells.Nodup) :
    TargetsOK (mkCtx w h defs rot) := by
  intro p hp
  rw [mkCtx_placements, List.mem_flatten] at hp
  obtain ⟨row, hrow, hp⟩ := hp
  unfold piecePlacementLists at hrow
  rw [List.mem_map] at hrow
  obtain ⟨q, hq, hrow⟩ := hrow
  have hqmem := List.mem_enum_iff_getElem?.mp hq
  obtain ⟨hqlt, hqval⟩ := List.getElem?_eq_some.mp hqmem
  rw [← hrow] at hp
  obtain ⟨rotN, anchor, ai, _, _, _, htargets, _⟩ :=
    compiled_origin w h _ q.1 q.2 p hp
  constructor
  · refine mapM_some_nodup _ ?_ q.2.cells p.targets htargets ?_
    · intro a a' b hfa hfa'
      exact replayCell_inj w h anchor (rotN : Int) a a' b hfa hfa'
    · refine hcells q.2 ?_
      rw [← hqval]
      exact List.getElem_mem hqlt
  · intro t ht
    obtain ⟨off, _, hoff⟩ :=
      forall₂_mem_right (mapM_some_forall₂ _ q.2.cells p.targets htargets) t ht
    rw [mkCtx_boardSize]
    exact cellIndexOf_lt w h _ t hoff

/-! ## Flattened-table indexing -/

theorem flatten_getD {α : Type} (d : α) :
    ∀ (ls : List (List α)) (pi off : Nat), pi < ls.length → off < (ls.getD pi []).length →
      ls.flatten.getD (((ls.take pi).map List.length).sum + off) d =
        (ls.getD pi []).getD off d := by
  intro ls
  induction ls with
  | nil => intro pi off hpi _; exact absurd hpi (by simp)
  | cons l rest ih =>
    intro pi off hpi hoff
    cases pi with
    | zero =>
      simp only [List.take_zero, List.map_nil, List.sum_nil, Nat.zero_add]
      rw [List.flatten_cons]
      exact List.getD_append _ _ _ _ (by simpa using hoff)
    | succ pj =>
      rw [List.flatten_cons, List.take_succ_cons, List.map_cons, List.sum_cons]
      have harr : l.length + ((rest.take pj).map List.length).sum + off =
          l.length + (((rest.take pj).map List.length).sum + off) := by omega
      rw [harr, List.getD_append_right _ _ _ _ (by omega)]
      have hsub : l.length + (((rest.take pj).map List.length).sum + off) - l.length =
          ((rest.take pj).map List.length).sum + off := by omega
      rw [hsub]
      exact ih pj off (by simpa using hpi) (by simpa using hoff)

theorem take_map_length_sum_le {α : Type} :
    ∀ (ls : List (List α)) (pi : Nat), pi < ls.length →
      ((ls.take pi).map List.length).sum + (ls.getD pi []).length ≤
        (ls.map List.length).sum := by
  intro ls
  induction ls with
  | nil => intro pi hpi; exact absurd hpi (by simp)
  | cons l rest ih =>
    intro pi hpi
    cases pi with
    | zero => simp
    | succ pj =>
      rw [List.take_succ_cons, List.map_cons, List.sum_cons, List.map_cons, List.sum_cons]
      have := ih pj (by simpa using hpi)
      have he : ((l :: rest).getD (pj + 1) []).length = (rest.getD pj []).length := rfl
      rw [he]
      omega

theorem startsOf_getD (ls : List (List Placement)) (pi : Nat)
    (hpi : pi < ls.length) :
    (startsOf ls).getD pi 0 = ((ls.take pi).map List.length).sum := by
  unfold startsOf
  rw [getD_eq_getElem_of_lt _ _ _ (by rw [List.length_map, List.length_range]; exact hpi)]
  rw [List.getElem_map, List.getElem_range]

/-- Every compiled context has consistent per-piece slice tables. -/
theorem slicesOK_mkCtx (w h : Nat) (defs : List PieceDef) (rot : Bool) :
    SlicesOK (mkCtx w h defs rot) := by
  intro pi hpi pIdx hpIdx
  have hpil : pi < defs.length := by
    rw [mkCtx_pieces, List.length_map] at hpi
    exact hpi
  have hlsl : pi < (piecePlacementLists w h (if rot then 6 else 1) defs).length := by
    rw [length_piecePlacementLists]
    exact hpil
  unfold Ctx.placementIdxs at hpIdx
  rw [List.mem_map] at hpIdx
  obtain ⟨off, hoffmem, hpIdx⟩ := hpIdx
  rw [List.mem_range, mkCtx_counts] at hoffmem
  have hcnt : ((piecePlacementLists w h (if rot then 6 else 1) defs).map List.length).getD pi 0 =
      ((piecePlacementLists w h (if rot then 6 else 1) defs).getD pi []).length := by
    rw [getD_eq_getElem_of_lt _ _ _ (by rw [List.length_map]; exact hlsl),
      List.getElem_map, getD_eq_getElem_of_lt _ _ _ hlsl]
  rw [hcnt] at hoffmem
  rw [mkCtx_starts, startsOf_getD _ pi hlsl] at hpIdx
  have hrowelem : (piecePlacementLists w h (if rot then 6 else 1) defs).getD pi [] =
      compiledPlacements w h (if rot then 6 else 1) pi (defs[pi]) := by
    rw [getD_eq_getElem_of_lt _ _ _ hlsl]
    exact getElem_piecePlacementLists w h _ defs pi hpil hlsl
  have hplt : pIdx < (mkCtx w h defs rot).placements.length := by
    rw [mkCtx_placements, List.length_flatten, ← hpIdx]
    have := take_map_length_sum_le (piecePlacementLists w h (if rot then 6 else 1) defs) pi hlsl
    omega
  have hrow : (mkCtx w h defs rot).placement pIdx =
      ((piecePlacementLists w h (if rot then 6 else 1) defs).getD pi []).getD off
        defaultPlacement := by
    unfold Ctx.placement
    rw [mkCtx_placements, ← hpIdx]
    exact flatten_getD defaultPlacement _ pi off hlsl hoffmem
  have hmem : ((piecePlacementLists w h (if rot then 6 else 1) defs).getD pi []).getD off
      defaultPlacement ∈ (piecePlacementLists w h (if rot then 6 else 1) defs).getD pi [] := by
    rw [getD_eq_getElem_of_lt _ _ _ hoffmem]
    exact List.getElem_mem hoffmem
  rw [hrowelem] at hmem
  obtain ⟨rotN, anchor, ai, _, _, _, htargets, hpshape⟩ :=
    compiled_origin w h (if rot then 6 else 1) pi (defs[pi]) _ hmem
  refine ⟨hplt, ?_, ?_⟩
  · rw [hrow, hrowelem, hpshape]
  · have hsz : ((mkCtx w h defs rot).pieceAt pi).size = (defs[pi]).cells.length := by
      unfold Ctx.pieceAt
      rw [mkCtx_pieces, getD_eq_getElem_of_lt _ _ _ (by rw [List.length_map]; exact hpil),
        List.getElem_map]
    rw [hrow, hrowelem, hsz]
    exact mapM_some_length _ _ _ htargets

/-! ## Replay of exported placements on the main thread -/

/-- With duplicate-free piece ids, looking a member piece up by its own id
finds exactly that piece. -/
theorem find?_by_id (defs : List PieceDef) (hids : (defs.map PieceDef.id).Nodup)
    (pd : PieceDef) (hmem : pd ∈ defs) :
    defs.find? (fun p => decide (p.id = pd.id)) = some pd := by
  induction defs with
  | nil => exact absurd hmem (List.not_mem_nil pd)
  | cons a rest ih =>
    rw [List.map_cons, List.nodup_cons] at hids
    by_cases ha : a.id = pd.id
    · rw [List.find?_cons_of_pos rest (decide_eq_true ha)]
      rcases List.mem_cons.mp hmem with hmem | hmem
      · rw [hmem]
      · exact absurd (ha ▸ List.mem_map_of_mem PieceDef.id hmem) hids.1
    · rw [List.find?_cons_of_neg rest (by simpa using ha)]
      rcases List.mem_cons.mp hmem with hmem | hmem
      · exact absurd (congrArg PieceDef.id hmem.symm) ha
      · exact ih hids.2 hmem

/-- Every placement row of a compiled context comes from replaying a piece
of the catalog at an on-board anchor. -/
theorem placements_origin (w h : Nat) (defs : List PieceDef) (rot : Bool)
    (p : Placement) (hp : p ∈ (mkCtx w h defs rot).placements) :
    ∃ pd ∈ defs, ∃ (rotN : Nat) (anchor : Int × Int),
      anchor ∈ boardCellsRect w h ∧
      cellIndexOf w h anchor = some p.anchorIdx ∧
      placementTargets w h pd anchor rotN = some p.targets ∧
      p.pieceId = pd.id ∧ p.rot = rotN := by
  rw [mkCtx_placements, List.mem_flatten] at hp
  obtain ⟨row, hrow, hp⟩ := hp
  unfold piecePlacementLists at hrow
  rw [List.mem_map] at hrow
  obtain ⟨q, hq, hrow⟩ := hrow
  have hqmem := List.mem_enum_iff_getElem?.mp hq
  obtain ⟨hqlt, hqval⟩ := List.getElem?_eq_some.mp hqmem
  rw [← hrow] at hp
  obtain ⟨rotN, anchor, ai, _, hanchmem, hci, htargets, hshape⟩ :=
    compiled_origin w h _ q.1 q.2 p hp
  refine ⟨q.2, by rw [← hqval]; exact List.getElem_mem hqlt, rotN, anchor, hanchmem,
    ?_, htargets, ?_, ?_⟩
  · rw [hci]
    exact congrArg (fun r => some (Placement.anchorIdx r)) hshape.symm
  · exact congrArg Placement.pieceId hshape
  · exact congrArg Placement.rot hshape

/-- The main thread's replay of one internally consistent solution item
recovers exactly the compiled target list of its placement row. -/
theorem replayTargets_eq (w h : Nat) (defs : List PieceDef) (rot : Bool)
    (hids : (defs.map PieceDef.id).Nodup)
    (it : SolItem) (hit : ItemOK (mkCtx w h defs rot) it) :
    replayTargets w h defs
      { piece := it.pieceId
        anchor := (mkCtx w h defs rot).boardCells.getD it.anchorIdx (0, 0)
        rot := it.rot } =
      ((mkCtx w h defs rot).placement it.pIdx).targets := by
  obtain ⟨hplt, hpid, hanch, hrot⟩ := hit
  obtain ⟨pd, hpdmem, rotN, anchor, hanchmem, hci, htargets, hpid', hrot'⟩ :=
    placements_origin w h defs rot _ (placement_mem _ _ hplt)
  unfold replayTargets
  dsimp only
  have hfind : defs.find? (fun q => decide (q.id = it.pieceId)) = some pd := by
    rw [hpid, hpid']
    exact find?_by_id defs hids pd hpdmem
  rw [hfind]
  obtain ⟨hailt, haiget⟩ := cellIndexOf_some w h anchor _ hci
  have hanchD : (mkCtx w h defs rot).boardCells.getD it.anchorIdx (0, 0) = anchor := by
    rw [mkCtx_boardCells, hanch, getD_eq_getElem_of_lt _ _ _ hailt, haiget]
  rw [hanchD, hrot, hrot']
  exact mapM_some_filterMap _ _ _ htargets

theorem flatMap_congr_mem {α β : Type} (f g : α → List β) :
    ∀ l : List α, (∀ a ∈ l, f a = g a) → l.flatMap f = l.flatMap g := by
  intro l
  induction l with
  | nil => intro _; rfl
  | cons a t ih =>
    intro hfg
    rw [List.flatMap_cons, List.flatMap_cons, hfg a (List.mem_cons_self a t),
      ih (fun b hb => hfg b (List.mem_cons_of_mem a hb))]

/-- One item's contribution to the main thread's signature is its replayed
target list paired with its piece id. -/
theorem mainSig_item_replay (w h : Nat) (defs : List PieceDef) (p : ExpItem) :
    (match defs.find? (fun q => decide (q.id = p.piece)) with
     | none => []
     | some piece => piece.cells.filterMap (fun off =>
         (cellIndexOf w h (addHexLib p.anchor (rotateHexLib off (p.rot : Int)))).map
           (fun cellIdx => (cellIdx, p.piece)))) =
      (replayTargets w h defs p).map (fun t => (t, p.piece)) := by
  unfold replayTargets
  cases defs.find? (fun q => decide (q.id = p.piece)) with
  | none => rfl
  | some piece =>
    dsimp only
    rw [List.map_filterMap]

/-- On internally consistent solutions, the main thread's replayed
signature coincides with the worker's signature. -/
theorem mainSignature_eq_worker (w h : Nat) (defs : List PieceDef) (rot : Bool)
    (hids : (defs.map PieceDef.id).Nodup)
    (cu : List SolItem) (hcu : ∀ it ∈ cu, ItemOK (mkCtx w h defs rot) it) :
    mainSignature w h defs (exportSolution (mkCtx w h defs rot) cu) =
      getSolutionCellSignature (mkCtx w h defs rot) cu := by
  unfold mainSignature getSolutionCellSignature exportSolution
  congr 1
  rw [List.flatMap_map]
  refine flatMap_congr_mem _ _ cu ?_
  intro it hit
  rw [mainSig_item_replay w h defs]
  dsimp only
  rw [replayTargets_eq w h defs rot hids it (hcu it hit)]

/-- The length of the worker's signature is the total target count of the
solution. -/
theorem getSolutionCellSignature_length (c : Ctx) (cu : List SolItem) :
    (getSolutionCellSignature c cu).length = covOf c cu := by
  unfold getSolutionCellSignature sortSignature covOf
  rw [(stableSort_perm _ _).length_eq, List.length_flatMap]
  have he : (List.length ∘ fun p : SolItem =>
      (c.placement p.pIdx).targets.map (fun t => (t, p.pieceId))) =
      fun it : SolItem => (c.placement it.pIdx).targets.length := by
    funext it
    simp
  rw [he]

/-- A sound worker report, read through the main thread's replay. -/
theorem workerOK_reportOK (w h : Nat) (defs : List PieceDef) (rot : Bool)
    (hids : (defs.map PieceDef.id).Nodup)
    (hT : TargetsOK (mkCtx w h defs rot))
    (r : WorkerReport) (hr : WorkerOK (mkCtx w h defs rot) r) :
    ReportOK w h defs r := by
  obtain ⟨curs, hsols, hnd, hcu, hne⟩ := hr
  refine ⟨?_, ?_, hne⟩
  · rw [hsols, List.map_map]
    rw [List.map_congr_left (g := getSolutionCellSignature (mkCtx w h defs rot)) ?_]
    · exact hnd
    · intro cu hcumem
      exact mainSignature_eq_worker w h defs rot hids cu
        (fun it hitm => ((hcu cu hcumem).1 it hitm))
  · intro sol hsol
    rw [hsols, List.mem_map] at hsol
    obtain ⟨cu, hcumem, hsol⟩ := hsol
    obtain ⟨hitems, hdisj, hcov⟩ := hcu cu hcumem
    subst hsol
    refine ⟨?_, ?_, ?_⟩
    · rw [mainSignature_eq_worker w h defs rot hids cu hitems,
        getSolutionCellSignature_length, hcov]
    · unfold exportSolution
      rw [List.pairwise_map]
      refine List.Pairwise.imp_of_mem ?_ hdisj
      intro a b hamem hbmem hab
      intro t hta htb
      rw [replayTargets_eq w h defs rot hids a (hitems a hamem)] at hta
      rw [replayTargets_eq w h defs rot hids b (hitems b hbmem)] at htb
      exact hab t hta htb
    · intro it hitm t ht
      unfold exportSolution at hitm
      rw [List.mem_map] at hitm
      obtain ⟨a, hamem, hitm⟩ := hitm
      rw [← hitm, replayTargets_eq w h defs rot hids a (hitems a hamem)] at ht
      have := (hT _ (placement_mem _ _ (hitems a hamem).1)).2 t ht
      rw [mkCtx_boardSize] at this
      exact this

/-! ## The aggregator -/

theorem mergeFold_inv (sig : List ExpItem → List (Nat × Nat)) :
    ∀ (new : List (List ExpItem)) (acc : List (List ExpItem) × List (List (Nat × Nat))),
      acc.2 = acc.1.map sig → acc.2.Nodup →
      (new.foldl (mergeDedupStep sig) acc).2 =
        (new.foldl (mergeDedupStep sig) acc).1.map sig ∧
      (new.foldl (mergeDedupStep sig) acc).2.Nodup ∧
      ∃ suffix, (new.foldl (mergeDedupStep sig) acc).1 = acc.1 ++ suffix ∧
        ∀ s ∈ suffix, s ∈ new := by
  intro new
  induction new with
  | nil =>
    intro acc h1 h2
    exact ⟨h1, h2, [], (List.append_nil _).symm, fun s hs => absurd hs (List.not_mem_nil s)⟩
  | cons n rest ih =>
    intro acc h1 h2
    rw [List.foldl_cons]
    have hstep : mergeDedupStep sig acc n =
        if sig n ∈ acc.2 then acc else (acc.1 ++ [n], acc.2 ++ [sig n]) := rfl
    rw [hstep]
    by_cases hmem : sig n ∈ acc.2
    · rw [if_pos hmem]
      obtain ⟨e1, e2, suffix, e3, e4⟩ := ih acc h1 h2
      exact ⟨e1, e2, suffix, e3, fun s hs => List.mem_cons_of_mem n (e4 s hs)⟩
    · rw [if_neg hmem]
      have h1' : (acc.1 ++ [n], acc.2 ++ [sig n]).2 =
          (acc.1 ++ [n], acc.2 ++ [sig n]).1.map sig := by
        show acc.2 ++ [sig n] = (acc.1 ++ [n]).map sig
        rw [List.map_append, h1]
        rfl
      have h2' : (acc.1 ++ [n], acc.2 ++ [sig n]).2.Nodup := by
        show (acc.2 ++ [sig n]).Nodup
        rw [List.nodup_append]
        refine ⟨h2, List.nodup_singleton _, ?_⟩
        intro a ha hb
        rw [List.mem_singleton] at hb
        subst hb
        exact hmem ha
      obtain ⟨e1, e2, suffix, e3, e4⟩ := ih (acc.1 ++ [n], acc.2 ++ [sig n]) h1' h2'
      refine ⟨e1, e2, n :: suffix, ?_, ?_⟩
      · rw [e3]
        show acc.1 ++ [n] ++ suffix = acc.1 ++ ([n] ++ suffix)
        rw [List.append_assoc]
      · intro s hs
        rcases List.mem_cons.mp hs with hs | hs
        · exact hs ▸ List.mem_cons_self n rest
        · exact List.mem_cons_of_mem n (e4 s hs)

theorem aggStep_ok (w h : Nat) (defs : List PieceDef) (acc : Nat × List (List ExpItem))
    (r : WorkerReport) (hacc : AggOK w h defs acc) (hr : ReportOK w h defs r) :
    AggOK w h defs (aggStep (mainSignature w h defs) acc r) := by
  obtain ⟨ha1, ha2, ha3⟩ := hacc
  obtain ⟨hr1, hr2, hr3⟩ := hr
  unfold aggStep
  split_ifs with h1 h2
  · exact ⟨hr1, fun sol hs => hr2 sol hs, hr3⟩
  · unfold mergeSolutions
    obtain ⟨e1, e2, suffix, e3, e4⟩ := mergeFold_inv (mainSignature w h defs) r.solutions
      (acc.2, acc.2.map (mainSignature w h defs)) rfl ha1
    have c1 : ((List.foldl (mergeDedupStep (mainSignature w h defs))
        (acc.2, acc.2.map (mainSignature w h defs)) r.solutions).1.map
          (mainSignature w h defs)).Nodup := by
      rw [← e1]
      exact e2
    have c2 : ∀ sol ∈ (List.foldl (mergeDedupStep (mainSignature w h defs))
        (acc.2, acc.2.map (mainSignature w h defs)) r.solutions).1,
        GoodSolution w h defs acc.1 sol := by
      intro sol hs
      rw [e3, List.mem_append] at hs
      rcases hs with hs | hs
      · exact ha2 sol hs
      · have hg := hr2 sol (e4 sol hs)
        rw [h2] at hg
        exact hg
    have c3 : 0 < acc.1 → (List.foldl (mergeDedupStep (mainSignature w h defs))
        (acc.2, acc.2.map (mainSignature w h defs)) r.solutions).1 ≠ [] := by
      intro hpos hcon
      rw [e3] at hcon
      rcases List.append_eq_nil.mp hcon with ⟨hc1, _⟩
      exact ha3 hpos hc1
    exact ⟨c1, c2, c3⟩
  · exact ⟨ha1, ha2, ha3⟩

theorem aggfold_ok (w h : Nat) (defs : List PieceDef) :
    ∀ (reports : List WorkerReport) (acc : Nat × List (List ExpItem)),
      AggOK w h defs acc → (∀ r ∈ reports, ReportOK w h defs r) →
      AggOK w h defs (reports.foldl (aggStep (mainSignature w h defs)) acc) := by
  intro reports
  induction reports with
  | nil => intro acc hacc _; exact hacc
  | cons r rest ih =>
    intro acc hacc hreps
    rw [List.foldl_cons]
    exact ih _ (aggStep_ok w h defs acc r hacc (hreps r (List.mem_cons_self r rest)))
      (fun q hq => hreps q (List.mem_cons_of_mem r hq))

theorem aggregate_ok (w h : Nat) (defs : List PieceDef) (reports : List WorkerReport)
    (hreps : ∀ r ∈ reports, ReportOK w h defs r) :
    AggOK w h defs (aggregate (mainSignature w h defs) reports) :=
  aggfold_ok w h defs reports (0, [])
    ⟨List.nodup_nil, fun sol hs => absurd hs (List.not_mem_nil sol),
      fun hp => absurd hp (by omega)⟩ hreps

/-! ## Packaging one complete multi-worker run -/

theorem fullRun_eq (w h : Nat) (defs : List PieceDef) (rot : Bool)
    (numWorkers : Nat) (arrival : List Nat) :
    fullRun w h defs rot numWorkers arrival =
      if (spawnedWorkerIds numWorkers
            (placementsPerWorker (fpCountOf (mkCtx w h defs rot)) numWorkers)
            (fpCountOf (mkCtx w h defs rot))).isEmpty then none
      else some { coverage := (aggregate (mainSignature w h defs)
                    (arrival.map (workerReport w h defs rot numWorkers))).1
                  solutions := (aggregate (mainSignature w h defs)
                    (arrival.map (workerReport w h defs rot numWorkers))).2 } := rfl

theorem spawned_nonempty_pos (nw ppw cnt : Nat)
    (hne : (spawnedWorkerIds nw ppw cnt).isEmpty = false) : 0 < cnt := by
  by_contra hc
  push_neg at hc
  have hcnt : cnt = 0 := by omega
  subst hcnt
  unfold spawnedWorkerIds at hne
  cases nw with
  | zero => simp at hne
  | succ m =>
    rw [List.range_succ_eq_map, List.takeWhile_cons] at hne
    simp at hne

theorem mkCtx_counts_length (w h : Nat) (defs : List PieceDef) (rot : Bool) :
    (mkCtx w h defs rot).piecePlacementCount.length = (mkCtx w h defs rot).pieces.length := by
  rw [mkCtx_counts, mkCtx_pieces, List.length_map, List.length_map,
    length_piecePlacementLists]

theorem mkCtx_pieceId_ne_zero (w h : Nat) (defs : List PieceDef) (rot : Bool)
    (hpos : ∀ pd ∈ defs, pd.id ≠ 0) :
    ∀ p ∈ (mkCtx w h defs rot).placements, p.pieceId ≠ 0 := by
  intro p hp
  obtain ⟨pd, hpd, _, _, _, _, _, hid, _⟩ := placements_origin w h defs rot p hp
  rw [hid]
  exact hpos pd hpd

theorem pieceOrderOf_mem_lt (counts : List Nat) (pi : Nat)
    (hmem : pi ∈ pieceOrderOf counts) : pi < counts.length := by
  unfold pieceOrderOf at hmem
  rw [mem_stableSort] at hmem
  exact List.mem_range.mp hmem

theorem fpIdx_lt_of_pos (c : Ctx) (hpos : 0 < fpCountOf c) :
    fpIdxOf c < c.piecePlacementCount.length := by
  unfold fpCountOf at hpos
  by_contra hc
  push_neg at hc
  rw [List.getD_eq_default _ _ hc] at hpos
  exact absurd hpos (by omega)

theorem assignedSlice_mem (c : Ctx) (ppw i pIdx : Nat)
    (hmem : pIdx ∈ assignedSlice (fpStartOf c) (fpCountOf c) ppw i) :
    pIdx ∈ c.placementIdxs (fpIdxOf c) := by
  unfold assignedSlice at hmem
  dsimp only at hmem
  rw [List.mem_map] at hmem
  obtain ⟨k, hk, hval⟩ := hmem
  rw [List.mem_range] at hk
  unfold fpStartOf at hval
  unfold fpCountOf at hk
  unfold Ctx.placementIdxs
  rw [List.mem_map]
  refine ⟨i * ppw + k, List.mem_range.mpr (by omega), by omega⟩

/-- Each worker of a completed run (one with work to spawn) produces a
sound report. -/
theorem fullRun_reportOK (w h : Nat) (defs : List PieceDef) (rot : Bool)
    (hids : (defs.map PieceDef.id).Nodup) (hpos : ∀ pd ∈ defs, pd.id ≠ 0)
    (hcells : ∀ pd ∈ defs, pd.cells.Nodup)
    (numWorkers : Nat) (hcnt : 0 < fpCountOf (mkCtx w h defs rot)) (i : Nat) :
    ReportOK w h defs (workerReport w h defs rot numWorkers i) := by
  have hT := targetsOK_mkCtx w h defs rot hcells
  have hS := slicesOK_mkCtx w h defs rot
  have hpid := mkCtx_pieceId_ne_zero w h defs rot hpos
  have hf : (pieceOrderOf (mkCtx w h defs rot).piecePlacementCount).headD 0 <
      (mkCtx w h defs rot).pieces.length := by
    have h1 := fpIdx_lt_of_pos (mkCtx w h defs rot) hcnt
    rw [mkCtx_counts_length] at h1
    exact h1
  have horder : ∀ pi ∈ (pieceOrderOf (mkCtx w h defs rot).piecePlacementCount).tail,
      pi < (mkCtx w h defs rot).pieces.length := by
    intro pi hp
    have h1 := pieceOrderOf_mem_lt _ pi (List.mem_of_mem_tail hp)
    rw [mkCtx_counts_length] at h1
    exact h1
  refine workerOK_reportOK w h defs rot hids hT _ ?_
  unfold workerReport
  exact solve_workerOK (mkCtx w h defs rot) hT hS hpid _ horder hf _
    (fun pIdx hm => assignedSlice_mem (mkCtx w h defs rot) _ i pIdx hm)

/-- The final result of any completed multi-worker run satisfies the
aggregator invariant. -/
theorem fullRun_aggOK (w h : Nat) (defs : List PieceDef) (rot : Bool)
    (hids : (defs.map PieceDef.id).Nodup) (hpos : ∀ pd ∈ defs, pd.id ≠ 0)
    (hcells : ∀ pd ∈ defs, pd.cells.Nodup)
    (numWorkers : Nat) (arrival : List Nat) (res : RunResult)
    (hrun : fullRun w h defs rot numWorkers arrival = some res) :
    AggOK w h defs (res.coverage, res.solutions) := by
  rw [fullRun_eq] at hrun
  by_cases hsp : (spawnedWorkerIds numWorkers
      (placementsPerWorker (fpCountOf (mkCtx w h defs rot)) numWorkers)
      (fpCountOf (mkCtx w h defs rot))).isEmpty
  · rw [if_pos hsp] at hrun
    exact absurd hrun (by simp)
  · rw [if_neg hsp] at hrun
    injection hrun with hrun
    have hcnt : 0 < fpCountOf (mkCtx w h defs rot) :=
      spawned_nonempty_pos _ _ _ (by simpa using hsp)
    have hagg := aggregate_ok w h defs (arrival.map (workerReport w h defs rot numWorkers)) ?_
    · rw [← hrun]
      exact hagg
    · intro r hr
      rw [List.mem_map] at hr
      obtain ⟨i, _, hr⟩ := hr
      rw [← hr]
      exact fullRun_reportOK w h defs rot hids hpos hcells numWorkers hcnt i

/-! ## Claim C1 (amended), Claim C5 and Claim C7 -/

/-- C1 (amended): for every completed run (on a catalog of pieces with
duplicate-free nonzero ids and duplicate-free cell sets), the final solution
list is nonempty whenever the reported best coverage is positive, and every
solution in it induces — through the main thread's replay — a covering of
exactly the reported best coverage many cells; but the list need not contain
every distinct maximal covering (see the counterexample). -/
theorem claim_C1_amended (w h : Nat) (defs : List PieceDef) (rot : Bool)
    (hids : (defs.map PieceDef.id).Nodup) (hpos : ∀ pd ∈ defs, pd.id ≠ 0)
    (hcells : ∀ pd ∈ defs, pd.cells.Nodup)
    (numWorkers : Nat) (arrival : List Nat) (res : RunResult)
    (hrun : fullRun w h defs rot numWorkers arrival = some res) :
    (0 < res.coverage → res.solutions ≠ []) ∧
    ∀ sol ∈ res.solutions, (mainSignature w h defs sol).length = res.coverage := by
  obtain ⟨_, hgood, hne⟩ :=
    fullRun_aggOK w h defs rot hids hpos hcells numWorkers arrival res hrun
  exact ⟨hne, fun sol hs => (hgood sol hs).1⟩

/-- Witness for the amended C1: the completed 1-worker run on the 1×2 board
with the two single-cell pieces reports coverage 2 with one solution whose
replayed signature accounts for 2 cells. -/
theorem claim_C1_amended_witness :
    fullRun 1 2 [pieceG, pieceH] false 1 [0] =
      some { coverage := 2, solutions := [[⟨1, (0, 0), 0⟩, ⟨2, (0, 1), 0⟩]] } ∧
    ((0 < (RunResult.mk 2 [[⟨1, (0, 0), 0⟩, ⟨2, (0, 1), 0⟩]]).coverage →
      (RunResult.mk 2 [[⟨1, (0, 0), 0⟩, ⟨2, (0, 1), 0⟩]]).solutions ≠ []) ∧
     ∀ sol ∈ (RunResult.mk 2 [[⟨1, (0, 0), 0⟩, ⟨2, (0, 1), 0⟩]]).solutions,
       (mainSignature 1 2 [pieceG, pieceH] sol).length =
         (RunResult.mk 2 [[⟨1, (0, 0), 0⟩, ⟨2, (0, 1), 0⟩]]).coverage) :=
  ⟨by decide,
    claim_C1_amended 1 2 [pieceG, pieceH] false (by decide) (by decide) (by decide)
      1 [0] (RunResult.mk 2 [[⟨1, (0, 0), 0⟩, ⟨2, (0, 1), 0⟩]]) (by decide)⟩

/-- C5: in the final solution list of any completed run (catalog with
duplicate-free nonzero ids and duplicate-free cell sets), no two solutions
have the same canonical signature — the sorted list of (covered cell index,
owning piece id) pairs the main thread recomputes by replay — and signature
computation is deterministic and idempotent: re-sorting an already computed
signature returns it unchanged. -/
theorem claim_C5_canonical_dedup (w h : Nat) (defs : List PieceDef) (rot : Bool)
    (hids : (defs.map PieceDef.id).Nodup) (hpos : ∀ pd ∈ defs, pd.id ≠ 0)
    (hcells : ∀ pd ∈ defs, pd.cells.Nodup)
    (numWorkers : Nat) (arrival : List Nat) (res : RunResult)
    (hrun : fullRun w h defs rot numWorkers arrival = some res) :
    (res.solutions.map (mainSignature w h defs)).Nodup ∧
    ∀ sol : List ExpItem,
      sortSignature (mainSignature w h defs sol) = mainSignature w h defs sol := by
  obtain ⟨hnd, _, _⟩ :=
    fullRun_aggOK w h defs rot hids hpos hcells numWorkers arrival res hrun
  refine ⟨hnd, ?_⟩
  intro sol
  unfold mainSignature
  exact sortSignature_idem _

/-- Witness for C5 at the concrete completed run on the 1×2 board. -/
theorem claim_C5_witness :
    fullRun 1 2 [pieceG, pieceH] false 1 [0] =
      some { coverage := 2, solutions := [[⟨1, (0, 0), 0⟩, ⟨2, (0, 1), 0⟩]] } ∧
    (((RunResult.mk 2 [[⟨1, (0, 0), 0⟩, ⟨2, (0, 1), 0⟩]]).solutions.map
        (mainSignature 1 2 [pieceG, pieceH])).Nodup ∧
     ∀ sol : List ExpItem,
       sortSignature (mainSignature 1 2 [pieceG, pieceH] sol) =
         mainSignature 1 2 [pieceG, pieceH] sol) :=
  ⟨by decide,
    claim_C5_canonical_dedup 1 2 [pieceG, pieceH] false (by decide) (by decide) (by decide)
      1 [0] (RunResult.mk 2 [[⟨1, (0, 0), 0⟩, ⟨2, (0, 1), 0⟩]]) (by decide)⟩

/-- C7: every solution in the final reported list of any completed run
(catalog with duplicate-free nonzero ids and duplicate-free cell sets) is a
valid non-overlapping packing: the replayed target cell sets of its
placements are pairwise disjoint, and every replayed target cell lies on
the board. -/
theorem claim_C7_valid_packings (w h : Nat) (defs : List PieceDef) (rot : Bool)
    (hids : (defs.map PieceDef.id).Nodup) (hpos : ∀ pd ∈ defs, pd.id ≠ 0)
    (hcells : ∀ pd ∈ defs, pd.cells.Nodup)
    (numWorkers : Nat) (arrival : List Nat) (res : RunResult)
    (hrun : fullRun w h defs rot numWorkers arrival = some res) :
    ∀ sol ∈ res.solutions,
      sol.Pairwise (fun a b =>
        ∀ t ∈ replayTargets w h defs a, t ∉ replayTargets w h defs b) ∧
      ∀ it ∈ sol, ∀ t ∈ replayTargets w h defs it, t < w * h := by
  obtain ⟨_, hgood, _⟩ :=
    fullRun_aggOK w h defs rot hids hpos hcells numWorkers arrival res hrun
  exact fun sol hs => ⟨(hgood sol hs).2.1, (hgood sol hs).2.2⟩

/-- Witness for C7 at the concrete completed run on the 1×2 board. -/
theorem claim_C7_witness :
    fullRun 1 2 [pieceG, pieceH] false 1 [0] =
      some { coverage := 2, solutions := [[⟨1, (0, 0), 0⟩, ⟨2, (0, 1), 0⟩]] } ∧
    (∀ sol ∈ (RunResult.mk 2 [[⟨1, (0, 0), 0⟩, ⟨2, (0, 1), 0⟩]]).solutions,
      sol.Pairwise (fun a b =>
        ∀ t ∈ replayTargets 1 2 [pieceG, pieceH] a, t ∉ replayTargets 1 2 [pieceG, pieceH] b) ∧
      ∀ it ∈ sol, ∀ t ∈ replayTargets 1 2 [pieceG, pieceH] it, t < 1 * 2) :=
  ⟨by decide,
    claim_C7_valid_packings 1 2 [pieceG, pieceH] false (by decide) (by decide) (by decide)
      1 [0] (RunResult.mk 2 [[⟨1, (0, 0), 0⟩, ⟨2, (0, 1), 0⟩]]) (by decide)⟩

/-! ## Coverage accounting and best-coverage bounds (toward claim C8) -/

theorem covInv_congr (c : Ctx) (cov : Nat) {s s' : BState}
    (hocc : s'.occupancy = s.occupancy) (hstamp : s'.depthStamp = s.depthStamp)
    (hdepth : s'.depth = s.depth) (h : CovInv c cov s) : CovInv c cov s' :=
  ⟨stInv_congr hocc hstamp hdepth h.1, by rw [hocc]; exact h.2.1, by rw [hocc]; exact h.2.2⟩

theorem covInv_recStep (c : Ctx) (cur : List SolItem) (cov₀ cov : Nat) (s0 : BState)
    (h : CovInv c cov s0) : CovInv c cov (recStep c cur cov₀ s0) :=
  covInv_congr c cov (recStep_occupancy c cur cov₀ s0) (recStep_depthStamp c cur cov₀ s0)
    (recStep_depth c cur cov₀ s0) h

theorem cov_le_boardSize_of_covInv (c : Ctx) (cov : Nat) (s : BState)
    (h : CovInv c cov s) : cov ≤ c.boardSize := by
  obtain ⟨_, hlen, hcnt⟩ := h
  rw [← hcnt, ← hlen]
  exact occupiedCount_le_length s.occupancy

theorem covInv_apply (c : Ctx) (hT : TargetsOK c) (cov : Nat) (s : BState)
    (hinv : CovInv c cov s) (pIdx chosenPi : Nat) (hplt : pIdx < c.placements.length)
    (hlegal : legalAt c s.occupancy pIdx = true) :
    CovInv c (cov + (c.placement pIdx).targets.length)
      (applyPlacementByIndex c s pIdx chosenPi) := by
  obtain ⟨hst, hlen, hcnt⟩ := hinv
  obtain ⟨hnd, hbound⟩ := hT (c.placement pIdx) (placement_mem c pIdx hplt)
  refine ⟨stInv_apply c s pIdx chosenPi hst, ?_, ?_⟩
  · rw [apply_occupancy, foldl_set_length]
    exact hlen
  · rw [apply_occupancy, occupiedCount_foldl_set chosenPi _ _ hnd
      (fun t ht => by rw [hlen]; exact hbound t ht)
      ((legalAt_iff c s.occupancy pIdx).mp hlegal), hcnt]

/-- A boolean success outcome of the `backtrack` head can only come from
the full-coverage guard. -/
theorem btStep_inl_true (c : Ctx) (rem : List Nat) (sum : Nat) (cur : List SolItem)
    (cov : Nat) (s0 : BState) (r : BState × Bool)
    (h : btStep c rem sum cur cov s0 = .inl r) (htrue : r.2 = true) :
    c.boardSize ≤ cov := by
  unfold btStep at h
  split_ifs at h with h1 h2 h3
  · exact h1
  · injection h with h'
    rw [← h'] at htrue
    exact absurd htrue (by simp)
  · injection h with h'
    rw [← h'] at htrue
    exact absurd htrue (by simp)
  · revert h
    cases hsel : (selectLoop c (recStep c cur cov s0).occupancy rem).1 with
    | none =>
      intro h
      injection h with h'
      rw [← h'] at htrue
      exact absurd htrue (by simp)
    | some bestRi =>
      intro h
      dsimp only at h
      split_ifs at h with h4
      injection h with h'
      rw [← h'] at htrue
      exact absurd htrue (by simp)

/-- The candidate loop never lowers the best coverage, provided the
recursion does not. -/
theorem placementLoop_best_mono (c : Ctx)
    (recur : List SolItem → Nat → BState → BState × Bool) (chosenPi : Nat)
    (hrec : ∀ (cur' : List SolItem) (cov' : Nat) (s' : BState),
      s'.bestCoverage ≤ (recur cur' cov' s').1.bestCoverage) :
    ∀ (l : List (Nat × Nat)) (cur : List SolItem) (cov : Nat) (s : BState),
      s.bestCoverage ≤ (placementLoop c recur chosenPi cur cov l s).1.bestCoverage := by
  intro l
  induction l with
  | nil => intro cur cov s; exact le_refl _
  | cons v rest ih =>
    intro cur cov s
    rw [placementLoop_cons_flat]
    have h1 := hrec (cur ++ [loopItem c v.1]) (cov + (c.placement v.1).targets.length)
      (applyPlacementByIndex c s v.1 chosenPi)
    rw [apply_bestCoverage] at h1
    by_cases hstop : (recur (cur ++ [loopItem c v.1])
        (cov + (c.placement v.1).targets.length)
        (applyPlacementByIndex c s v.1 chosenPi)).2
    · rw [if_pos hstop]
      show s.bestCoverage ≤ (undoPlacementByIndex c _ v.1).bestCoverage
      rw [undo_bestCoverage]
      exact h1
    · rw [if_neg hstop]
      have h2 := ih cur cov (undoPlacementByIndex c
        (recur (cur ++ [loopItem c v.1]) (cov + (c.placement v.1).targets.length)
          (applyPlacementByIndex c s v.1 chosenPi)).1 v.1)
      rw [undo_bestCoverage] at h2
      omega

/-- Every `backtrack` call returns a best coverage at least the maximum of
the entry best and the entry coverage. -/
theorem btAux_best_ge (c : Ctx) (fuel : Nat) :
    ∀ (rem : List Nat) (sum : Nat) (cur : List SolItem) (cov : Nat) (s0 : BState),
      max s0.bestCoverage cov ≤ (btAux c fuel rem sum cur cov s0).1.bestCoverage := by
  induction fuel with
  | zero =>
    intro rem sum cur cov s0
    rw [btAux_eq]
    rcases hstep : btStep c rem sum cur cov s0 with r | ⟨s2, bestRi, valid⟩
    · have := btStep_inl_fst c rem sum cur cov s0 r hstep
      show max s0.bestCoverage cov ≤ r.1.bestCoverage
      rw [this, recStep_bestCoverage]
    · have := (btStep_inr c rem sum cur cov s0 s2 bestRi valid hstep).1
      show max s0.bestCoverage cov ≤ s2.bestCoverage
      rw [this, recStep_bestCoverage]
  | succ fuel ih =>
    intro rem sum cur cov s0
    rw [btAux_eq]
    rcases hstep : btStep c rem sum cur cov s0 with r | ⟨s2, bestRi, valid⟩
    · have := btStep_inl_fst c rem sum cur cov s0 r hstep
      show max s0.bestCoverage cov ≤ r.1.bestCoverage
      rw [this, recStep_bestCoverage]
    · have hs2 := (btStep_inr c rem sum cur cov s0 s2 bestRi valid hstep).1
      have hloop := placementLoop_best_mono c
        (btAux c fuel (rem.eraseIdx bestRi) (sum - (c.pieceAt (rem.getD bestRi 0)).size))
        (rem.getD bestRi 0)
        (fun cur' cov' s' => le_trans (le_max_left _ _) (ih _ _ cur' cov' s'))
        valid cur cov s2
      have hbest : s2.bestCoverage = max s0.bestCoverage cov := by
        rw [hs2, recStep_bestCoverage]
      show max s0.bestCoverage cov ≤ (placementLoop c
        (btAux c fuel (rem.eraseIdx bestRi) (sum - (c.pieceAt (rem.getD bestRi 0)).size))
        (rem.getD bestRi 0) cur cov valid s2).1.bestCoverage
      omega

/-- Board-size bound for the candidate loop: the best coverage never
exceeds the maximum of the entry best and the board size, and a boolean
success implies the best reached the board size. -/
theorem placementLoop_board (c : Ctx) (hT : TargetsOK c) (hS : SlicesOK c)
    (recur : List SolItem → Nat → BState → BState × Bool) (chosenPi : Nat)
    (hpil : chosenPi < c.pieces.length)
    (hrecState : ∀ (cur' : List SolItem) (cov' : Nat) (s' : BState), StInv s' →
      (recur cur' cov' s').1.occupancy = s'.occupancy ∧
      (recur cur' cov' s').1.depthStamp = s'.depthStamp ∧
      (recur cur' cov' s').1.depth = s'.depth)
    (hrecBoard : ∀ (cur' : List SolItem) (cov' : Nat) (s' : BState), CovInv c cov' s' →
      (recur cur' cov' s').1.bestCoverage ≤ max s'.bestCoverage c.boardSize ∧
      ((recur cur' cov' s').2 = true → c.boardSize ≤ (recur cur' cov' s').1.bestCoverage)) :
    ∀ (l : List (Nat × Nat)) (cur : List SolItem) (cov : Nat) (u : BState),
      CovInv c cov u →
      (∀ v ∈ l, legalAt c u.occupancy v.1 = true ∧ v.1 ∈ c.placementIdxs chosenPi) →
      (placementLoop c recur chosenPi cur cov l u).1.bestCoverage ≤
        max u.bestCoverage c.boardSize ∧
      ((placementLoop c recur chosenPi cur cov l u).2 = true →
        c.boardSize ≤ (placementLoop c recur chosenPi cur cov l u).1.bestCoverage) := by
  intro l
  induction l with
  | nil =>
    intro cur cov u _ _
    refine ⟨le_max_left _ _, ?_⟩
    intro hcon
    rw [placementLoop_nil] at hcon
    exact absurd hcon (by simp)
  | cons v rest ih =>
    intro cur cov u hinv hl
    rw [placementLoop_cons_flat]
    set s1 := applyPlacementByIndex c u v.1 chosenPi with hs1
    have hplt : v.1 < c.placements.length :=
      (hS chosenPi hpil v.1 (hl v (List.mem_cons_self v rest)).2).1
    have hinv1 : CovInv c (cov + (c.placement v.1).targets.length) s1 :=
      covInv_apply c hT cov u hinv v.1 chosenPi hplt (hl v (List.mem_cons_self v rest)).1
    set R := recur (cur ++ [loopItem c v.1]) (cov + (c.placement v.1).targets.length) s1
      with hR
    have hRb := hrecBoard (cur ++ [loopItem c v.1])
      (cov + (c.placement v.1).targets.length) s1 hinv1
    rw [← hR] at hRb
    have hRfields := hrecState (cur ++ [loopItem c v.1])
      (cov + (c.placement v.1).targets.length) s1 hinv1.1
    rw [← hR] at hRfields
    have hlegal := (legalAt_iff c u.occupancy v.1).mp (hl v (List.mem_cons_self v rest)).1
    have hrestore := apply_undo_restore c u v.1 chosenPi hinv.1 hlegal R.1
      hRfields.1 hRfields.2.1 hRfields.2.2
    have hs1best : s1.bestCoverage = u.bestCoverage := apply_bestCoverage c u v.1 chosenPi
    by_cases hstop : R.2
    · rw [if_pos hstop]
      refine ⟨?_, ?_⟩
      · show (undoPlacementByIndex c R.1 v.1).bestCoverage ≤ _
        rw [undo_bestCoverage]
        have h1 := hRb.1
        omega
      · intro _
        show c.boardSize ≤ (undoPlacementByIndex c R.1 v.1).bestCoverage
        rw [undo_bestCoverage]
        exact hRb.2 hstop
    · rw [if_neg hstop]
      have hinv3 : CovInv c cov (undoPlacementByIndex c R.1 v.1) :=
        covInv_congr c cov hrestore.1 hrestore.2.1 hrestore.2.2 hinv

      have hl3 : ∀ q ∈ rest, legalAt c (undoPlacementByIndex c R.1 v.1).occupancy q.1 = true ∧
          q.1 ∈ c.placementIdxs chosenPi := by
        intro q hq
        refine ⟨?_, (hl q (List.mem_cons_of_mem v hq)).2⟩
        rw [hrestore.1]
        exact (hl q (List.mem_cons_of_mem v hq)).1
      have hih := ih cur cov (undoPlacementByIndex c R.1 v.1) hinv3 hl3
      have hub : (undoPlacementByIndex c R.1 v.1).bestCoverage = R.1.bestCoverage :=
        undo_bestCoverage c R.1 v.1
      refine ⟨?_, hih.2⟩
      have h1 := hih.1
      have h2 := hRb.1
      omega

/-- Board-size bound for `backtrack`: the best coverage never exceeds the
maximum of the entry best and the board size, and a boolean success implies
the best reached the board size. -/
theorem btAux_board (c : Ctx) (hT : TargetsOK c) (hS : SlicesOK c) (fuel : Nat) :
    ∀ (rem : List Nat) (sum : Nat) (cur : List SolItem) (cov : Nat) (s0 : BState),
      (∀ pi ∈ rem, pi < c.pieces.length) → CovInv c cov s0 →
      (btAux c fuel rem sum cur cov s0).1.bestCoverage ≤
        max s0.bestCoverage c.boardSize ∧
      ((btAux c fuel rem sum cur cov s0).2 = true →
        c.boardSize ≤ (btAux c fuel rem sum cur cov s0).1.bestCoverage) := by
  induction fuel with
  | zero =>
    intro rem sum cur cov s0 hrem hinv
    have hcb := cov_le_boardSize_of_covInv c cov s0 hinv
    rw [btAux_eq]
    rcases hstep : btStep c rem sum cur cov s0 with r | ⟨s2, bestRi, valid⟩
    · have hfst := btStep_inl_fst c rem sum cur cov s0 r hstep
      have hbest : r.1.bestCoverage = max s0.bestCoverage cov := by
        rw [hfst, recStep_bestCoverage]
      refine ⟨by show r.1.bestCoverage ≤ _; omega, ?_⟩
      intro htrue
      have := btStep_inl_true c rem sum cur cov s0 r hstep htrue
      show c.boardSize ≤ r.1.bestCoverage
      omega
    · have hs2 := (btStep_inr c rem sum cur cov s0 s2 bestRi valid hstep).1
      have hbest : s2.bestCoverage = max s0.bestCoverage cov := by
        rw [hs2, recStep_bestCoverage]
      refine ⟨by show s2.bestCoverage ≤ _; omega, ?_⟩
      intro hcon
      exact absurd hcon (by simp)
  | succ fuel ih =>
    intro rem sum cur cov s0 hrem hinv
    have hcb := cov_le_boardSize_of_covInv c cov s0 hinv
    rw [btAux_eq]
    rcases hstep : btStep c rem sum cur cov s0 with r | ⟨s2, bestRi, valid⟩
    · have hfst := btStep_inl_fst c rem sum cur cov s0 r hstep
      have hbest : r.1.bestCoverage = max s0.bestCoverage cov := by
        rw [hfst, recStep_bestCoverage]
      refine ⟨by show r.1.bestCoverage ≤ _; omega, ?_⟩
      intro htrue
      have := btStep_inl_true c rem sum cur cov s0 r hstep htrue
      show c.boardSize ≤ r.1.bestCoverage
      omega
    · obtain ⟨hs2, hvalid, hsel, _, _, _, _⟩ :=
        btStep_inr c rem sum cur cov s0 s2 bestRi valid hstep
      have hinv2 : CovInv c cov s2 := by
        rw [hs2]
        exact covInv_recStep c cur cov cov s0 hinv
      have hbrlt : bestRi < rem.length := selectLoop_some_lt c _ rem bestRi hsel
      have hpil : rem.getD bestRi 0 < c.pieces.length :=
        hrem _ (mem_of_getD_lt rem bestRi hbrlt)
      have hrem' : ∀ pi ∈ rem.eraseIdx bestRi, pi < c.pieces.length :=
        fun pi hp => hrem pi ((List.eraseIdx_sublist rem bestRi).subset hp)
      have hl : ∀ v ∈ valid, legalAt c s2.occupancy v.1 = true ∧
          v.1 ∈ c.placementIdxs (rem.getD bestRi 0) := by
        intro v hv
        rw [hvalid] at hv
        have h1 := buildValid_mem c (recStep c cur cov s0).occupancy _ v hv
        have hocc2 : s2.occupancy = (recStep c cur cov s0).occupancy := by rw [hs2]
        exact ⟨by rw [hocc2]; exact h1.1, h1.2⟩
      have hloop := placementLoop_board c hT hS
        (btAux c fuel (rem.eraseIdx bestRi) (sum - (c.pieceAt (rem.getD bestRi 0)).size))
        (rem.getD bestRi 0) hpil
        (fun cur' cov' s' hs' => btAux_preserves_state c fuel _ _ cur' cov' s' hs')
        (fun cur' cov' s' hinv' => ih _ _ cur' cov' s' hrem' hinv')
        valid cur cov s2 hinv2 hl
      have hbest : s2.bestCoverage = max s0.bestCoverage cov := by
        rw [hs2, recStep_bestCoverage]
      show (placementLoop c (btAux c fuel (rem.eraseIdx bestRi)
          (sum - (c.pieceAt (rem.getD bestRi 0)).size)) (rem.getD bestRi 0)
          cur cov valid s2).1.bestCoverage ≤ max s0.bestCoverage c.boardSize ∧
        ((placementLoop c (btAux c fuel (rem.eraseIdx bestRi)
          (sum - (c.pieceAt (rem.getD bestRi 0)).size)) (rem.getD bestRi 0)
          cur cov valid s2).2 = true →
          c.boardSize ≤ (placementLoop c (btAux c fuel (rem.eraseIdx bestRi)
          (sum - (c.pieceAt (rem.getD bestRi 0)).size)) (rem.getD bestRi 0)
          cur cov valid s2).1.bestCoverage)
      refine ⟨?_, hloop.2⟩
      have h1 := hloop.1
      omega

/-- Potential bound for the candidate loop: the best coverage never exceeds
the maximum of the entry best and the total potential of the branch (the
entry coverage plus the chosen piece's size plus the remaining sum below
it). -/
theorem placementLoop_sumBound (c : Ctx) (hT : TargetsOK c) (hS : SlicesOK c)
    (recur : List SolItem → Nat → BState → BState × Bool) (chosenPi : Nat)
    (hpil : chosenPi < c.pieces.length) (S : Nat)
    (hrecState : ∀ (cur' : List SolItem) (cov' : Nat) (s' : BState), StInv s' →
      (recur cur' cov' s').1.occupancy = s'.occupancy ∧
      (recur cur' cov' s').1.depthStamp = s'.depthStamp ∧
      (recur cur' cov' s').1.depth = s'.depth)
    (hrecLe : ∀ (cur' : List SolItem) (cov' : Nat) (s' : BState), CovInv c cov' s' →
      (recur cur' cov' s').1.bestCoverage ≤ max s'.bestCoverage (cov' + S)) :
    ∀ (l : List (Nat × Nat)) (cur : List SolItem) (cov : Nat) (u : BState),
      CovInv c cov u →
      (∀ v ∈ l, legalAt c u.occupancy v.1 = true ∧ v.1 ∈ c.placementIdxs chosenPi) →
      (placementLoop c recur chosenPi cur cov l u).1.bestCoverage ≤
        max u.bestCoverage (cov + (c.pieceAt chosenPi).size + S) := by
  intro l
  induction l with
  | nil => intro cur cov u _ _; exact le_max_left _ _
  | cons v rest ih =>
    intro cur cov u hinv hl
    rw [placementLoop_cons_flat]
    set s1 := applyPlacementByIndex c u v.1 chosenPi with hs1
    have hplt : v.1 < c.placements.length :=
      (hS chosenPi hpil v.1 (hl v (List.mem_cons_self v rest)).2).1
    have hlen : (c.placement v.1).targets.length = (c.pieceAt chosenPi).size :=
      (hS chosenPi hpil v.1 (hl v (List.mem_cons_self v rest)).2).2.2
    have hinv1 : CovInv c (cov + (c.placement v.1).targets.length) s1 :=
      covInv_apply c hT cov u hinv v.1 chosenPi hplt (hl v (List.mem_cons_self v rest)).1
    set R := recur (cur ++ [loopItem c v.1]) (cov + (c.placement v.1).targets.length) s1
      with hR
    have hRle := hrecLe (cur ++ [loopItem c v.1])
      (cov + (c.placement v.1).targets.length) s1 hinv1
    rw [← hR] at hRle
    have hRfields := hrecState (cur ++ [loopItem c v.1])
      (cov + (c.placement v.1).targets.length) s1 hinv1.1
    rw [← hR] at hRfields
    have hlegal := (legalAt_iff c u.occupancy v.1).mp (hl v (List.mem_cons_self v rest)).1
    have hrestore := apply_undo_restore c u v.1 chosenPi hinv.1 hlegal R.1
      hRfields.1 hRfields.2.1 hRfields.2.2
    have hs1best : s1.bestCoverage = u.bestCoverage := apply_bestCoverage c u v.1 chosenPi
    by_cases hstop : R.2
    · rw [if_pos hstop]
      show (undoPlacementByIndex c R.1 v.1).bestCoverage ≤ _
      rw [undo_bestCoverage]
      omega
    · rw [if_neg hstop]
      have hinv3 : CovInv c cov (undoPlacementByIndex c R.1 v.1) :=
        covInv_congr c cov hrestore.1 hrestore.2.1 hrestore.2.2 hinv
      have hl3 : ∀ q ∈ rest, legalAt c (undoPlacementByIndex c R.1 v.1).occupancy q.1 = true ∧
          q.1 ∈ c.placementIdxs chosenPi := by
        intro q hq
        refine ⟨?_, (hl q (List.mem_cons_of_mem v hq)).2⟩
        rw [hrestore.1]
        exact (hl q (List.mem_cons_of_mem v hq)).1
      have hih := ih cur cov (undoPlacementByIndex c R.1 v.1) hinv3 hl3
      have hub : (undoPlacementByIndex c R.1 v.1).bestCoverage = R.1.bestCoverage :=
        undo_bestCoverage c R.1 v.1
      omega

/-- Potential bound for `backtrack`: when the remaining sum argument is the
true total of the remaining piece sizes, the best coverage never exceeds
the maximum of the entry best and the branch potential `cov + sum`. -/
theorem btAux_best_le (c : Ctx) (hT : TargetsOK c) (hS : SlicesOK c) (fuel : Nat) :
    ∀ (rem : List Nat) (sum : Nat) (cur : List SolItem) (cov : Nat) (s0 : BState),
      (∀ pi ∈ rem, pi < c.pieces.length) →
      sum = (rem.map (fun i => (c.pieceAt i).size)).sum →
      CovInv c cov s0 →
      (btAux c fuel rem sum cur cov s0).1.bestCoverage ≤
        max s0.bestCoverage (cov + sum) := by
  induction fuel with
  | zero =>
    intro rem sum cur cov s0 hrem hsum hinv
    rw [btAux_eq]
    rcases hstep : btStep c rem sum cur cov s0 with r | ⟨s2, bestRi, valid⟩
    · have hfst := btStep_inl_fst c rem sum cur cov s0 r hstep
      have hbest : r.1.bestCoverage = max s0.bestCoverage cov := by
        rw [hfst, recStep_bestCoverage]
      show r.1.bestCoverage ≤ _
      omega
    · have hs2 := (btStep_inr c rem sum cur cov s0 s2 bestRi valid hstep).1
      have hbest : s2.bestCoverage = max s0.bestCoverage cov := by
        rw [hs2, recStep_bestCoverage]
      show s2.bestCoverage ≤ _
      omega
  | succ fuel ih =>
    intro rem sum cur cov s0 hrem hsum hinv
    rw [btAux_eq]
    rcases hstep : btStep c rem sum cur cov s0 with r | ⟨s2, bestRi, valid⟩
    · have hfst := btStep_inl_fst c rem sum cur cov s0 r hstep
      have hbest : r.1.bestCoverage = max s0.bestCoverage cov := by
        rw [hfst, recStep_bestCoverage]
      show r.1.bestCoverage ≤ _
      omega
    · obtain ⟨hs2, hvalid, hsel, _, _, _, _⟩ :=
        btStep_inr c rem sum cur cov s0 s2 bestRi valid hstep
      have hinv2 : CovInv c cov s2 := by
        rw [hs2]
        exact covInv_recStep c cur cov cov s0 hinv
      have hbrlt : bestRi < rem.length := selectLoop_some_lt c _ rem bestRi hsel
      have hmemrem : rem.getD bestRi 0 ∈ rem := mem_of_getD_lt rem bestRi hbrlt
      have hpil : rem.getD bestRi 0 < c.pieces.length := hrem _ hmemrem
      have hrem' : ∀ pi ∈ rem.eraseIdx bestRi, pi < c.pieces.length :=
        fun pi hp => hrem pi ((List.eraseIdx_sublist rem bestRi).subset hp)
      have hsz : (c.pieceAt (rem.getD bestRi 0)).size ≤ sum := by
        rw [hsum]
        exact le_map_sum_of_mem (fun i => (c.pieceAt i).size) rem _ hmemrem
      have herase : ((rem.eraseIdx bestRi).map (fun i => (c.pieceAt i).size)).sum +
          (c.pieceAt (rem.getD bestRi 0)).size =
          (rem.map (fun i => (c.pieceAt i).size)).sum :=
        map_sum_eraseIdx (fun i => (c.pieceAt i).size) rem bestRi hbrlt
      have hsum' : sum - (c.pieceAt (rem.getD bestRi 0)).size =
          ((rem.eraseIdx bestRi).map (fun i => (c.pieceAt i).size)).sum := by
        omega
      have hl : ∀ v ∈ valid, legalAt c s2.occupancy v.1 = true ∧
          v.1 ∈ c.placementIdxs (rem.getD bestRi 0) := by
        intro v hv
        rw [hvalid] at hv
        have h1 := buildValid_mem c (recStep c cur cov s0).occupancy _ v hv
        have hocc2 : s2.occupancy = (recStep c cur cov s0).occupancy := by rw [hs2]
        exact ⟨by rw [hocc2]; exact h1.1, h1.2⟩
      have hloop := placementLoop_sumBound c hT hS
        (btAux c fuel (rem.eraseIdx bestRi) (sum - (c.pieceAt (rem.getD bestRi 0)).size))
        (rem.getD bestRi 0) hpil (sum - (c.pieceAt (rem.getD bestRi 0)).size)
        (fun cur' cov' s' hs' => btAux_preserves_state c fuel _ _ cur' cov' s' hs')
        (fun cur' cov' s' hinv' => ih _ _ cur' cov' s' hrem' hsum' hinv')
        valid cur cov s2 hinv2 hl
      have hbest : s2.bestCoverage = max s0.bestCoverage cov := by
        rw [hs2, recStep_bestCoverage]
      show (placementLoop c (btAux c fuel (rem.eraseIdx bestRi)
          (sum - (c.pieceAt (rem.getD bestRi 0)).size)) (rem.getD bestRi 0)
          cur cov valid s2).1.bestCoverage ≤ max s0.bestCoverage (cov + sum)
      omega

/-! ## Guard-level characterization of the `backtrack` head -/

theorem btStep_full (c : Ctx) (rem : List Nat) (sum : Nat) (cur : List SolItem)
    (cov : Nat) (s0 : BState) (h1 : c.boardSize ≤ cov) :
    btStep c rem sum cur cov s0 = .inl (recStep c cur cov s0, true) := by
  unfold btStep
  rw [if_pos h1]

theorem btStep_prune (c : Ctx) (rem : List Nat) (sum : Nat) (cur : List SolItem)
    (cov : Nat) (s0 : BState) (h1 : ¬ c.boardSize ≤ cov)
    (h2 : cov + sum ≤ (recStep c cur cov s0).bestCoverage) :
    btStep c rem sum cur cov s0 = .inl (recStep c cur cov s0, false) := by
  unfold btStep
  rw [if_neg h1, if_pos h2]

theorem btStep_emptyRem (c : Ctx) (rem : List Nat) (sum : Nat) (cur : List SolItem)
    (cov : Nat) (s0 : BState) (h1 : ¬ c.boardSize ≤ cov)
    (h2 : ¬ cov + sum ≤ (recStep c cur cov s0).bestCoverage)
    (h3 : rem.isEmpty = true) :
    btStep c rem sum cur cov s0 = .inl (recStep c cur cov s0, false) := by
  unfold btStep
  rw [if_neg h1, if_neg h2, if_pos h3]

theorem btStep_selNone (c : Ctx) (rem : List Nat) (sum : Nat) (cur : List SolItem)
    (cov : Nat) (s0 : BState) (h1 : ¬ c.boardSize ≤ cov)
    (h2 : ¬ cov + sum ≤ (recStep c cur cov s0).bestCoverage)
    (h3 : ¬ rem.isEmpty = true)
    (h4 : (selectLoop c s0.occupancy rem).1 = none) :
    btStep c rem sum cur cov s0 = .inl (recStep c cur cov s0, false) := by
  unfold btStep
  rw [if_neg h1, if_neg h2, if_neg h3, recStep_occupancy, h4]

theorem btStep_novalid (c : Ctx) (rem : List Nat) (sum : Nat) (cur : List SolItem)
    (cov : Nat) (s0 : BState) (h1 : ¬ c.boardSize ≤ cov)
    (h2 : ¬ cov + sum ≤ (recStep c cur cov s0).bestCoverage)
    (h3 : ¬ rem.isEmpty = true) (ri : Nat)
    (h4 : (selectLoop c s0.occupancy rem).1 = some ri)
    (h5 : (buildValid c s0.occupancy (rem.getD ri 0)).isEmpty = true) :
    btStep c rem sum cur cov s0 = .inl (recStep c cur cov s0, false) := by
  unfold btStep
  rw [if_neg h1, if_neg h2, if_neg h3, recStep_occupancy, h4]
  dsimp only
  rw [h5, if_pos rfl]

theorem btStep_go (c : Ctx) (rem : List Nat) (sum : Nat) (cur : List SolItem)
    (cov : Nat) (s0 : BState) (h1 : ¬ c.boardSize ≤ cov)
    (h2 : ¬ cov + sum ≤ (recStep c cur cov s0).bestCoverage)
    (h3 : ¬ rem.isEmpty = true) (ri : Nat)
    (h4 : (selectLoop c s0.occupancy rem).1 = some ri)
    (h5 : (buildValid c s0.occupancy (rem.getD ri 0)).isEmpty = false) :
    btStep c rem sum cur cov s0 =
      .inr (recStep c cur cov s0, ri, buildValid c s0.occupancy (rem.getD ri 0)) := by
  unfold btStep
  rw [if_neg h1, if_neg h2, if_neg h3, recStep_occupancy, h4]
  dsimp only
  rw [h5, if_neg Bool.false_ne_true]

/-- Simulation for the candidate loop: running it from two states that
differ only in the solution bookkeeping — with the second one's best
coverage not larger — yields the same answer up to taking the maximum with
the richer entry best, and a success of the richer run implies a success of
the poorer run. -/
theorem placementLoop_sim (c : Ctx) (hT : TargetsOK c) (hS : SlicesOK c)
    (recur : List SolItem → Nat → BState → BState × Bool) (chosenPi : Nat)
    (hpil : chosenPi < c.pieces.length)
    (hrecState : ∀ (cur' : List SolItem) (cov' : Nat) (s' : BState), StInv s' →
      (recur cur' cov' s').1.occupancy = s'.occupancy ∧
      (recur cur' cov' s').1.depthStamp = s'.depthStamp ∧
      (recur cur' cov' s').1.depth = s'.depth)
    (hrecMono : ∀ (cur' : List SolItem) (cov' : Nat) (s' : BState),
      s'.bestCoverage ≤ (recur cur' cov' s').1.bestCoverage)
    (hrecBoard : ∀ (cur' : List SolItem) (cov' : Nat) (s' : BState), CovInv c cov' s' →
      (recur cur' cov' s').1.bestCoverage ≤ max s'.bestCoverage c.boardSize ∧
      ((recur cur' cov' s').2 = true → c.boardSize ≤ (recur cur' cov' s').1.bestCoverage))
    (hrecSim : ∀ (cur' : List SolItem) (cov' : Nat) (u u' : BState), CovInv c cov' u →
      u'.occupancy = u.occupancy → u'.depthStamp = u.depthStamp → u'.depth = u.depth →
      u'.bestCoverage ≤ u.bestCoverage →
      (recur cur' cov' u).1.bestCoverage =
        max u.bestCoverage (recur cur' cov' u').1.bestCoverage ∧
      ((recur cur' cov' u).2 = true → (recur cur' cov' u').2 = true)) :
    ∀ (l : List (Nat × Nat)) (cur : List SolItem) (cov : Nat) (u u' : BState),
      CovInv c cov u →
      u'.occupancy = u.occupancy → u'.depthStamp = u.depthStamp → u'.depth = u.depth →
      u'.bestCoverage ≤ u.bestCoverage →
      (∀ v ∈ l, legalAt c u.occupancy v.1 = true ∧ v.1 ∈ c.placementIdxs chosenPi) →
      (placementLoop c recur chosenPi cur cov l u).1.bestCoverage =
        max u.bestCoverage (placementLoop c recur chosenPi cur cov l u').1.bestCoverage ∧
      ((placementLoop c recur chosenPi cur cov l u).2 = true →
        (placementLoop c recur chosenPi cur cov l u').2 = true) := by
  intro l
  induction l with
  | nil =>
    intro cur cov u u' _ _ _ _ hle _
    rw [placementLoop_nil, placementLoop_nil]
    exact ⟨by show u.bestCoverage = max u.bestCoverage u'.bestCoverage; omega,
      fun hcon => absurd hcon (by simp)⟩
  | cons v rest ih =>
    intro cur cov u u' hinv hocc hstamp hdepth hle hl
    rw [placementLoop_cons_flat, placementLoop_cons_flat]
    set s1 := applyPlacementByIndex c u v.1 chosenPi with hs1
    set s1' := applyPlacementByIndex c u' v.1 chosenPi with hs1'
    have hocc1 : s1'.occupancy = s1.occupancy := by
      rw [hs1, hs1', apply_occupancy, apply_occupancy, hocc]
    have hstamp1 : s1'.depthStamp = s1.depthStamp := by
      rw [hs1, hs1', apply_depthStamp, apply_depthStamp, hstamp, hdepth]
    have hdepth1 : s1'.depth = s1.depth := by
      rw [hs1, hs1', apply_depth, apply_depth, hdepth]
    have hbest1 : s1'.bestCoverage ≤ s1.bestCoverage := by
      rw [hs1, hs1', apply_bestCoverage, apply_bestCoverage]
      exact hle
    have hplt : v.1 < c.placements.length :=
      (hS chosenPi hpil v.1 (hl v (List.mem_cons_self v rest)).2).1
    have hinv1 : CovInv c (cov + (c.placement v.1).targets.length) s1 :=
      covInv_apply c hT cov u hinv v.1 chosenPi hplt (hl v (List.mem_cons_self v rest)).1
    have hinv1' : CovInv c (cov + (c.placement v.1).targets.length) s1' :=
      covInv_congr c _ hocc1 hstamp1 hdepth1 hinv1
    set R := recur (cur ++ [loopItem c v.1]) (cov + (c.placement v.1).targets.length) s1
      with hR
    set R' := recur (cur ++ [loopItem c v.1]) (cov + (c.placement v.1).targets.length) s1'
      with hR'
    have hsim := hrecSim (cur ++ [loopItem c v.1])
      (cov + (c.placement v.1).targets.length) s1 s1' hinv1 hocc1 hstamp1 hdepth1 hbest1
    rw [← hR, ← hR'] at hsim
    have hRfields := hrecState (cur ++ [loopItem c v.1])
      (cov + (c.placement v.1).targets.length) s1 hinv1.1
    rw [← hR] at hRfields
    have hRfields' := hrecState (cur ++ [loopItem c v.1])
      (cov + (c.placement v.1).targets.length) s1' hinv1'.1
    rw [← hR'] at hRfields'
    have hlegal := (legalAt_iff c u.occupancy v.1).mp (hl v (List.mem_cons_self v rest)).1
    have hlegal' : ∀ t ∈ (c.placement v.1).targets, u'.occupancy.getD t 0 = -1 := by
      intro t ht
      rw [hocc]
      exact hlegal t ht
    have hstu' : StInv u' := stInv_congr hocc hstamp hdepth hinv.1
    have hrestore := apply_undo_restore c u v.1 chosenPi hinv.1 hlegal R.1
      hRfields.1 hRfields.2.1 hRfields.2.2
    have hrestore' := apply_undo_restore c u' v.1 chosenPi hstu' hlegal' R'.1
      (by rw [hRfields'.1, hs1']) (by rw [hRfields'.2.1, hs1'])
      (by rw [hRfields'.2.2, hs1'])
    have hwbest : (undoPlacementByIndex c R.1 v.1).bestCoverage = R.1.bestCoverage :=
      undo_bestCoverage c R.1 v.1
    have hwbest' : (undoPlacementByIndex c R'.1 v.1).bestCoverage = R'.1.bestCoverage :=
      undo_bestCoverage c R'.1 v.1
    have hub : s1.bestCoverage = u.bestCoverage := by
      rw [hs1]
      exact apply_bestCoverage c u v.1 chosenPi
    have hchain : (undoPlacementByIndex c R.1 v.1).bestCoverage =
        max u.bestCoverage R'.1.bestCoverage := by
      rw [hwbest, hsim.1, hub]
    by_cases hstop : R.2
    · have hstop' : R'.2 = true := hsim.2 hstop
      rw [if_pos hstop, if_pos hstop']
      refine ⟨?_, fun _ => rfl⟩
      show (undoPlacementByIndex c R.1 v.1).bestCoverage = _
      rw [hchain, hwbest']
    · rw [if_neg hstop]
      by_cases hstop' : R'.2
      · rw [if_pos hstop']
        have hRb' : c.boardSize ≤ R'.1.bestCoverage := by
          have hB := (hrecBoard (cur ++ [loopItem c v.1])
            (cov + (c.placement v.1).targets.length) s1' hinv1').2
          rw [← hR'] at hB
          exact hB hstop'
        have hwB : c.boardSize ≤ (undoPlacementByIndex c R.1 v.1).bestCoverage := by
          rw [hchain]
          omega
        have hinvw : CovInv c cov (undoPlacementByIndex c R.1 v.1) :=
          covInv_congr c cov hrestore.1 hrestore.2.1 hrestore.2.2 hinv
        have hlw : ∀ q ∈ rest,
            legalAt c (undoPlacementByIndex c R.1 v.1).occupancy q.1 = true ∧
            q.1 ∈ c.placementIdxs chosenPi := by
          intro q hq
          refine ⟨?_, (hl q (List.mem_cons_of_mem v hq)).2⟩
          rw [hrestore.1]
          exact (hl q (List.mem_cons_of_mem v hq)).1
        have hboardRest := placementLoop_board c hT hS recur chosenPi hpil hrecState
          hrecBoard rest cur cov (undoPlacementByIndex c R.1 v.1) hinvw hlw
        have hmonoRest := placementLoop_best_mono c recur chosenPi hrecMono rest cur cov
          (undoPlacementByIndex c R.1 v.1)
        refine ⟨?_, fun _ => rfl⟩
        show (placementLoop c recur chosenPi cur cov rest
            (undoPlacementByIndex c R.1 v.1)).1.bestCoverage =
          max u.bestCoverage (undoPlacementByIndex c R'.1 v.1).bestCoverage
        have h1 := hboardRest.1
        rw [hwbest']
        omega
      · rw [if_neg hstop']
        have hinvw : CovInv c cov (undoPlacementByIndex c R.1 v.1) :=
          covInv_congr c cov hrestore.1 hrestore.2.1 hrestore.2.2 hinv
        have hoccw : (undoPlacementByIndex c R'.1 v.1).occupancy =
            (undoPlacementByIndex c R.1 v.1).occupancy := by
          rw [hrestore.1, hrestore'.1, hocc]
        have hstampw : (undoPlacementByIndex c R'.1 v.1).depthStamp =
            (undoPlacementByIndex c R.1 v.1).depthStamp := by
          rw [hrestore.2.1, hrestore'.2.1, hstamp]
        have hdepthw : (undoPlacementByIndex c R'.1 v.1).depth =
            (undoPlacementByIndex c R.1 v.1).depth := by
          rw [hrestore.2.2, hrestore'.2.2, hdepth]
        have hbestw : (undoPlacementByIndex c R'.1 v.1).bestCoverage ≤
            (undoPlacementByIndex c R.1 v.1).bestCoverage := by
          rw [hwbest', hchain]
          omega
        have hlw : ∀ q ∈ rest,
            legalAt c (undoPlacementByIndex c R.1 v.1).occupancy q.1 = true ∧
            q.1 ∈ c.placementIdxs chosenPi := by
          intro q hq
          refine ⟨?_, (hl q (List.mem_cons_of_mem v hq)).2⟩
          rw [hrestore.1]
          exact (hl q (List.mem_cons_of_mem v hq)).1
        have hih := ih cur cov (undoPlacementByIndex c R.1 v.1)
          (undoPlacementByIndex c R'.1 v.1) hinvw hoccw hstampw hdepthw hbestw hlw
        have hmonoRest' := placementLoop_best_mono c recur chosenPi hrecMono rest cur cov
          (undoPlacementByIndex c R'.1 v.1)
        refine ⟨?_, hih.2⟩
        have h1 := hih.1
        have h3 := hmonoRest'
        omega

/-- Simulation for `backtrack`: the bookkeeping fields (recorded solutions,
counters) never influence which coverage the search discovers — starting
from a state whose best coverage is lower (and whose board fields agree)
yields the same final best up to taking the maximum with the richer entry
best, and a success of the richer run implies a success of the poorer
run. -/
theorem btAux_sim (c : Ctx) (hT : TargetsOK c) (hS : SlicesOK c) (fuel : Nat) :
    ∀ (rem : List Nat) (sum : Nat) (cur : List SolItem) (cov : Nat) (s s' : BState),
      (∀ pi ∈ rem, pi < c.pieces.length) →
      sum = (rem.map (fun i => (c.pieceAt i).size)).sum →
      CovInv c cov s →
      s'.occupancy = s.occupancy → s'.depthStamp = s.depthStamp → s'.depth = s.depth →
      s'.bestCoverage ≤ s.bestCoverage →
      (btAux c fuel rem sum cur cov s).1.bestCoverage =
        max s.bestCoverage (btAux c fuel rem sum cur cov s').1.bestCoverage ∧
      ((btAux c fuel rem sum cur cov s).2 = true →
        (btAux c fuel rem sum cur cov s').2 = true) := by
  induction fuel with
  | zero =>
    intro rem sum cur cov s s' hrem hsum hinv hocc hstamp hdepth hle
    have hb1 : (recStep c cur cov s).bestCoverage = max s.bestCoverage cov :=
      recStep_bestCoverage c cur cov s
    have hb2 : (recStep c cur cov s').bestCoverage = max s'.bestCoverage cov :=
      recStep_bestCoverage c cur cov s'
    rw [btAux_eq c 0 rem sum cur cov s, btAux_eq c 0 rem sum cur cov s']
    by_cases hg1 : c.boardSize ≤ cov
    · rw [btStep_full c rem sum cur cov s hg1, btStep_full c rem sum cur cov s' hg1]
      refine ⟨?_, fun _ => rfl⟩
      show (recStep c cur cov s).bestCoverage =
        max s.bestCoverage (recStep c cur cov s').bestCoverage
      omega
    · rcases hstep : btStep c rem sum cur cov s with r | ⟨s2, ri, valid⟩ <;>
        rcases hstep' : btStep c rem sum cur cov s' with r' | ⟨s2', ri', valid'⟩
      · have h1 := btStep_inl_fst c rem sum cur cov s r hstep
        have h2 := btStep_inl_fst c rem sum cur cov s' r' hstep'
        refine ⟨?_, ?_⟩
        · show r.1.bestCoverage = max s.bestCoverage r'.1.bestCoverage
          rw [h1, h2]
          omega
        · intro htrue
          exact absurd (btStep_inl_true c rem sum cur cov s r hstep htrue) hg1
      · have h1 := btStep_inl_fst c rem sum cur cov s r hstep
        have h2 := (btStep_inr c rem sum cur cov s' s2' ri' valid' hstep').1
        refine ⟨?_, ?_⟩
        · show r.1.bestCoverage = max s.bestCoverage s2'.bestCoverage
          rw [h1, h2]
          omega
        · intro htrue
          exact absurd (btStep_inl_true c rem sum cur cov s r hstep htrue) hg1
      · have h1 := (btStep_inr c rem sum cur cov s s2 ri valid hstep).1
        have h2 := btStep_inl_fst c rem sum cur cov s' r' hstep'
        refine ⟨?_, ?_⟩
        · show s2.bestCoverage = max s.bestCoverage r'.1.bestCoverage
          rw [h1, h2]
          omega
        · intro hcon
          exact absurd hcon (by simp)
      · have h1 := (btStep_inr c rem sum cur cov s s2 ri valid hstep).1
        have h2 := (btStep_inr c rem sum cur cov s' s2' ri' valid' hstep').1
        refine ⟨?_, ?_⟩
        · show s2.bestCoverage = max s.bestCoverage s2'.bestCoverage
          rw [h1, h2]
          omega
        · intro hcon
          exact absurd hcon (by simp)
  | succ fuel ih =>
    intro rem sum cur cov s s' hrem hsum hinv hocc hstamp hdepth hle
    have hb1 : (recStep c cur cov s).bestCoverage = max s.bestCoverage cov :=
      recStep_bestCoverage c cur cov s
    have hb2 : (recStep c cur cov s').bestCoverage = max s'.bestCoverage cov :=
      recStep_bestCoverage c cur cov s'
    have hinv' : CovInv c cov s' := covInv_congr c cov hocc hstamp hdepth hinv
    rw [btAux_eq c (fuel + 1) rem sum cur cov s, btAux_eq c (fuel + 1) rem sum cur cov s']
    by_cases hg1 : c.boardSize ≤ cov
    · rw [btStep_full c rem sum cur cov s hg1, btStep_full c rem sum cur cov s' hg1]
      refine ⟨?_, fun _ => rfl⟩
      show (recStep c cur cov s).bestCoverage =
        max s.bestCoverage (recStep c cur cov s').bestCoverage
      omega
    · by_cases hp' : cov + sum ≤ (recStep c cur cov s').bestCoverage
      · have hp : cov + sum ≤ (recStep c cur cov s).bestCoverage := by omega
        rw [btStep_prune c rem sum cur cov s hg1 hp,
          btStep_prune c rem sum cur cov s' hg1 hp']
        refine ⟨?_, ?_⟩
        · show (recStep c cur cov s).bestCoverage =
            max s.bestCoverage (recStep c cur cov s').bestCoverage
          omega
        · intro hcon
          exact absurd hcon (by simp)
      · by_cases hp : cov + sum ≤ (recStep c cur cov s).bestCoverage
        · rw [btStep_prune c rem sum cur cov s hg1 hp]
          have hgepoor := btAux_best_ge c (fuel + 1) rem sum cur cov s'
          have hlepoor := btAux_best_le c hT hS (fuel + 1) rem sum cur cov s' hrem hsum hinv'
          refine ⟨?_, ?_⟩
          · show (recStep c cur cov s).bestCoverage =
              max s.bestCoverage (btAux c (fuel + 1) rem sum cur cov s').1.bestCoverage
            omega
          · intro hcon
            exact absurd hcon (by simp)
        · by_cases hg3 : rem.isEmpty
          · rw [btStep_emptyRem c rem sum cur cov s hg1 hp hg3,
              btStep_emptyRem c rem sum cur cov s' hg1 hp' hg3]
            refine ⟨?_, ?_⟩
            · show (recStep c cur cov s).bestCoverage =
                max s.bestCoverage (recStep c cur cov s').bestCoverage
              omega
            · intro hcon
              exact absurd hcon (by simp)
          · cases hsel : (selectLoop c s.occupancy rem).1 with
            | none =>
              have hsel' : (selectLoop c s'.occupancy rem).1 = none := by
                rw [hocc]
                exact hsel
              rw [btStep_selNone c rem sum cur cov s hg1 hp hg3 hsel,
                btStep_selNone c rem sum cur cov s' hg1 hp' hg3 hsel']
              refine ⟨?_, ?_⟩
              · show (recStep c cur cov s).bestCoverage =
                  max s.bestCoverage (recStep c cur cov s').bestCoverage
                omega
              · intro hcon
                exact absurd hcon (by simp)
            | some ri =>
              have hsel' : (selectLoop c s'.occupancy rem).1 = some ri := by
                rw [hocc]
                exact hsel
              cases hval : (buildValid c s.occupancy (rem.getD ri 0)).isEmpty with
              | true =>
                have hval' : (buildValid c s'.occupancy (rem.getD ri 0)).isEmpty = true := by
                  rw [hocc]
                  exact hval
                rw [btStep_novalid c rem sum cur cov s hg1 hp hg3 ri hsel hval,
                  btStep_novalid c rem sum cur cov s' hg1 hp' hg3 ri hsel' hval']
                refine ⟨?_, ?_⟩
                · show (recStep c cur cov s).bestCoverage =
                    max s.bestCoverage (recStep c cur cov s').bestCoverage
                  omega
                · intro hcon
                  exact absurd hcon (by simp)
              | false =>
                have hval' : (buildValid c s'.occupancy (rem.getD ri 0)).isEmpty = false := by
                  rw [hocc]
                  exact hval
                rw [btStep_go c rem sum cur cov s hg1 hp hg3 ri hsel hval,
                  btStep_go c rem sum cur cov s' hg1 hp' hg3 ri hsel' hval', hocc]
                have hbrlt : ri < rem.length := selectLoop_some_lt c _ rem ri hsel
                have hmemrem : rem.getD ri 0 ∈ rem := mem_of_getD_lt rem ri hbrlt
                have hpil : rem.getD ri 0 < c.pieces.length := hrem _ hmemrem
                have hrem' : ∀ pi ∈ rem.eraseIdx ri, pi < c.pieces.length :=
                  fun pi hp2 => hrem pi ((List.eraseIdx_sublist rem ri).subset hp2)
                have herase : ((rem.eraseIdx ri).map (fun i => (c.pieceAt i).size)).sum +
                    (c.pieceAt (rem.getD ri 0)).size =
                    (rem.map (fun i => (c.pieceAt i).size)).sum :=
                  map_sum_eraseIdx (fun i => (c.pieceAt i).size) rem ri hbrlt
                have hsum' : sum - (c.pieceAt (rem.getD ri 0)).size =
                    ((rem.eraseIdx ri).map (fun i => (c.pieceAt i).size)).sum := by
                  omega
                have hinvu : CovInv c cov (recStep c cur cov s) :=
                  covInv_recStep c cur cov cov s hinv
                have hoccu : (recStep c cur cov s').occupancy =
                    (recStep c cur cov s).occupancy := by
                  rw [recStep_occupancy, recStep_occupancy, hocc]
                have hstampu : (recStep c cur cov s').depthStamp =
                    (recStep c cur cov s).depthStamp := by
                  rw [recStep_depthStamp, recStep_depthStamp, hstamp]
                have hdepthu : (recStep c cur cov s').depth =
                    (recStep c cur cov s).depth := by
                  rw [recStep_depth, recStep_depth, hdepth]
                have hbestu : (recStep c cur cov s').bestCoverage ≤
                    (recStep c cur cov s).bestCoverage := by
                  omega
                have hl : ∀ v ∈ buildValid c s.occupancy (rem.getD ri 0),
                    legalAt c (recStep c cur cov s).occupancy v.1 = true ∧
                    v.1 ∈ c.placementIdxs (rem.getD ri 0) := by
                  intro v hv
                  have h1 := buildValid_mem c s.occupancy _ v hv
                  refine ⟨?_, h1.2⟩
                  rw [recStep_occupancy]
                  exact h1.1
                have hloop := placementLoop_sim c hT hS
                  (btAux c fuel (rem.eraseIdx ri) (sum - (c.pieceAt (rem.getD ri 0)).size))
                  (rem.getD ri 0) hpil
                  (fun cur' cov' t ht => btAux_preserves_state c fuel _ _ cur' cov' t ht)
                  (fun cur' cov' t => le_trans (le_max_left _ _)
                    (btAux_best_ge c fuel _ _ cur' cov' t))
                  (fun cur' cov' t ht => btAux_board c hT hS fuel _ _ cur' cov' t hrem' ht)
                  (fun cur' cov' t t' h1 h2 h3 h4 h5 =>
                    ih _ _ cur' cov' t t' hrem' hsum' h1 h2 h3 h4 h5)
                  (buildValid c s.occupancy (rem.getD ri 0)) cur cov
                  (recStep c cur cov s) (recStep c cur cov s')
                  hinvu hoccu hstampu hdepthu hbestu hl
                have hmonoPoor := placementLoop_best_mono c
                  (btAux c fuel (rem.eraseIdx ri) (sum - (c.pieceAt (rem.getD ri 0)).size))
                  (rem.getD ri 0)
                  (fun cur' cov' t => le_trans (le_max_left _ _)
                    (btAux_best_ge c fuel _ _ cur' cov' t))
                  (buildValid c s.occupancy (rem.getD ri 0)) cur cov
                  (recStep c cur cov s')
                show (placementLoop c (btAux c fuel (rem.eraseIdx ri)
                    (sum - (c.pieceAt (rem.getD ri 0)).size)) (rem.getD ri 0) cur cov
                    (buildValid c s.occupancy (rem.getD ri 0))
                    (recStep c cur cov s)).1.bestCoverage =
                  max s.bestCoverage (placementLoop c (btAux c fuel (rem.eraseIdx ri)
                    (sum - (c.pieceAt (rem.getD ri 0)).size)) (rem.getD ri 0) cur cov
                    (buildValid c s.occupancy (rem.getD ri 0))
                    (recStep c cur cov s')).1.bestCoverage ∧
                  ((placementLoop c (btAux c fuel (rem.eraseIdx ri)
                    (sum - (c.pieceAt (rem.getD ri 0)).size)) (rem.getD ri 0) cur cov
                    (buildValid c s.occupancy (rem.getD ri 0))
                    (recStep c cur cov s)).2 = true →
                   (placementLoop c (btAux c fuel (rem.eraseIdx ri)
                    (sum - (c.pieceAt (rem.getD ri 0)).size)) (rem.getD ri 0) cur cov
                    (buildValid c s.occupancy (rem.getD ri 0))
                    (recStep c cur cov s')).2 = true)
                refine ⟨?_, hloop.2⟩
                have h1 := hloop.1
                omega

theorem covInv_clean (c : Ctx) (s : BState)
    (hocc : s.occupancy = List.replicate c.boardSize (-1))
    (hstamp : s.depthStamp = List.replicate c.boardSize 0)
    (hdepth : s.depth = 0) : CovInv c 0 s := by
  refine ⟨?_, by rw [hocc]; simp, by rw [hocc]; exact occupiedCount_replicate_empty _⟩
  refine stInv_congr (s := initState c 0) ?_ ?_ ?_ (stInv_initState c 0)
  · rw [hocc]; rfl
  · rw [hstamp]; rfl
  · rw [hdepth]; rfl

/-- The final best coverage of the worker's top-level loop is the running
maximum of the entry best and the branch values of its assigned first-piece
placements: the solution bookkeeping carried between iterations never
changes what a branch can contribute. -/
theorem solveLoop_best (c : Ctx) (hT : TargetsOK c) (hS : SlicesOK c)
    (f : Nat) (hf : f < c.pieces.length)
    (rem : List Nat) (hrem : ∀ pi ∈ rem, pi < c.pieces.length)
    (sum : Nat) (hsum : sum = (rem.map (fun i => (c.pieceAt i).size)).sum) :
    ∀ (L : List Nat) (s : BState),
      (∀ pIdx ∈ L, pIdx ∈ c.placementIdxs f) →
      s.occupancy = List.replicate c.boardSize (-1) →
      s.depthStamp = List.replicate c.boardSize 0 →
      s.depth = 0 →
      (solveLoop c f rem sum L s).bestCoverage =
        L.foldl (fun b pIdx => max b (branchVal c f rem sum pIdx)) s.bestCoverage := by
  intro L
  induction L with
  | nil => intro s _ _ _ _; rfl
  | cons pIdx rest ih =>
    intro s hass hocc hstamp hdepth
    rw [solveLoop_cons]
    have hitem : (⟨if (c.placement pIdx).pieceId = 0 then (c.pieceAt f).id
        else (c.placement pIdx).pieceId,
        (c.placement pIdx).anchorIdx, (c.placement pIdx).rot, pIdx⟩ : SolItem) =
        firstItem c f pIdx := rfl
    rw [hitem]
    have hplt : pIdx < c.placements.length :=
      (hS f hf pIdx (hass pIdx (List.mem_cons_self pIdx rest))).1
    have hinv0 : CovInv c 0 s := covInv_clean c s hocc hstamp hdepth
    have hlegal : legalAt c s.occupancy pIdx = true := legalAt_clean c hT s hocc pIdx hplt
    have hinv1 : CovInv c (c.placement pIdx).targets.length
        (applyPlacementByIndex c s pIdx f) := by
      have h1 := covInv_apply c hT 0 s hinv0 pIdx f hplt hlegal
      rw [Nat.zero_add] at h1
      exact h1
    set s1 := applyPlacementByIndex c s pIdx f with hs1
    set s10 := applyPlacementByIndex c (initState c 0) pIdx f with hs10
    have hocc10 : s10.occupancy = s1.occupancy := by
      rw [hs1, hs10, apply_occupancy, apply_occupancy, hocc]
      rfl
    have hstamp10 : s10.depthStamp = s1.depthStamp := by
      rw [hs1, hs10, apply_depthStamp, apply_depthStamp, hstamp, hdepth]
      rfl
    have hdepth10 : s10.depth = s1.depth := by
      rw [hs1, hs10, apply_depth, apply_depth, hdepth]
      rfl
    have hbest10 : s10.bestCoverage ≤ s1.bestCoverage := by
      rw [hs10, apply_bestCoverage]
      exact Nat.zero_le _
    have hsim := btAux_sim c hT hS rem.length rem sum [firstItem c f pIdx]
      (c.placement pIdx).targets.length s1 s10 hrem hsum hinv1
      hocc10 hstamp10 hdepth10 hbest10
    set B := backtrack c rem sum [firstItem c f pIdx] (c.placement pIdx).targets.length s1
      with hB
    have hBval : B.1.bestCoverage = max s1.bestCoverage (branchVal c f rem sum pIdx) := by
      rw [hB]
      unfold backtrack branchVal
      exact hsim.1
    have hBfields : B.1.occupancy = s1.occupancy ∧ B.1.depthStamp = s1.depthStamp ∧
        B.1.depth = s1.depth := by
      rw [hB]
      unfold backtrack
      exact btAux_preserves_state c rem.length rem sum _ _ s1 hinv1.1
    have hlegal' : ∀ t ∈ (c.placement pIdx).targets, s.occupancy.getD t 0 = -1 :=
      (legalAt_iff c s.occupancy pIdx).mp hlegal
    have hrestore := apply_undo_restore c s pIdx f hinv0.1 hlegal' B.1
      hBfields.1 hBfields.2.1 hBfields.2.2
    have hs1best : s1.bestCoverage = s.bestCoverage := by
      rw [hs1]
      exact apply_bestCoverage c s pIdx f
    have hstep := ih { undoPlacementByIndex c B.1 pIdx with depth := 0 }
      (fun q hq => hass q (List.mem_cons_of_mem pIdx hq))
      (by show (undoPlacementByIndex c B.1 pIdx).occupancy = _; rw [hrestore.1, hocc])
      (by show (undoPlacementByIndex c B.1 pIdx).depthStamp = _; rw [hrestore.2.1, hstamp])
      rfl
    rw [hstep]
    have hs3best : ({ undoPlacementByIndex c B.1 pIdx with depth := 0 } : BState).bestCoverage =
        max s.bestCoverage (branchVal c f rem sum pIdx) := by
      show (undoPlacementByIndex c B.1 pIdx).bestCoverage = _
      rw [undo_bestCoverage, hBval, hs1best]
    rw [hs3best, List.foldl_cons]

/-- The coverage one worker reports is the running maximum of the branch
values of its assigned first-piece placements. -/
theorem solve_coverage_foldl (c : Ctx) (hT : TargetsOK c) (hS : SlicesOK c)
    (pieceOrder : List Nat)
    (hf : pieceOrder.headD 0 < c.pieces.length)
    (horder : ∀ pi ∈ pieceOrder.tail, pi < c.pieces.length)
    (assigned : List Nat)
    (hass : ∀ pIdx ∈ assigned, pIdx ∈ c.placementIdxs (pieceOrder.headD 0)) :
    (solve c pieceOrder assigned 0).coverage =
      assigned.foldl (fun b pIdx => max b (branchVal c (pieceOrder.headD 0) pieceOrder.tail
        ((pieceOrder.tail.map (fun i => (c.pieceAt i).size)).sum) pIdx)) 0 := by
  rw [solve_eq]
  exact solveLoop_best c hT hS (pieceOrder.headD 0) hf pieceOrder.tail horder _ rfl
    assigned (initState c 0) hass rfl rfl rfl

theorem foldl_max_le (g : Nat → Nat) (B : Nat) :
    ∀ (L : List Nat) (b : Nat), b ≤ B → (∀ x ∈ L, g x ≤ B) →
      L.foldl (fun a x => max a (g x)) b ≤ B := by
  intro L
  induction L with
  | nil => intro b hb _; exact hb
  | cons x rest ih =>
    intro b hb hg
    rw [List.foldl_cons]
    refine ih _ ?_ (fun y hy => hg y (List.mem_cons_of_mem x hy))
    have := hg x (List.mem_cons_self x rest)
    show max b (g x) ≤ B
    omega

theorem foldl_max_init_le (g : Nat → Nat) :
    ∀ (L : List Nat) (b : Nat), b ≤ L.foldl (fun a x => max a (g x)) b := by
  intro L
  induction L with
  | nil => intro b; exact le_refl _
  | cons x rest ih =>
    intro b
    rw [List.foldl_cons]
    have := ih (max b (g x))
    show b ≤ rest.foldl _ (max b (g x))
    omega

theorem le_foldl_max_of_mem (g : Nat → Nat) :
    ∀ (L : List Nat) (b : Nat) (x : Nat), x ∈ L →
      g x ≤ L.foldl (fun a y => max a (g y)) b := by
  intro L
  induction L with
  | nil => intro b x hx; exact absurd hx (List.not_mem_nil x)
  | cons y rest ih =>
    intro b x hx
    rw [List.foldl_cons]
    rcases List.mem_cons.mp hx with hx | hx
    · subst hx
      have := foldl_max_init_le g rest (max b (g x))
      show g x ≤ rest.foldl _ (max b (g x))
      omega
    · exact ih (max b (g y)) x hx

theorem aggStep_coverage (sig : List ExpItem → List (Nat × Nat))
    (acc : Nat × List (List ExpItem)) (r : WorkerReport) :
    (aggStep sig acc r).1 = max acc.1 r.coverage := by
  unfold aggStep
  split_ifs with h1 h2 <;> omega

theorem aggfold_coverage_le (sig : List ExpItem → List (Nat × Nat)) (B : Nat) :
    ∀ (reports : List WorkerReport) (acc : Nat × List (List ExpItem)), acc.1 ≤ B →
      (∀ r ∈ reports, r.coverage ≤ B) →
      (reports.foldl (aggStep sig) acc).1 ≤ B := by
  intro reports
  induction reports with
  | nil => intro acc hacc _; exact hacc
  | cons r rest ih =>
    intro acc hacc hr
    rw [List.foldl_cons]
    refine ih _ ?_ (fun q hq => hr q (List.mem_cons_of_mem r hq))
    rw [aggStep_coverage]
    have := hr r (List.mem_cons_self r rest)
    omega

theorem singleRun_eq (w h : Nat) (defs : List PieceDef) (rot : Bool) :
    singleRun w h defs rot = solve (mkCtx w h defs rot)
      (pieceOrderOf (mkCtx w h defs rot).piecePlacementCount)
      ((mkCtx w h defs rot).placementIdxs (fpIdxOf (mkCtx w h defs rot))) 0 := rfl

/-! ## Claim C8 -/

/-- C8: for the same board, piece catalog (with duplicate-free cell sets)
and rotation flag, and absent cancellation, the final best coverage of a
single-threaded run over the entire first-piece placement list is at least
the final best coverage of any completed sharded multi-worker run (with
empty slices not spawned, and any completion order): sharding never loses
coverage relative to the exhaustive single-threaded search. -/
theorem claim_C8_sharding_no_loss (w h : Nat) (defs : List PieceDef) (rot : Bool)
    (hcells : ∀ pd ∈ defs, pd.cells.Nodup)
    (numWorkers : Nat) (arrival : List Nat) (res : RunResult)
    (hrun : fullRun w h defs rot numWorkers arrival = some res) :
    res.coverage ≤ (singleRun w h defs rot).coverage := by
  have hT := targetsOK_mkCtx w h defs rot hcells
  have hS := slicesOK_mkCtx w h defs rot
  rw [fullRun_eq] at hrun
  by_cases hsp : (spawnedWorkerIds numWorkers
      (placementsPerWorker (fpCountOf (mkCtx w h defs rot)) numWorkers)
      (fpCountOf (mkCtx w h defs rot))).isEmpty
  · rw [if_pos hsp] at hrun
    exact absurd hrun (by simp)
  · rw [if_neg hsp] at hrun
    injection hrun with hrun
    have hcnt : 0 < fpCountOf (mkCtx w h defs rot) :=
      spawned_nonempty_pos _ _ _ (by simpa using hsp)
    have hf : (pieceOrderOf (mkCtx w h defs rot).piecePlacementCount).headD 0 <
        (mkCtx w h defs rot).pieces.length := by
      have h1 := fpIdx_lt_of_pos (mkCtx w h defs rot) hcnt
      rw [mkCtx_counts_length] at h1
      exact h1
    have horder : ∀ pi ∈ (pieceOrderOf (mkCtx w h defs rot).piecePlacementCount).tail,
        pi < (mkCtx w h defs rot).pieces.length := by
      intro pi hp
      have h1 := pieceOrderOf_mem_lt _ pi (List.mem_of_mem_tail hp)
      rw [mkCtx_counts_length] at h1
      exact h1
    have hsingle : (singleRun w h defs rot).coverage =
        ((mkCtx w h defs rot).placementIdxs (fpIdxOf (mkCtx w h defs rot))).foldl
          (fun b pIdx => max b (branchVal (mkCtx w h defs rot)
            ((pieceOrderOf (mkCtx w h defs rot).piecePlacementCount).headD 0)
            (pieceOrderOf (mkCtx w h defs rot).piecePlacementCount).tail
            (((pieceOrderOf (mkCtx w h defs rot).piecePlacementCount).tail.map
              (fun i => ((mkCtx w h defs rot).pieceAt i).size)).sum) pIdx)) 0 := by
      rw [singleRun_eq]
      exact solve_coverage_foldl (mkCtx w h defs rot) hT hS _ hf horder _ (fun p hp => hp)
    have hworker : ∀ i, (workerReport w h defs rot numWorkers i).coverage ≤
        (singleRun w h defs rot).coverage := by
      intro i
      have hw := solve_coverage_foldl (mkCtx w h defs rot) hT hS _ hf horder
        (assignedSlice (fpStartOf (mkCtx w h defs rot)) (fpCountOf (mkCtx w h defs rot))
          (placementsPerWorker (fpCountOf (mkCtx w h defs rot)) numWorkers) i)
        (fun p hp => assignedSlice_mem (mkCtx w h defs rot) _ i p hp)
      have hwc : (workerReport w h defs rot numWorkers i).coverage =
          (assignedSlice (fpStartOf (mkCtx w h defs rot)) (fpCountOf (mkCtx w h defs rot))
            (placementsPerWorker (fpCountOf (mkCtx w h defs rot)) numWorkers) i).foldl
            (fun b pIdx => max b (branchVal (mkCtx w h defs rot)
              ((pieceOrderOf (mkCtx w h defs rot).piecePlacementCount).headD 0)
              (pieceOrderOf (mkCtx w h defs rot).piecePlacementCount).tail
              (((pieceOrderOf (mkCtx w h defs rot).piecePlacementCount).tail.map
                (fun i => ((mkCtx w h defs rot).pieceAt i).size)).sum) pIdx)) 0 := hw
      rw [hwc]
      refine foldl_max_le _ _ _ 0 (Nat.zero_le _) ?_
      intro x hx
      rw [hsingle]
      exact le_foldl_max_of_mem _ _ 0 x
        (assignedSlice_mem (mkCtx w h defs rot) _ i x hx)
    rw [← hrun]
    exact aggfold_coverage_le (mainSignature w h defs) ((singleRun w h defs rot).coverage)
      (arrival.map (workerReport w h defs rot numWorkers)) (0, []) (Nat.zero_le _)
      (fun r hr => by
        obtain ⟨i, _, hi⟩ := List.mem_map.mp hr
        rw [← hi]
        exact hworker i)

/-- Witness for C8: the completed 1-worker run on the 1×2 board reports
coverage 2, which the single-threaded run matches. -/
theorem claim_C8_witness :
    (∀ pd ∈ [pieceG, pieceH], pd.cells.Nodup) ∧
    fullRun 1 2 [pieceG, pieceH] false 1 [0] =
      some (RunResult.mk 2 [[⟨1, (0, 0), 0⟩, ⟨2, (0, 1), 0⟩]]) ∧
    (RunResult.mk 2 [[⟨1, (0, 0), 0⟩, ⟨2, (0, 1), 0⟩]]).coverage ≤
      (singleRun 1 2 [pieceG, pieceH] false).coverage :=
  ⟨by decide, by decide,
    claim_C8_sharding_no_loss 1 2 [pieceG, pieceH] false (by decide) 1 [0]
      (RunResult.mk 2 [[⟨1, (0, 0), 0⟩, ⟨2, (0, 1), 0⟩]]) (by decide)⟩

end HexSolver
